import Mathlib

/-!
Verification development for the roo package manager's dependency
resolution and lock-tree engine.

The Python sources are shallowly embedded:
* `roo/semver.py` is not part of the provided sources (only its callers
  are), so `Version`, `VersionConstraint`, `parse_constraint` and the
  constraint/version textual forms are modelled from the spec.
* pure functions become Lean functions; the resolver's in-place object
  mutation is modelled with an explicit arena (`List RNode`, nodes
  addressed by index) so that Python object identity becomes identity
  of arena indices; fallible code returns `Except`/`Option`; the
  resolver's recursion over the (assumed acyclic) dependency graph is
  fuel-indexed, with exhausted fuel reported as a distinguished error.
-/

namespace Roo

/-! ## Modelled semantic versions (`roo/semver.py` is absent from src) -/

/-- Modelled from the spec: `roo.semver.Version`, a semantic version with
"semantic version ordering"; the module itself is not under src/. -/
structure Version where
  major : Nat
  minor : Nat
  patch : Nat
deriving DecidableEq, Repr

/-- Modelled from the spec: lexicographic (semantic) order on versions. -/
def Version.le (a b : Version) : Bool :=
  if a.major < b.major then true
  else if b.major < a.major then false
  else if a.minor < b.minor then true
  else if b.minor < a.minor then false
  else decide (a.patch ≤ b.patch)

/-- Modelled from the spec: strict semantic version order. -/
def Version.lt (a b : Version) : Bool :=
  Version.le a b && !(a == b)

/-- Modelled from the spec: canonical dotted textual form of a version. -/
def versionText (v : Version) : String :=
  toString v.major ++ "." ++ toString v.minor ++ "." ++ toString v.patch

/-- Decimal digit value of a character, if it is a digit. -/
def digitVal (c : Char) : Option Nat :=
  let n := c.toNat
  if 48 ≤ n && n ≤ 57 then some (n - 48) else none

/-- Read a nonempty run of decimal digits. -/
def charsToNat? : List Char → Option Nat
  | [] => none
  | cs => cs.foldl (fun acc c => acc.bind (fun a => (digitVal c).map (fun d => a * 10 + d))) (some 0)

/-- Split a character list on a separator (pieces never contain it). -/
def splitOnChar (sep : Char) : List Char → List (List Char)
  | [] => [[]]
  | c :: rest =>
    if c == sep then [] :: splitOnChar sep rest
    else
      match splitOnChar sep rest with
      | h :: t => (c :: h) :: t
      | [] => [[c]]

/-- Modelled from the spec: parse a canonical dotted version text. -/
def parseVerChars (cs : List Char) : Option Version :=
  match (splitOnChar '.' cs).map charsToNat? with
  | [some a, some b, some c] => some ⟨a, b, c⟩
  | _ => none

/-- Modelled from the spec: `Version.parse` on canonical dotted text. -/
def Version.parse (s : String) : Option Version :=
  parseVerChars s.data

/-- Modelled from the spec: comparison operators of a version range atom. -/
inductive COp where
  | ceq
  | cge
  | cgt
  | cle
  | clt
deriving DecidableEq, Repr

/-- Modelled from the spec: textual form of a comparison operator. -/
def COp.text : COp → String
  | .ceq => "=="
  | .cge => ">="
  | .cgt => ">"
  | .cle => "<="
  | .clt => "<"

/-- Modelled from the spec: whether candidate version `v` stands in the
relation demanded by the operator to the reference version `r`. -/
def COp.test : COp → Version → Version → Bool
  | .ceq, v, r => v == r
  | .cge, v, r => Version.le r v
  | .cgt, v, r => Version.lt r v
  | .cle, v, r => Version.le v r
  | .clt, v, r => Version.lt v r

/-- Modelled from the spec: `roo.semver.VersionConstraint`, a version
range expression: anything, a single comparison, or a conjunction
(written with commas). -/
inductive VersionConstraint where
  | star : VersionConstraint
  | cmp (op : COp) (v : Version) : VersionConstraint
  | conj (a b : VersionConstraint) : VersionConstraint
deriving DecidableEq, Repr

/-- Modelled from the spec: `VersionConstraint.allows(version)`. -/
def VersionConstraint.allows : VersionConstraint → Version → Bool
  | .star, _ => true
  | .cmp op r, v => op.test v r
  | .conj a b, v => a.allows v && b.allows v

/-- Modelled from the spec: `str(constraint)`, the canonical comma-joined
textual form of a constraint. -/
def VersionConstraint.text : VersionConstraint → String
  | .star => "*"
  | .cmp op v => op.text ++ versionText v
  | .conj a b => a.text ++ "," ++ b.text

/-- Modelled from the spec: parse one comma-free constraint atom. -/
def parseAtom (cs : List Char) : Option VersionConstraint :=
  match cs with
  | ['*'] => some .star
  | '>' :: '=' :: r => (parseVerChars r).map (.cmp .cge ·)
  | '<' :: '=' :: r => (parseVerChars r).map (.cmp .cle ·)
  | '=' :: '=' :: r => (parseVerChars r).map (.cmp .ceq ·)
  | '>' :: r => (parseVerChars r).map (.cmp .cgt ·)
  | '<' :: r => (parseVerChars r).map (.cmp .clt ·)
  | r => (parseVerChars r).map (.cmp .ceq ·)

/-- Modelled from the spec: `roo.semver.parse_constraint`, parsing a
comma-separated conjunction of atoms; malformed input is a parse
failure (an exception in the original). -/
def parse_constraint (s : String) : Option VersionConstraint :=
  match splitOnChar ',' s.data with
  | [] => none
  | a :: rest =>
    (parseAtom a).bind (fun c0 =>
      rest.foldlM (fun acc x => (parseAtom x).map (fun c => VersionConstraint.conj acc c)) c0)

/-! ## Packages and sources (`roo/sources/`) -/

/-- A declared sub-requirement of a package manifest
(`roo.parsers.description.Dependency`): a name plus constraint strings. -/
structure PkgDep where
  name : String
  constraint : List String
deriving DecidableEq, Repr

/-- `roo.sources.source_package.SourcePackage`: a concrete package offered
by a source.  Name/version are derived from the filename in Python; here
they are carried directly.  `deps` and `r_constraint` are the manifest
data that `package.dependencies` / `package.r_constraint` expose after
`ensure_local()` (retrieval itself is out of scope). -/
structure SourcePackage where
  name : String
  version : Version
  sourceName : String
  filename : String
  hash : String
  deps : List PkgDep
  r_constraint : List String
  expected_hash : Option String := none
deriving DecidableEq, Repr

/-- `roo.sources.source_abc.SourceABC`: a named, prioritised source
offering a list of packages (`find_package_versions` filters them by
name). -/
structure Source where
  name : String
  priority : Int
  packages : List SourcePackage
deriving DecidableEq, Repr

/-- `Source.find_package_versions(name)`. -/
def Source.find_package_versions (s : Source) (name : String) : List SourcePackage :=
  s.packages.filter (fun p => p.name == name)

/-- `Source.find_package(name, version)`: first package with the given
name and version, if any (else `PackageNotFoundError`). -/
def Source.find_package (s : Source) (name : String) (version : Version) : Option SourcePackage :=
  (s.packages.filter (fun p => p.name == name && p.version == version)).head?

/-- `roo.sources.source_group.SourceGroup`: sources in addition order. -/
structure SourceGroup where
  sources : List Source
deriving DecidableEq, Repr

/-- `SourceGroup.source_by_name` (raises `KeyError` when absent). -/
def SourceGroup.source_by_name (g : SourceGroup) (name : String) : Option Source :=
  (g.sources.filter (fun s => s.name == name)).head?

/-- Insertion into a sorted list of priorities. -/
def insertSortedInt (x : Int) : List Int → List Int
  | [] => [x]
  | y :: ys => if x ≤ y then x :: y :: ys else y :: insertSortedInt x ys

/-- Insertion sort of priorities (ascending), as `sorted(d.keys())`. -/
def sortInts : List Int → List Int
  | [] => []
  | x :: xs => insertSortedInt x (sortInts xs)

/-- The distinct priorities of the group, ascending. -/
def SourceGroup.prioritiesSorted (g : SourceGroup) : List Int :=
  sortInts ((g.sources.map (fun s => s.priority)).dedup)

/-- The sources of one priority band, preserving addition order (the
`setdefault`-grouping of `_sources_by_priority`). -/
def SourceGroup.sourcesAtPriority (g : SourceGroup) (p : Int) : List Source :=
  g.sources.filter (fun s => s.priority == p)

/-- `SourceGroup._sources_by_priority`: bands ordered from lowest to
highest priority, each preserving addition order. -/
def SourceGroup.sources_by_priority (g : SourceGroup) : List (List Source) :=
  g.prioritiesSorted.map (fun p => g.sourcesAtPriority p)

/-- The per-band candidate list of `find_most_recent_package`: every
version of `name` each source offers, filtered by the constraint,
concatenated in source-addition order. -/
def bandCandidates (band : List Source) (name : String) (c : VersionConstraint) : List SourcePackage :=
  band.flatMap (fun s =>
    (s.find_package_versions name).filter (fun p => c.allows p.version))

/-- Maximum version among the candidates (`sorted(...)[-1]`). -/
def maxVersionOf : List SourcePackage → Version
  | [] => ⟨0, 0, 0⟩
  | p :: ps => ps.foldl (fun m q => if Version.le m q.version then q.version else m) p.version

/-- The band-descending search loop of `find_most_recent_package`. -/
def find_most_recent_go (name : String) (c : VersionConstraint) : List (List Source) → Option SourcePackage
  | [] => none
  | band :: rest =>
    let av := bandCandidates band name c
    if av.isEmpty then find_most_recent_go name c rest
    else
      let hv := maxVersionOf av
      (av.filter (fun p => p.version == hv)).head?

/-- `SourceGroup.find_most_recent_package(name, constraint)`: search
priority bands from highest to lowest; inside the first band with any
candidate return the first copy of the maximum satisfying version;
`none` models `PackageNotFoundError`. -/
def SourceGroup.find_most_recent_package (g : SourceGroup) (name : String) (c : VersionConstraint) : Option SourcePackage :=
  find_most_recent_go name c g.sources_by_priority.reverse

/-! ## The dependency tree (`roo/deptree/dependencies.py`) as an inductive
tree, used by the traversal algorithms of `roo/deptree/traverse.py`.
Sharing in the Python object graph becomes duplication here; the
traversals only read the tree, so the visit lists agree. -/

/-- A dependency tree node (`AnyDependency`): the root, a resolved
dependency (any `Resolved*` variant), or an unresolved one (any
`Unresolved*` variant).  Only the fields the traversals read are kept:
kind, `name`, `categories`, `dependencies`. -/
inductive Dep where
  | root (dependencies : List Dep) : Dep
  | res (name : String) (categories : List String) (dependencies : List Dep) : Dep
  | unres (name : String) (categories : List String) : Dep
deriving Repr

mutual

/-- Size measure for termination of the worklist traversal. -/
def Dep.size : Dep → Nat
  | .root ds => 1 + sizeListD ds
  | .res _ _ ds => 1 + sizeListD ds
  | .unres _ _ => 1

/-- Total size of a list of dependency trees. -/
def sizeListD : List Dep → Nat
  | [] => 0
  | d :: ds => Dep.size d + sizeListD ds

end

/-- The children a traversal recurses into: `node.dependencies` for the
root and resolved nodes, nothing for an unresolved node (the traversals
must not recurse into it). -/
def Dep.children : Dep → List Dep
  | .root ds => ds
  | .res _ _ ds => ds
  | .unres _ _ => []

theorem sizeListD_append (a b : List Dep) :
    sizeListD (a ++ b) = sizeListD a + sizeListD b := by
  induction a with
  | nil => simp [sizeListD]
  | cons d ds ih => simp [sizeListD, ih]; omega

theorem sizeListD_children_lt (d : Dep) : sizeListD d.children < d.size := by
  cases d <;> (simp only [Dep.children, Dep.size, sizeListD]; omega)

/-- The worklist loop of `traverse_depth_first` (`_traverse_tree_2`):
a queue with an index cursor; visiting a node appends its children to
the end of the queue.  The returned list is the final queue. -/
def traverseGo : List Dep → List Dep
  | [] => []
  | d :: rest => d :: traverseGo (rest ++ d.children)
termination_by l => sizeListD l
decreasing_by
  have h := sizeListD_children_lt d
  simp only [sizeListD, sizeListD_append]
  omega

/-- `traverse_depth_first(base)`. -/
def traverse_depth_first (base : Dep) : List Dep :=
  traverseGo [base]

/-- Key of a node in `_unique`'s ordered dictionary: the root is keyed
by the empty string, resolved nodes by their name. -/
def odAssign (od : List (String × Dep)) (k : String) (v : Dep) : List (String × Dep) :=
  if od.any (fun p => p.1 == k) then
    od.map (fun p => if p.1 == k then (k, v) else p)
  else od ++ [(k, v)]

/-- The loop of `_unique`: fold the visit list into a name-keyed ordered
dictionary; the root is keyed `""` (assignment semantics), a resolved
node is skipped when its name was already seen, and an unresolved node
raises `TypeError`. -/
def uniqueGo : List (String × Dep) → List Dep → Except String (List (String × Dep))
  | od, [] => .ok od
  | od, d :: rest =>
    match d with
    | .root _ => uniqueGo (odAssign od "" d) rest
    | .res n _ _ =>
      if od.any (fun p => p.1 == n) then uniqueGo od rest
      else uniqueGo (od ++ [(n, d)]) rest
    | .unres _ _ => .error "Unable to handle unresolved dependency"

/-- `_unique(resolved_deps)`: the values of the ordered dictionary, or a
`TypeError` if an unresolved node appears in the list. -/
def uniqueDeps (l : List Dep) : Except String (List Dep) :=
  (uniqueGo [] l).map (fun od => od.map (fun p => p.2))

/-- `traverse_depth_first_unique(base)`. -/
def traverse_depth_first_unique (base : Dep) : Except String (List Dep) :=
  uniqueDeps (traverse_depth_first base)

/-! ## Lock entries (`roo/parsers/lock.py`) -/

/-- `roo.parsers.lock.PackageFile`. -/
structure PackageFile where
  name : String
  hash : String
deriving DecidableEq, Repr

/-- The lock entry variants (`RootLockEntry`, `SourceLockEntry`,
`VCSLockEntry`, `CoreLockEntry`).  Versions are carried structurally
(the textual version of the Python lock maps bijectively onto them for
canonical dotted versions). -/
inductive LockEntry where
  | root (categories : List String) (dependencies : List String) : LockEntry
  | source (name : String) (version : Version) (sourceName : String)
      (categories : List String) (r_constraint : String)
      (files : List PackageFile) (dependencies : List String) : LockEntry
  | vcs (name : String) (vcs_type : String) (url : String) (ref : Option String)
      (categories : List String) (dependencies : List String) : LockEntry
  | core (name : String) (categories : List String) (dependencies : List String) : LockEntry
deriving DecidableEq, Repr

/-! ## The resolution arena

The Python resolver mutates a graph of `Resolved*` objects shared
between the tree and the resolver cache.  Object identity is modelled
with an arena: every resolved node lives in a store (`List RNode`) and
is addressed by its index, so "the same object at every occurrence"
becomes "the same index at every occurrence".  Unresolved dependencies
are not shared in Python (each manifest line creates a fresh object),
so they are stored structurally inside the `deps` list of their
parent. -/

/-- The variant-specific payload of a `Resolved*` node. -/
inductive NodeKind where
  | src (package : SourcePackage) (r_constraint : VersionConstraint) : NodeKind
  | vcs (vcs_type : String) (url : String) (ref : Option String) : NodeKind
  | core : NodeKind
deriving DecidableEq, Repr

/-- A structural dependency as stored in a `dependencies` list: a
reference to a resolved node in the arena, or one of the three
`Unresolved*` variants. -/
inductive Child where
  | res (id : Nat) : Child
  | unres (name : String) (categories : List String) : Child
  | unresC (name : String) (categories : List String) (constraint : VersionConstraint) : Child
  | unresV (name : String) (categories : List String) (vcs_type : String)
      (url : String) (ref : Option String) : Child
deriving DecidableEq, Repr

/-- `dep.name` of an unresolved child (`""` for an arena reference,
which is never asked for its name without the store). -/
def Child.cname : Child → String
  | .res _ => ""
  | .unres n _ => n
  | .unresC n _ _ => n
  | .unresV n _ _ _ _ => n

/-- `dep.categories` of an unresolved child. -/
def Child.ccats : Child → List String
  | .res _ => []
  | .unres _ c => c
  | .unresC _ c _ => c
  | .unresV _ c _ _ _ => c

/-- A resolved dependency node (`ResolvedDependency` and subclasses). -/
structure RNode where
  name : String
  categories : List String
  kind : NodeKind
  deps : List Child
deriving DecidableEq, Repr

/-- A `RootDependency` together with the arena its resolved nodes live
in. -/
structure Tree where
  store : List RNode
  rootDeps : List Child
deriving DecidableEq, Repr

/-- Errors of the transforms and of the resolver.  `CannotResolveError`
messages are modelled structurally (package name and, when present, the
requesting parent's name).  `fuelOut` and `dangling` are modelling
artefacts: a run that would not terminate, or an arena reference
outside the store (impossible for stores built by the code). -/
inductive RooErr where
  | keyError (k : String) : RooErr
  | pkgNotFound (name : String) : RooErr
  | indexError : RooErr
  | parseError (s : String) : RooErr
  | typeError (msg : String) : RooErr
  | cannotSatisfy (name : String) (parent : Option String) : RooErr
  | undefinedUnresolved (name : String) : RooErr
  | unableToFind (name : String) : RooErr
  | vcsCloneFailed (name : String) : RooErr
  | fuelOut : RooErr
  | dangling (id : Nat) : RooErr
deriving DecidableEq, Repr

/-- Lookup in a name-keyed dictionary (insertion ordered). -/
def dictGet (m : List (String × Nat)) (k : String) : Option Nat :=
  match m.find? (fun p => p.1 == k) with
  | some p => some p.2
  | none => none

/-- Assignment in a name-keyed dictionary: replace in place when the key
exists, append otherwise. -/
def dictSet (m : List (String × Nat)) (k : String) (v : Nat) : List (String × Nat) :=
  if m.any (fun p => p.1 == k) then
    m.map (fun p => if p.1 == k then (k, v) else p)
  else m ++ [(k, v)]

/-- Deletion from a name-keyed dictionary; `KeyError` when absent. -/
def dictDel (m : List (String × Nat)) (k : String) : Except RooErr (List (String × Nat)) :=
  if m.any (fun p => p.1 == k) then .ok (m.filter (fun p => p.1 != k))
  else .error (.keyError k)

/-! ## Tree ↔ lock transforms (`roo/deptree/transforms.py`) -/

/-- Pass 1 of `lock_entries_to_deptree`, one entry: build the node with
*placeholder* unresolved children (`UnresolvedDependency(name, parent
entry's categories)`), re-locate the package of a source entry in the
source group, attach the stored hash as `expected_hash` and parse the R
constraint. -/
def buildEntry (g : SourceGroup)
    (st : List RNode × List (String × Nat) × List Child) (e : LockEntry) :
    Except RooErr (List RNode × List (String × Nat) × List Child) :=
  let (store, m, rootDeps0) := st
  match e with
  | .root _ deps =>
    .ok (store, m, deps.map (fun d => Child.unres d []))
  | .source name version sourceName categories rc files deps =>
    match g.source_by_name sourceName with
    | none => .error (.keyError sourceName)
    | some s =>
      match s.find_package name version with
      | none => .error (.pkgNotFound name)
      | some pkg =>
        match files.head? with
        | none => .error .indexError
        | some f =>
          match parse_constraint rc with
          | none => .error (.parseError rc)
          | some rcv =>
            let node : RNode :=
              { name := name, categories := categories,
                kind := .src { pkg with expected_hash := some f.hash } rcv,
                deps := deps.map (fun d => Child.unres d categories) }
            .ok (store ++ [node], dictSet m name store.length, rootDeps0)
  | .vcs name vcs_type url ref categories deps =>
    let node : RNode :=
      { name := name, categories := categories,
        kind := .vcs vcs_type url ref,
        deps := deps.map (fun d => Child.unres d categories) }
    .ok (store ++ [node], dictSet m name store.length, rootDeps0)
  | .core name categories _ =>
    let node : RNode :=
      { name := name, categories := categories, kind := .core, deps := [] }
    .ok (store ++ [node], dictSet m name store.length, rootDeps0)

/-- Pass 2 of `lock_entries_to_deptree`, one placeholder: bind it to the
shared node registered under its name (`all_deps[unresolved.name]`),
`KeyError` when the name has no entry. -/
def bindChild (m : List (String × Nat)) (c : Child) : Except RooErr Child :=
  match dictGet m c.cname with
  | some i => .ok (.res i)
  | none => .error (.keyError c.cname)

/-- Pass 2 over the store: only the nodes that survived in `all_deps`
(the last entry of each name) get their placeholders bound. -/
def bindStore (m : List (String × Nat)) : Nat → List RNode → Except RooErr (List RNode)
  | _, [] => .ok []
  | i, n :: rest => do
    let n' ←
      if dictGet m n.name == some i then do
        let ds ← n.deps.mapM (bindChild m)
        pure { n with deps := ds }
      else pure n
    let rest' ← bindStore m (i + 1) rest
    pure (n' :: rest')

/-- `lock_entries_to_deptree(source_group, entries)`. -/
def lock_entries_to_deptree (g : SourceGroup) (entries : List LockEntry) :
    Except RooErr Tree :=
  if entries.isEmpty then .ok ⟨[], []⟩ else do
    let (store, m, rootDeps0) ← entries.foldlM (buildEntry g) ([], [], [])
    let store' ← bindStore m 0 store
    let rootDeps ← rootDeps0.mapM (bindChild m)
    .ok ⟨store', rootDeps⟩

/-- A visit item of an arena traversal: the root, or a structural
child. -/
inductive Item where
  | root : Item
  | child (c : Child) : Item
deriving DecidableEq, Repr

/-- The worklist loop of `traverse_depth_first` run over the arena:
visiting the root or a resolved reference appends its `dependencies` to
the queue; an unresolved child is visited but contributes no
children. -/
def bfsGo (t : Tree) : Nat → List Item → Option (List Item)
  | 0, _ => none
  | _, [] => some []
  | fuel + 1, it :: rest =>
    let cs? : Option (List Item) :=
      match it with
      | .root => some (t.rootDeps.map Item.child)
      | .child (.res i) => t.store[i]?.map (fun n => n.deps.map Item.child)
      | .child _ => some []
    match cs? with
    | none => none
    | some cs => (bfsGo t fuel (rest ++ cs)).map (fun l => it :: l)

/-- `traverse_depth_first(root)` over the arena (fuel-indexed; `none`
models non-termination on a cyclic store). -/
def traverseArena (t : Tree) (fuel : Nat) : Option (List Item) :=
  bfsGo t fuel [.root]

/-- The `_unique` key of a visit item: `""` for the root, the node name
for a resolved reference; an unresolved child raises `TypeError`. -/
def itemKey (t : Tree) : Item → Except RooErr String
  | .root => .ok ""
  | .child (.res i) =>
    match t.store[i]? with
    | some n => .ok n.name
    | none => .error (.dangling i)
  | .child _ => .error (.typeError "Unable to handle unresolved dependency")

/-- The fold of `_unique` over the arena visit list (first occurrence of
each key survives; a visited unresolved child is a `TypeError`). -/
def uniqueArenaGo (t : Tree) : List String → List Item → Except RooErr (List Item)
  | _, [] => .ok []
  | seen, it :: rest => do
    let k ← itemKey t it
    if seen.contains k then uniqueArenaGo t seen rest
    else do
      let l ← uniqueArenaGo t (k :: seen) rest
      pure (it :: l)

/-- `traverse_depth_first_unique(root)` over the arena. -/
def traverseArenaUnique (t : Tree) (fuel : Nat) : Except RooErr (List Item) :=
  match traverseArena t fuel with
  | none => .error .fuelOut
  | some items => uniqueArenaGo t [] items

/-- `x.name` of a structural child, reading resolved references in the
store (the Python code accesses `.name` directly on the object). -/
def childNameT (t : Tree) (c : Child) : Except RooErr String :=
  match c with
  | .res i =>
    match t.store[i]? with
    | some n => .ok n.name
    | none => .error (.dangling i)
  | c => .ok c.cname

/-- Serialization of one visited node by `deptree_to_lock_entries`:
core entries keep an empty dependency list; the root keeps empty
categories; source entries are written from the attached package. -/
def entryOfItem (t : Tree) : Item → Except RooErr LockEntry
  | .root => do
    let ds ← t.rootDeps.mapM (childNameT t)
    pure (.root [] ds)
  | .child (.res i) =>
    match t.store[i]? with
    | none => .error (.dangling i)
    | some n =>
      match n.kind with
      | .core => .ok (.core n.name n.categories [])
      | .src pkg rc => do
        let ds ← n.deps.mapM (childNameT t)
        pure (.source pkg.name pkg.version pkg.sourceName n.categories
          rc.text [⟨pkg.filename, pkg.hash⟩] ds)
      | .vcs vt url ref => do
        let ds ← n.deps.mapM (childNameT t)
        pure (.vcs n.name vt url ref n.categories ds)
  | .child _ => .error (.typeError "No clue what to write in the package")

/-- `deptree_to_lock_entries(root)` (fuel-indexed traversal). -/
def deptree_to_lock_entries (t : Tree) (fuel : Nat) : Except RooErr (List LockEntry) := do
  let items ← traverseArenaUnique t fuel
  items.mapM (entryOfItem t)

/-! ## The resolver (`roo/resolver.py`) -/

/-- `is_core_dependency`: the fixed allow-list of runtime-bundled
modules. -/
def is_core_dependency (n : String) : Bool :=
  (["R", "stats", "utils", "graphics", "grDevices",
    "methods", "tools", "parallel", "splines", "grid",
    "compiler", "datasets", "stats4", "tcltk", "translations"] : List String).contains n

/-- `_constraint_list_to_object`: join the constraint strings with
commas, defaulting to `"*"` when empty, and parse. -/
def constraint_list_to_object (l : List String) : Option VersionConstraint :=
  let s := String.intercalate "," l
  let s := if s.length == 0 then "*" else s
  parse_constraint s

/-- Duplicate removal keeping first occurrences; the model of Python's
`list(set(...))` (whose order is unspecified; only the underlying set
matters to the code). -/
def dedupAcc (seen : List String) : List String → List String
  | [] => []
  | x :: xs => if seen.contains x then dedupAcc seen xs else x :: dedupAcc (x :: seen) xs

/-- `list(set(a + b))`. -/
def unionCats (a b : List String) : List String :=
  dedupAcc [] (a ++ b)

/-- Recategorisation of an unresolved child in place
(`subdep.categories = list(set(subdep.categories + categories))`). -/
def updateUCats (c : Child) (cats : List String) : Child :=
  match c with
  | .res i => .res i
  | .unres n cs => .unres n (unionCats cs cats)
  | .unresC n cs k => .unresC n (unionCats cs cats) k
  | .unresV n cs vt url ref => .unresV n (unionCats cs cats) vt url ref

/-- The resolver state: the arena and `resolved_cache`. -/
structure RState where
  store : List RNode
  cache : List (String × Nat)
deriving DecidableEq, Repr

/-- Replace the node at an arena index. -/
def setNode (st : RState) (id : Nat) (n : RNode) : RState :=
  { st with store := st.store.set id n }

/-- In-place category update of the unresolved child at position `j` of
node `id`'s `dependencies`.  Python mutates the unresolved *object*; if
the position no longer holds an unresolved placeholder (the object was
replaced and is garbage), the mutation does not affect the tree, hence
the guard. -/
def updateChildAt (st : RState) (id : Nat) (j : Nat) (cats : List String) : RState :=
  match st.store[id]? with
  | some n =>
    match n.deps[j]? with
    | some (.res _) => st
    | some c => setNode st id { n with deps := n.deps.set j (updateUCats c cats) }
    | none => st
  | none => st

/-- The loop of `add_categories_recursive` over the `dependencies`
list, tracking the position of in-place category updates; `f` is the
recursive descent into a resolved subdependency. -/
def addCatsDeps (f : RState → Nat → Except RooErr RState) :
    RState → Nat → List Child → Nat → List String → Except RooErr RState
  | st, _, [], _, _ => .ok st
  | st, id, c :: rest, j, cats =>
    match c with
    | .res cid => do
      let st' ← f st cid
      addCatsDeps f st' id rest (j + 1) cats
    | _ => addCatsDeps f (updateChildAt st id j cats) id rest (j + 1) cats

/-- `ResolvedDependency.add_categories_recursive(categories)` on node
`id`: union the categories into the node, then into every resolved
subdependency recursively, and into every unresolved subdependency in
place.  Fuel-indexed (the Python recursion would not terminate on a
cyclic graph). -/
def addCatsRec : Nat → RState → Nat → List String → Except RooErr RState
  | 0, _, _, _ => .error .fuelOut
  | fuel + 1, st, id, cats =>
    match st.store[id]? with
    | none => .error (.dangling id)
    | some n =>
      let st1 := setNode st id { n with categories := unionCats n.categories cats }
      addCatsDeps (fun st' cid => addCatsRec fuel st' cid cats) st1 id n.deps 0 cats

/-- `Resolver._check_constraints(parent, resolved, unresolved)`:
`ok true` = compatible, `ok false` = constraint conflict (printed, then
turned into `CannotResolveError` by the caller); a requirement that is
neither constrained nor VCS raises `TypeError`. -/
def checkConstraints (_parent : Option String) (resolved : RNode) (unresolved : Child) :
    Except RooErr Bool :=
  match unresolved with
  | .unresC _ _ c =>
    match resolved.kind with
    | .src pkg _ => if c.allows pkg.version then .ok true else .ok false
    | .vcs _ _ _ => .ok true
    | .core => .ok true
  | .unresV _ _ _ _ _ => .ok true
  | _ => .error (.typeError "Unable to check constraints for unknown type")

/-- `_extract_subdeps(package)` followed by the category assignment of
the caller: each manifest line becomes an `UnresolvedConstrained-`
`Dependency` with the parent's categories. -/
def extractSubdeps (pdeps : List PkgDep) (cats : List String) : Except RooErr (List Child) :=
  pdeps.mapM (fun d =>
    match constraint_list_to_object d.constraint with
    | some c => .ok (Child.unresC d.name cats c)
    | none => .error (.parseError d.name))

/-- `Resolver._resolve_by_constraint`: find the most recent satisfying
package across the source group (`PackageNotFoundError` becomes
`CannotResolveError`), read its manifest, and build a resolved source
node whose children are still unresolved. -/
def resolveByConstraint (g : SourceGroup) (name : String) (cats : List String)
    (c : VersionConstraint) : Except RooErr RNode :=
  match g.find_most_recent_package name c with
  | none => .error (.unableToFind name)
  | some pkg => do
    let subdeps ← extractSubdeps pkg.deps cats
    match constraint_list_to_object pkg.r_constraint with
    | none => .error (.parseError pkg.name)
    | some rc =>
      pure { name := pkg.name, categories := cats, kind := .src pkg rc, deps := subdeps }

/-- The outside world a VCS resolution consults: the manifest obtained
by a shallow clone of `url` at `ref`, or `none` when the clone fails. -/
structure VcsEnv where
  manifest : String → Option String → Option (List PkgDep)

/-- `Resolver._resolve_by_vcs`: shallow-clone, read the manifest, build
a resolved VCS node (`vcs_type` is always recorded as `"git"`). -/
def resolveByVcs (env : VcsEnv) (name : String) (cats : List String)
    (url : String) (ref : Option String) : Except RooErr RNode :=
  match env.manifest url ref with
  | none => .error (.vcsCloneFailed name)
  | some pdeps => do
    let subdeps ← extractSubdeps pdeps cats
    pure { name := name, categories := cats, kind := .vcs "git" url ref, deps := subdeps }

/-- `Resolver._resolve_single_dep(parent, dep, ...)`: pass through a
node that is already resolved; on a cache hit check constraint
compatibility (failure is fatal, naming the package and the requesting
parent) and union the requirement's categories into the cached subtree;
on a miss classify (core / constrained / VCS / malformed), resolve, and
insert the new node into the cache under the requirement's name. -/
def resolveSingleDep (g : SourceGroup) (env : VcsEnv) (fuel : Nat) (st : RState)
    (parent : Option String) (dep : Child) : Except RooErr (RState × Nat) :=
  match dep with
  | .res id => .ok (st, id)
  | d =>
    let n := d.cname
    match dictGet st.cache n with
    | some id =>
      match st.store[id]? with
      | none => .error (.dangling id)
      | some node =>
        match checkConstraints parent node d with
        | .error e => .error e
        | .ok false => .error (.cannotSatisfy n parent)
        | .ok true => do
          let st' ← addCatsRec fuel st id d.ccats
          pure (st', id)
    | none => do
      let node ←
        if is_core_dependency n then
          pure { name := n, categories := d.ccats, kind := NodeKind.core,
                 deps := ([] : List Child) }
        else
          match d with
          | .unresC _ cats c => resolveByConstraint g n cats c
          | .unresV _ cats _ url ref => resolveByVcs env n cats url ref
          | _ => .error (.undefinedUnresolved n)
      let id := st.store.length
      pure ({ store := st.store ++ [node], cache := dictSet st.cache n id }, id)

/-- The loop of `_depth_first_resolve` over a snapshot of the node's
`dependencies`: resolve each child (`rsd`, parent = the node), recurse
into it (`dfr`), and collect the resolved indices. -/
def dfrChildren (rsd : RState → Child → Except RooErr (RState × Nat))
    (dfr : RState → Nat → Except RooErr RState) :
    RState → List Child → Except RooErr (RState × List Nat)
  | st, [] => .ok (st, [])
  | st, c :: rest => do
    let (st1, cid) ← rsd st c
    let st2 ← dfr st1 cid
    let (st3, ids) ← dfrChildren rsd dfr st2 rest
    pure (st3, cid :: ids)

/-- `Resolver._depth_first_resolve(dependency, level)` on node `id`:
resolve and recurse into every child of the snapshot, then replace the
node's `dependencies` with the resolved list. -/
def depthFirstResolve (g : SourceGroup) (env : VcsEnv) :
    Nat → RState → Nat → Except RooErr RState
  | 0, _, _ => .error .fuelOut
  | fuel + 1, st, id =>
    match st.store[id]? with
    | none => .error (.dangling id)
    | some n => do
      let (st1, ids) ← dfrChildren (fun s c => resolveSingleDep g env fuel s (some n.name) c)
        (fun s i => depthFirstResolve g env fuel s i) st n.deps
      match st1.store[id]? with
      | none => .error (.dangling id)
      | some n' => pure (setNode st1 id { n' with deps := ids.map Child.res })

/-- `Resolver._first_level_resolve(root)`: resolve every direct child
of the root (parent = the root), collecting the resolved indices that
replace `root.dependencies`. -/
def firstLevelResolve (g : SourceGroup) (env : VcsEnv) (fuel : Nat) :
    RState → List Child → Except RooErr (RState × List Nat)
  | st, [] => .ok (st, [])
  | st, c :: rest => do
    let (st1, id) ← resolveSingleDep g env fuel st none c
    let (st2, ids) ← firstLevelResolve g env fuel st1 rest
    pure (st2, id :: ids)

/-- `Resolver._resolve_tree_depth_first(root)`: run the depth-first
resolution from every (already resolved) direct child of the root. -/
def resolveTreeDF (g : SourceGroup) (env : VcsEnv) (fuel : Nat) :
    RState → List Nat → Except RooErr RState
  | st, [] => .ok st
  | st, id :: rest => do
    let st1 ← depthFirstResolve g env fuel st id
    resolveTreeDF g env fuel st1 rest

/-- The cache-population loop of `_pre_populate_cache`: register every
resolved visit item under its node's name (the root is skipped by the
`isinstance(dep, ResolvedDependency)` filter). -/
def cacheFromItems (store : List RNode) (items : List Item) :
    Except RooErr (List (String × Nat)) :=
  items.foldlM (fun m it =>
    match it with
    | Item.child (Child.res i) =>
      match store[i]? with
      | some n => .ok (dictSet m n.name i)
      | none => .error (.dangling i)
    | _ => .ok m) ([] : List (String × Nat))

/-- The deletion loop of `_pre_populate_cache`: remove the name of every
direct child of the new root from the cache. -/
def delRootNames (newRootDeps : List Child) (cache0 : List (String × Nat)) :
    Except RooErr (List (String × Nat)) :=
  newRootDeps.foldlM (fun m c => dictDel m c.cname) cache0

/-- `Resolver._pre_populate_cache(root, old_tree)`: fill the cache with
every uniquely-named resolved node of the old tree (depth-first-unique
traversal), then delete from the cache the name of every direct child
of the new root (`KeyError` when such a name is not in the cache). -/
def prePopulateCache (store : List RNode) (oldRootDeps : List Child)
    (newRootDeps : List Child) (fuel : Nat) : Except RooErr (List (String × Nat)) := do
  let items ← traverseArenaUnique ⟨store, oldRootDeps⟩ fuel
  let cache0 ← cacheFromItems store items
  delRootNames newRootDeps cache0

/-- `Resolver.resolve_full_tree(root, old_tree)`: start from a cleared
cache (pre-populated in conservative mode from the old tree, which
lives in the same arena), resolve the first level, then resolve the
whole tree depth first.  Returns the final arena and the indices that
replace `root.dependencies`. -/
def resolve_full_tree (g : SourceGroup) (env : VcsEnv) (fuel : Nat)
    (store0 : List RNode) (rootDeps : List Child)
    (oldRootDeps : Option (List Child)) : Except RooErr (List RNode × List Nat) := do
  let cache ←
    match oldRootDeps with
    | none => pure ([] : List (String × Nat))
    | some old => prePopulateCache store0 old rootDeps fuel
  let st : RState := ⟨store0, cache⟩
  let (st1, ids) ← firstLevelResolve g env fuel st rootDeps
  let st2 ← resolveTreeDF g env fuel st1 ids
  pure (st2.store, ids)

/-! ## Notions used to state the verified properties -/

/-- The `_unique` dictionary key of a node: `""` for the root, the name
otherwise. -/
def Dep.keyName : Dep → String
  | .root _ => ""
  | .res n _ _ => n
  | .unres n _ => n

/-- Whether a tree node is an `UnresolvedDependency`. -/
def Dep.isUnres : Dep → Bool
  | .unres _ _ => true
  | _ => false

/-- Arena indices reachable from a set of roots by following resolved
(`Child.res`) edges: the nodes of the tree a resolved root list spans. -/
inductive ReachableFrom (store : List RNode) (roots : List Nat) : Nat → Prop where
  | base (id : Nat) (h : id ∈ roots) : ReachableFrom store roots id
  | step (i j : Nat) (n : RNode) (hi : ReachableFrom store roots i)
      (hn : store[i]? = some n) (hj : Child.res j ∈ n.deps) : ReachableFrom store roots j

/-- Node `id` exists and all its children are resolved (no `Unresolved*`
node below it at depth one). -/
def FullyResolvedAt (store : List RNode) (id : Nat) : Prop :=
  ∃ n, store[id]? = some n ∧ ∀ c ∈ n.deps, ∃ j, c = Child.res j

/-- Store evolution that keeps every existing node's name, kind,
dependency-list length and resolved edges (categories may change; an
unresolved child may only be recategorised in place). -/
def DepsResPres (s s' : List RNode) : Prop :=
  ∀ (i : Nat) (n : RNode), s[i]? = some n →
    ∃ n' : RNode, s'[i]? = some n' ∧ n'.name = n.name ∧ n'.kind = n.kind ∧
      n'.deps.length = n.deps.length ∧
      ∀ (k j : Nat), n.deps[k]? = some (Child.res j) ↔ n'.deps[k]? = some (Child.res j)

/-- Store evolution that keeps every fully resolved node intact up to
its categories: once a node's children are all resolved its dependency
list is frozen. -/
def FreezePres (s s' : List RNode) : Prop :=
  ∀ (i : Nat) (n : RNode), s[i]? = some n → (∀ c ∈ n.deps, ∃ j, c = Child.res j) →
    ∃ cats' : List String, s'[i]? = some ⟨n.name, cats', n.kind, n.deps⟩

/-- Hereditary goodness: every node reachable from `i` is fully
resolved. -/
def HG (s : List RNode) (i : Nat) : Prop :=
  ∀ j, ReachableFrom s [i] j → FullyResolvedAt s j

/-- Cache/arena agreement: `resolved_cache` maps a name to an index iff
the arena holds a node of that name there — so names are registered
exactly once.  Holds throughout a fresh-mode resolution. -/
def StInv (st : RState) : Prop :=
  (∀ (name : String) (i : Nat), dictGet st.cache name = some i →
    ∃ n : RNode, st.store[i]? = some n ∧ n.name = name) ∧
  (∀ (i : Nat) (n : RNode), st.store[i]? = some n → dictGet st.cache n.name = some i)

/-- State evolution that keeps the cache, the arena length and every
node's name (only categories and dependency lists may change) — what
`add_categories_recursive` and the final dependency rewiring do. -/
def SameShape (st st' : RState) : Prop :=
  st'.cache = st.cache ∧ st'.store.length = st.store.length ∧
  ∀ (i : Nat) (n : RNode), st.store[i]? = some n →
    ∃ n' : RNode, st'.store[i]? = some n' ∧ n'.name = n.name

/-- The category relation of one `list(set(old + cats))` update: the new
list holds exactly the old categories plus the requested ones, without
duplicates. -/
def CatP (cats old new : List String) : Prop :=
  (∀ x, x ∈ new ↔ x ∈ old ∨ x ∈ cats) ∧ new.Nodup

/-- Effect of a category-propagation pass over the arena: names, kinds,
dependency-list lengths and resolved edges of every node are untouched;
the categories of every node in `P` become the duplicate-free union
with `cats`, and the categories of every other node are untouched. -/
def CSpec (P : Nat → Prop) (cats : List String) (s s' : List RNode) : Prop :=
  s'.length = s.length ∧
  ∀ (j : Nat) (n : RNode), s[j]? = some n → ∃ n' : RNode, s'[j]? = some n' ∧
    n'.name = n.name ∧ n'.kind = n.kind ∧ n'.deps.length = n.deps.length ∧
    (∀ (k i : Nat), n.deps[k]? = some (Child.res i) ↔ n'.deps[k]? = some (Child.res i)) ∧
    (P j → CatP cats n.categories n'.categories) ∧
    (¬ P j → n'.categories = n.categories)

/-- The arena indices of the resolved references in a `dependencies`
list. -/
def resIndices : List Child → List Nat
  | [] => []
  | Child.res i :: rest => i :: resIndices rest
  | _ :: rest => resIndices rest

/-- The node a non-root lock entry contributes to the arena in pass 1 of
`lock_entries_to_deptree` (`none` when the entry is the root or the
lookups fail) — the functional core of `buildEntry`. -/
def nodeOfEntry (g : SourceGroup) : LockEntry → Option RNode
  | .root _ _ => none
  | .source name version sourceName categories rc files deps =>
    match g.source_by_name sourceName with
    | none => none
    | some s =>
      match s.find_package name version with
      | none => none
      | some pkg =>
        match files.head? with
        | none => none
        | some f =>
          match parse_constraint rc with
          | none => none
          | some rcv =>
            some { name := name, categories := categories,
                   kind := .src { pkg with expected_hash := some f.hash } rcv,
                   deps := deps.map (fun d => Child.unres d categories) }
  | .vcs name vcs_type url ref categories deps =>
    some { name := name, categories := categories, kind := .vcs vcs_type url ref,
           deps := deps.map (fun d => Child.unres d categories) }
  | .core name categories _ =>
    some { name := name, categories := categories, kind := .core, deps := [] }

/-- Round-trip well-formedness of one non-root lock entry: the source
group locates the entry's package in the named source, the recorded
file list is exactly the package's `(filename, hash)` pair, the stored
R-constraint text is canonical (re-serializing the parsed constraint
reproduces it), and a core entry lists no dependencies. -/
def entryWF (g : SourceGroup) : LockEntry → Bool
  | .root _ _ => false
  | .source name version sourceName _ rc files _ =>
    match g.source_by_name sourceName with
    | none => false
    | some s =>
      match s.find_package name version with
      | none => false
      | some pkg =>
        pkg.sourceName == sourceName &&
        files == [{ name := pkg.filename, hash := pkg.hash }] &&
        (match parse_constraint rc with
         | none => false
         | some rcv => rcv.text == rc)
  | .vcs _ _ _ _ _ _ => true
  | .core _ _ deps => deps.isEmpty

/-- The dictionary key of a lock entry (`""` for the root). -/
def entryKeyName : LockEntry → String
  | .root _ _ => ""
  | .source n _ _ _ _ _ _ => n
  | .vcs n _ _ _ _ _ => n
  | .core n _ _ => n

/-- The dependency-name list a lock entry declares. -/
def entryDepNames : LockEntry → List String
  | .root _ ds => ds
  | .source _ _ _ _ _ _ ds => ds
  | .vcs _ _ _ _ _ ds => ds
  | .core _ _ ds => ds

/-! ## Concrete scenario data

`Scn`: the spec's conservative re-resolution scenario: an old lock with
`pkgA@1.0 → pkgB@1.0`, a new project spec whose `pkgA` constraint is
bumped to allow `1.1`; the source offers `pkgA 1.0`, `pkgA 1.1` and
`pkgB 1.0`.  In the `Bad` variant `pkgA 1.1`'s manifest demands
`pkgB >= 2.0.0`, which the pinned `pkgB 1.0` cannot satisfy. -/

namespace Scn

def v10 : Version := ⟨1, 0, 0⟩
def v11 : Version := ⟨1, 1, 0⟩
def pkgB10 : SourcePackage := ⟨"pkgB", v10, "CRAN", "pkgB_1.0.0.tar.gz", "hB", [], [], none⟩
def pkgA10 : SourcePackage :=
  ⟨"pkgA", v10, "CRAN", "pkgA_1.0.0.tar.gz", "hA0", [⟨"pkgB", [">=1.0.0"]⟩], [], none⟩
def pkgA11 : SourcePackage :=
  ⟨"pkgA", v11, "CRAN", "pkgA_1.1.0.tar.gz", "hA1", [⟨"pkgB", [">=1.0.0"]⟩], [], none⟩
def pkgA11bad : SourcePackage :=
  ⟨"pkgA", v11, "CRAN", "pkgA_1.1.0.tar.gz", "hA1", [⟨"pkgB", [">=2.0.0"]⟩], [], none⟩
def cran : Source := ⟨"CRAN", 0, [pkgA10, pkgA11, pkgB10]⟩
def cranBad : Source := ⟨"CRAN", 0, [pkgA10, pkgA11bad, pkgB10]⟩
def g : SourceGroup := ⟨[cran]⟩
def gBad : SourceGroup := ⟨[cranBad]⟩
def env : VcsEnv := ⟨fun _ _ => none⟩

/-- The old (locked) tree: `pkgA@1.0` at index 0 depending on `pkgB@1.0`
at index 1. -/
def oldA : RNode := ⟨"pkgA", ["main"], .src pkgA10 .star, [.res 1]⟩
def oldB : RNode := ⟨"pkgB", ["main"], .src pkgB10 .star, []⟩
def oldStore : List RNode := [oldA, oldB]
def oldRoots : List Child := [.res 0]

/-- The new project spec: only `pkgA`, with its constraint bumped. -/
def newRoots : List Child := [.unresC "pkgA" ["main"] (.cmp .cge v11)]

/-- The node freshly resolved for `pkgA` in conservative mode: version
1.1, its `pkgB` child bound to the pinned index 1. -/
def freshA : RNode := ⟨"pkgA", ["main"], .src pkgA11 .star, [.res 1]⟩

end Scn

/-! `Scn2`: a conservative run in which a *stale* copy of a re-resolved
top-level package survives inside a pinned subtree.  Old lock:
`root → pkgY → pkgX → pkgA@1.0`.  New spec: `pkgA` (bumped to 1.1) and
`pkgY`.  `pkgX` stays pinned and keeps its old `pkgA@1.0` child object,
while the root gets a fresh `pkgA@1.1` node. -/
namespace Scn2

def pkgA10 : SourcePackage := ⟨"pkgA", ⟨1, 0, 0⟩, "CRAN", "pkgA_1.0.0.tar.gz", "hA0", [], [], none⟩
def pkgA11 : SourcePackage := ⟨"pkgA", ⟨1, 1, 0⟩, "CRAN", "pkgA_1.1.0.tar.gz", "hA1", [], [], none⟩
def pkgX : SourcePackage :=
  ⟨"pkgX", ⟨1, 0, 0⟩, "CRAN", "pkgX_1.0.0.tar.gz", "hX", [⟨"pkgA", [">=1.0.0"]⟩], [], none⟩
def pkgY : SourcePackage :=
  ⟨"pkgY", ⟨1, 0, 0⟩, "CRAN", "pkgY_1.0.0.tar.gz", "hY", [⟨"pkgX", []⟩], [], none⟩
def cran : Source := ⟨"CRAN", 0, [pkgA10, pkgA11, pkgX, pkgY]⟩
def g : SourceGroup := ⟨[cran]⟩
def env : VcsEnv := ⟨fun _ _ => none⟩

def oldY : RNode := ⟨"pkgY", ["main"], .src pkgY .star, [.res 1]⟩
def oldX : RNode := ⟨"pkgX", ["main"], .src pkgX .star, [.res 2]⟩
def oldA : RNode := ⟨"pkgA", ["main"], .src pkgA10 .star, []⟩
def oldStore : List RNode := [oldY, oldX, oldA]
def oldRoots : List Child := [.res 0]

def newRoots : List Child :=
  [.unresC "pkgA" ["main"] (.cmp .cge ⟨1, 1, 0⟩), .unresC "pkgY" ["main"] .star]

/-- The fresh `pkgA@1.1` node the conservative run appends for the
bumped top-level requirement. -/
def freshA : RNode := ⟨"pkgA", ["main"], .src pkgA11 .star, []⟩

/-- The fresh `pkgY` node the conservative run appends, its `pkgX`
child bound to the pinned index 1. -/
def freshY : RNode := ⟨"pkgY", ["main"], .src pkgY .star, [.res 1]⟩

/-- The arena returned by the conservative run: the pinned old subtree
(indices 0–2, with the *stale* `pkgA@1.0` at index 2 still wired under
`pkgX`) plus the two fresh top-level nodes. -/
def newStore : List RNode := [oldY, oldX, oldA, freshA, freshY]

end Scn2

/-! `ScnP`: the spec's priority-band scenario: source `A` with priority
1 offers `x 2.0`, source `B` with priority 0 offers `x 3.0`; plus two
same-priority sources both offering `y 1.0` for the tie-break. -/
namespace ScnP

def xA : SourcePackage := ⟨"x", ⟨2, 0, 0⟩, "A", "x_2.0.0.tar.gz", "h2", [], [], none⟩
def xB : SourcePackage := ⟨"x", ⟨3, 0, 0⟩, "B", "x_3.0.0.tar.gz", "h3", [], [], none⟩
def yFirst : SourcePackage := ⟨"y", ⟨1, 0, 0⟩, "first", "y_1.0.0.tar.gz", "hy1", [], [], none⟩
def ySecond : SourcePackage := ⟨"y", ⟨1, 0, 0⟩, "second", "y_1.0.0.tar.gz", "hy2", [], [], none⟩
def srcA : Source := ⟨"A", 1, [xA]⟩
def srcB : Source := ⟨"B", 0, [xB]⟩
def srcY1 : Source := ⟨"first", 0, [yFirst]⟩
def srcY2 : Source := ⟨"second", 0, [ySecond]⟩
def g : SourceGroup := ⟨[srcB, srcA]⟩
def gy : SourceGroup := ⟨[srcY1, srcY2]⟩

end ScnP

/-! `ScnL`: a small well-formed lock file over `Scn`'s source group for
the round-trip witness. -/
namespace ScnL

def entries : List LockEntry :=
  [.root [] ["pkgA"],
   .source "pkgA" ⟨1, 0, 0⟩ "CRAN" ["main"] "*" [⟨"pkgA_1.0.0.tar.gz", "hA0"⟩] ["pkgB"],
   .source "pkgB" ⟨1, 0, 0⟩ "CRAN" ["main"] "*" [⟨"pkgB_1.0.0.tar.gz", "hB"⟩] []]

end ScnL

/-- The spec's depth-first-unique example: `root → {A → {B}, C → {B}}`
(`B` also a direct dependency of `C`). -/
def c6B : Dep := .res "B" [] []
def c6A : Dep := .res "A" [] [c6B]
def c6C : Dep := .res "C" [] [c6B]
def c6Tree : Dep := .root [c6A, c6C]

/-! ## Theorems -/

/-- `uniqueGo` succeeds exactly when no unresolved node occurs in the
visit list, whatever dictionary it starts from. -/
theorem uniqueGo_ok_iff (l : List Dep) : ∀ od : List (String × Dep),
    (∃ r, uniqueGo od l = .ok r) ↔ ∀ d ∈ l, d.isUnres = false := by
  induction l with
  | nil =>
    intro od
    simp [uniqueGo]
  | cons d rest ih =>
    intro od
    cases d with
    | root ds =>
      simp only [uniqueGo, List.mem_cons]
      rw [ih]
      constructor
      · intro h e he
        rcases he with he | he
        · subst he; rfl
        · exact h e he
      · intro h e he
        exact h e (Or.inr he)
    | res n cats ds =>
      simp only [uniqueGo, List.mem_cons]
      by_cases hmem : od.any (fun p => p.1 == n)
      · rw [if_pos hmem, ih]
        constructor
        · intro h e he
          rcases he with he | he
          · subst he; rfl
          · exact h e he
        · intro h e he
          exact h e (Or.inr he)
      · rw [if_neg hmem, ih]
        constructor
        · intro h e he
          rcases he with he | he
          · subst he; rfl
          · exact h e he
        · intro h e he
          exact h e (Or.inr he)
    | unres n cats =>
      simp [uniqueGo, Dep.isUnres]

/-- C6 counterexample.  On the spec's example tree the depth-first
unique listing is `[root(""), A, C, B]`, not the claimed
`[root(""), A, B, C]`: the worklist visits in breadth-first order, so
`C` is listed before the shared `B`. -/
theorem c6_counterexample :
    (traverse_depth_first_unique c6Tree).map (fun l => l.map Dep.keyName) =
      .ok ["", "A", "C", "B"] ∧
    (Except.ok ["", "A", "C", "B"] : Except String (List String)) ≠
      .ok ["", "A", "B", "C"] := by
  constructor
  · simp [traverse_depth_first_unique, traverse_depth_first, traverseGo,
      c6Tree, c6A, c6B, c6C, Dep.children, uniqueDeps, uniqueGo, odAssign,
      Dep.keyName, Except.map]
  · simp only [ne_eq, Except.ok.injEq]
    decide

/-- C6 amended.  `traverse_depth_first` visits every node (duplicates
included) in breadth-first (level) order — the queue-with-cursor
worklist appends children at the end — and the unique variant keeps the
first occurrence of each name (root keyed `""`); on the example tree
`root → {A → {B}, C → {B}}` this yields `[root, A, C, B, B]` and
`[root(""), A, C, B]`. -/
theorem c6_amended :
    traverse_depth_first c6Tree = [c6Tree, c6A, c6C, c6B, c6B] ∧
    traverse_depth_first_unique c6Tree = .ok [c6Tree, c6A, c6C, c6B] := by
  constructor
  · simp [traverse_depth_first, traverseGo, c6Tree, c6A, c6B, c6C, Dep.children]
  · simp [traverse_depth_first_unique, traverse_depth_first, traverseGo,
      c6Tree, c6A, c6B, c6C, Dep.children, uniqueDeps, uniqueGo, odAssign, Except.map]

/-- C7 counterexample.  On `root → {unresolved "a"}` the plain
traversal returns normally (the unresolved node is visited, childless),
but `traverse_depth_first_unique` raises `TypeError` instead of
returning: the claim that *both* variants return normally fails. -/
theorem c7_counterexample :
    traverse_depth_first (Dep.root [Dep.unres "a" []]) =
      [Dep.root [Dep.unres "a" []], Dep.unres "a" []] ∧
    traverse_depth_first_unique (Dep.root [Dep.unres "a" []]) =
      .error "Unable to handle unresolved dependency" := by
  constructor
  · simp [traverse_depth_first, traverseGo, Dep.children]
  · simp [traverse_depth_first_unique, traverse_depth_first, traverseGo,
      Dep.children, uniqueDeps, uniqueGo, odAssign, Except.map]

/-- C7 amended.  `traverse_depth_first` tolerates unresolved nodes:
a visited unresolved node contributes no children (it is not recursed
into) and the traversal returns normally; `traverse_depth_first_unique`
however returns normally exactly when the traversal contains no
unresolved node, and raises `TypeError` otherwise. -/
theorem c7_amended (t : Dep) :
    (∀ (n : String) (cats : List String) (rest : List Dep),
      traverseGo (Dep.unres n cats :: rest) = Dep.unres n cats :: traverseGo rest) ∧
    ((∃ r, traverse_depth_first_unique t = .ok r) ↔
      ∀ d ∈ traverse_depth_first t, d.isUnres = false) := by
  constructor
  · intro n cats rest
    simp [traverseGo, Dep.children]
  · unfold traverse_depth_first_unique uniqueDeps
    rw [← uniqueGo_ok_iff (traverse_depth_first t) []]
    constructor
    · rintro ⟨r, hr⟩
      cases h : uniqueGo [] (traverse_depth_first t) with
      | ok v => exact ⟨v, rfl⟩
      | error e => rw [h] at hr; simp [Except.map] at hr
    · rintro ⟨r, hr⟩
      exact ⟨r.map (fun p => p.2), by rw [hr]; rfl⟩

/-! ### Order and search lemmas for the source group -/

theorem Version.le_iff (a b : Version) :
    Version.le a b = true ↔
      (a.major < b.major ∨ (a.major = b.major ∧
        (a.minor < b.minor ∨ (a.minor = b.minor ∧ a.patch ≤ b.patch)))) := by
  unfold Version.le
  split_ifs <;> simp_all <;> omega

theorem Version.le_total (a b : Version) :
    Version.le a b = true ∨ Version.le b a = true := by
  rw [Version.le_iff, Version.le_iff]
  omega

theorem Version.le_trans {a b c : Version} (h1 : Version.le a b = true)
    (h2 : Version.le b c = true) : Version.le a c = true := by
  rw [Version.le_iff] at *
  omega

theorem mem_bandCandidates {band : List Source} {name : String}
    {c : VersionConstraint} {q : SourcePackage} :
    q ∈ bandCandidates band name c ↔
      ∃ s ∈ band, q ∈ s.packages ∧ q.name = name ∧ c.allows q.version = true := by
  simp only [bandCandidates, Source.find_package_versions, List.mem_flatMap,
    List.mem_filter, beq_iff_eq]
  constructor
  · rintro ⟨s, hs, ⟨⟨hq, hn⟩, ha⟩⟩
    exact ⟨s, hs, hq, hn, ha⟩
  · rintro ⟨s, hs, hq, hn, ha⟩
    exact ⟨s, hs, ⟨⟨hq, hn⟩, ha⟩⟩

theorem foldl_max_spec (l : List SourcePackage) : ∀ v0 : Version,
    (l.foldl (fun m q => if Version.le m q.version then q.version else m) v0 = v0 ∨
      ∃ q ∈ l, l.foldl (fun m q => if Version.le m q.version then q.version else m) v0 = q.version) ∧
    Version.le v0 (l.foldl (fun m q => if Version.le m q.version then q.version else m) v0) = true ∧
    ∀ q ∈ l, Version.le q.version
      (l.foldl (fun m q => if Version.le m q.version then q.version else m) v0) = true := by
  induction l with
  | nil =>
    intro v0
    refine ⟨Or.inl rfl, ?_, by simp⟩
    simp only [List.foldl_nil]
    rw [Version.le_iff]; omega
  | cons p rest ih =>
    intro v0
    simp only [List.foldl_cons]
    by_cases h : Version.le v0 p.version = true
    · rw [if_pos h]
      rcases ih p.version with ⟨hmem, hle, hall⟩
      refine ⟨?_, ?_, ?_⟩
      · rcases hmem with hm | ⟨q, hq, hm⟩
        · exact Or.inr ⟨p, List.mem_cons_self _ _, hm⟩
        · exact Or.inr ⟨q, List.mem_cons_of_mem _ hq, hm⟩
      · exact Version.le_trans h hle
      · intro q hq
        rcases List.mem_cons.mp hq with rfl | hq
        · exact hle
        · exact hall q hq
    · rw [if_neg h]
      rcases ih v0 with ⟨hmem, hle, hall⟩
      refine ⟨?_, hle, ?_⟩
      · rcases hmem with hm | ⟨q, hq, hm⟩
        · exact Or.inl hm
        · exact Or.inr ⟨q, List.mem_cons_of_mem _ hq, hm⟩
      · intro q hq
        rcases List.mem_cons.mp hq with rfl | hq
        · rcases Version.le_total q.version v0 with h' | h'
          · exact Version.le_trans h' hle
          · exact absurd h' h
        · exact hall q hq

theorem maxVersionOf_mem {l : List SourcePackage} (h : l ≠ []) :
    ∃ q ∈ l, q.version = maxVersionOf l := by
  cases l with
  | nil => exact absurd rfl h
  | cons p rest =>
    rcases (foldl_max_spec rest p.version).1 with hm | ⟨q, hq, hm⟩
    · exact ⟨p, List.mem_cons_self _ _, hm.symm⟩
    · exact ⟨q, List.mem_cons_of_mem _ hq, hm.symm⟩

theorem maxVersionOf_ge {l : List SourcePackage} {q : SourcePackage} (hq : q ∈ l) :
    Version.le q.version (maxVersionOf l) = true := by
  cases l with
  | nil => cases hq
  | cons p rest =>
    rcases List.mem_cons.mp hq with rfl | hq
    · exact (foldl_max_spec rest q.version).2.1
    · exact (foldl_max_spec rest p.version).2.2 q hq

/-- `head?` of a filtered list: the first matching element splits the
list with no match before it. -/
theorem filter_head?_split {α : Type} {f : α → Bool} {l : List α} {p : α}
    (h : (l.filter f).head? = some p) :
    ∃ l1 l2, l = l1 ++ p :: l2 ∧ f p = true ∧ ∀ q ∈ l1, f q = false := by
  induction l with
  | nil => simp [List.filter] at h
  | cons a rest ih =>
    by_cases hf : f a = true
    · rw [List.filter_cons_of_pos hf] at h
      simp only [List.head?_cons, Option.some.injEq] at h
      subst h
      exact ⟨[], rest, rfl, hf, by simp⟩
    · rw [List.filter_cons_of_neg (by simpa using hf)] at h
      rcases ih h with ⟨l1, l2, hl, hp, hall⟩
      refine ⟨a :: l1, l2, by rw [hl]; rfl, hp, ?_⟩
      intro q hq
      rcases List.mem_cons.mp hq with rfl | hq
      · simpa using hf
      · exact hall q hq

/-- Splitting a concatenation around a distinguished element: the
element falls in the first or in the second part. -/
theorem append_cons_cases {α : Type} (u v w1 w2 : List α) (p : α)
    (h : u ++ v = w1 ++ p :: w2) :
    (∃ t, u = w1 ++ p :: t ∧ w2 = t ++ v) ∨ (∃ t, w1 = u ++ t ∧ v = t ++ p :: w2) := by
  induction u generalizing w1 with
  | nil =>
    right
    exact ⟨w1, by simp, by simpa using h⟩
  | cons a u' ih =>
    cases w1 with
    | nil =>
      simp only [List.nil_append, List.cons_append, List.cons.injEq] at h
      left
      exact ⟨u', by simp [h.1], h.2.symm⟩
    | cons b w1' =>
      simp only [List.cons_append, List.cons.injEq] at h
      rcases ih w1' h.2 with ⟨t, h1, h2⟩ | ⟨t, h1, h2⟩
      · left
        exact ⟨t, by simp [h.1, h1], h2⟩
      · right
        exact ⟨t, by simp [h.1, h1], h2⟩

/-- A `flatMap` that splits around an element splits the underlying
list around a contributor of that element. -/
theorem flatMap_split {α β : Type} {f : α → List β} {l : List α} {av1 av2 : List β} {p : β}
    (h : l.flatMap f = av1 ++ p :: av2) :
    ∃ l1 x l2 xa xb, l = l1 ++ x :: l2 ∧ f x = xa ++ p :: xb ∧
      av1 = l1.flatMap f ++ xa := by
  induction l generalizing av1 with
  | nil =>
    rw [List.flatMap_nil] at h
    exact absurd h.symm (by simp)
  | cons a rest ih =>
    rw [List.flatMap_cons] at h
    rcases append_cons_cases _ _ _ _ _ h with ⟨t, h1, _⟩ | ⟨t, h1, h2⟩
    · exact ⟨[], a, rest, av1, t, rfl, h1, by simp⟩
    · rcases ih h2 with ⟨l1, x, l2, xa, xb, hl, hx, ht⟩
      refine ⟨a :: l1, x, l2, xa, xb, by simp [hl], hx, ?_⟩
      rw [h1, ht, List.flatMap_cons]
      simp

theorem mem_insertSortedInt {x a : Int} {l : List Int} :
    a ∈ insertSortedInt x l ↔ a = x ∨ a ∈ l := by
  induction l with
  | nil => simp [insertSortedInt]
  | cons y ys ih =>
    simp only [insertSortedInt]
    split_ifs with h
    · simp
    · simp only [List.mem_cons, ih]
      tauto

theorem pairwise_insertSortedInt {x : Int} {l : List Int}
    (h : l.Pairwise (· ≤ ·)) : (insertSortedInt x l).Pairwise (· ≤ ·) := by
  induction l with
  | nil => simp [insertSortedInt]
  | cons y ys ih =>
    simp only [insertSortedInt]
    rcases List.pairwise_cons.mp h with ⟨hy, hys⟩
    split_ifs with hxy
    · refine List.pairwise_cons.mpr ⟨?_, h⟩
      intro b hb
      rcases List.mem_cons.mp hb with rfl | hb
      · exact hxy
      · exact le_trans hxy (hy b hb)
    · refine List.pairwise_cons.mpr ⟨?_, ih hys⟩
      intro b hb
      rcases mem_insertSortedInt.mp hb with rfl | hb
      · omega
      · exact hy b hb

theorem nodup_insertSortedInt {x : Int} {l : List Int}
    (hx : x ∉ l) (h : l.Nodup) : (insertSortedInt x l).Nodup := by
  induction l with
  | nil => simp [insertSortedInt]
  | cons y ys ih =>
    simp only [insertSortedInt]
    rcases List.nodup_cons.mp h with ⟨hy, hys⟩
    split_ifs with hxy
    · exact List.nodup_cons.mpr ⟨by simpa using hx, h⟩
    · refine List.nodup_cons.mpr ⟨?_, ih (fun hm => hx (List.mem_cons_of_mem _ hm)) hys⟩
      intro hm
      rcases mem_insertSortedInt.mp hm with rfl | hm
      · exact hx (List.mem_cons_self _ _)
      · exact hy hm

theorem mem_sortInts {a : Int} {l : List Int} : a ∈ sortInts l ↔ a ∈ l := by
  induction l with
  | nil => simp [sortInts]
  | cons y ys ih => simp [sortInts, mem_insertSortedInt, ih]

theorem pairwise_sortInts (l : List Int) : (sortInts l).Pairwise (· ≤ ·) := by
  induction l with
  | nil => simp [sortInts]
  | cons y ys ih => exact pairwise_insertSortedInt ih

theorem nodup_sortInts {l : List Int} (h : l.Nodup) : (sortInts l).Nodup := by
  induction l with
  | nil => simp [sortInts]
  | cons y ys ih =>
    rcases List.nodup_cons.mp h with ⟨hy, hys⟩
    exact nodup_insertSortedInt (fun hm => hy (mem_sortInts.mp hm)) (ih hys)

theorem prioritiesSorted_pairwise_lt (g : SourceGroup) :
    g.prioritiesSorted.Pairwise (· < ·) := by
  have hp := pairwise_sortInts ((g.sources.map (fun s => s.priority)).dedup)
  have hn : (sortInts ((g.sources.map (fun s => s.priority)).dedup)).Nodup :=
    nodup_sortInts (List.nodup_dedup _)
  exact (hp.and hn).imp (fun h => lt_of_le_of_ne h.1 h.2)

theorem mem_prioritiesSorted {g : SourceGroup} {p : Int} :
    p ∈ g.prioritiesSorted ↔ ∃ s ∈ g.sources, s.priority = p := by
  unfold SourceGroup.prioritiesSorted
  rw [mem_sortInts, List.mem_dedup, List.mem_map]

theorem mem_sourcesAtPriority {g : SourceGroup} {p : Int} {s : Source} :
    s ∈ g.sourcesAtPriority p ↔ s ∈ g.sources ∧ s.priority = p := by
  simp [SourceGroup.sourcesAtPriority, List.mem_filter]

/-- Decomposing a mapped list around a distinguished element. -/
theorem map_eq_append_cons {α β : Type} {f : α → β} {l : List α} {b1 b2 : List β} {x : β}
    (h : l.map f = b1 ++ x :: b2) :
    ∃ l1 a l2, l = l1 ++ a :: l2 ∧ l1.map f = b1 ∧ f a = x ∧ l2.map f = b2 := by
  induction l generalizing b1 with
  | nil => simp at h
  | cons a rest ih =>
    cases b1 with
    | nil =>
      simp only [List.map_cons, List.nil_append, List.cons.injEq] at h
      exact ⟨[], a, rest, rfl, rfl, h.1, h.2⟩
    | cons c cs =>
      simp only [List.map_cons, List.cons_append, List.cons.injEq] at h
      rcases ih h.2 with ⟨l1, a', l2, hl, h1, h2, h3⟩
      exact ⟨a :: l1, a', l2, by simp [hl], by simp [h.1, h1], h2, h3⟩

/-- The search loop returns `none` exactly when every band is empty of
candidates. -/
theorem go_none_iff {name : String} {c : VersionConstraint} {bands : List (List Source)} :
    find_most_recent_go name c bands = none ↔
      ∀ b ∈ bands, bandCandidates b name c = [] := by
  induction bands with
  | nil => simp [find_most_recent_go]
  | cons band rest ih =>
    simp only [find_most_recent_go]
    by_cases hav : (bandCandidates band name c).isEmpty
    · rw [if_pos hav, ih]
      have hav' : bandCandidates band name c = [] := by
        cases h : bandCandidates band name c with
        | nil => rfl
        | cons q qs => rw [h] at hav; simp [List.isEmpty] at hav
      constructor
      · intro h b hb
        rcases List.mem_cons.mp hb with rfl | hb
        · exact hav'
        · exact h b hb
      · intro h b hb
        exact h b (List.mem_cons_of_mem _ hb)
    · rw [if_neg hav]
      have hne : bandCandidates band name c ≠ [] := by
        intro h; rw [h] at hav; simp [List.isEmpty] at hav
      rcases maxVersionOf_mem hne with ⟨q, hq, hqv⟩
      have : q ∈ (bandCandidates band name c).filter
          (fun p => p.version == maxVersionOf (bandCandidates band name c)) :=
        List.mem_filter.mpr ⟨hq, by simp [hqv]⟩
      constructor
      · intro h
        cases hh : ((bandCandidates band name c).filter
            (fun p => p.version == maxVersionOf (bandCandidates band name c))).head? with
        | some p => rw [hh] at h; cases h
        | none =>
          rw [List.head?_eq_none_iff] at hh
          rw [hh] at this
          cases this
      · intro h
        exact absurd (h band (List.mem_cons_self _ _)) hne

/-- The search loop's success: the first non-empty band, the maximum
version inside it, and the first copy of that version. -/
theorem go_some_spec {name : String} {c : VersionConstraint} {bands : List (List Source)}
    {p : SourcePackage} (h : find_most_recent_go name c bands = some p) :
    ∃ bpre band bpost, bands = bpre ++ band :: bpost ∧
      (∀ b ∈ bpre, bandCandidates b name c = []) ∧
      p.version = maxVersionOf (bandCandidates band name c) ∧
      ∃ av1 av2, bandCandidates band name c = av1 ++ p :: av2 ∧
        ∀ q ∈ av1, q.version ≠ p.version := by
  induction bands with
  | nil => simp [find_most_recent_go] at h
  | cons band rest ih =>
    simp only [find_most_recent_go] at h
    by_cases hav : (bandCandidates band name c).isEmpty
    · rw [if_pos hav] at h
      have hav' : bandCandidates band name c = [] := by
        cases hh : bandCandidates band name c with
        | nil => rfl
        | cons q qs => rw [hh] at hav; simp [List.isEmpty] at hav
      rcases ih h with ⟨bpre, b0, bpost, hb, hpre, hmax, hsplit⟩
      refine ⟨band :: bpre, b0, bpost, by simp [hb], ?_, hmax, hsplit⟩
      intro b hb'
      rcases List.mem_cons.mp hb' with rfl | hb'
      · exact hav'
      · exact hpre b hb'
    · rw [if_neg hav] at h
      rcases filter_head?_split h with ⟨av1, av2, hsp, hpv, hall⟩
      refine ⟨[], band, rest, rfl, by simp, ?_, av1, av2, hsp, ?_⟩
      · simpa using hpv
      · intro q hq
        have := hall q hq
        simp only [beq_eq_false_iff_ne, ne_eq] at this
        have hpv' : p.version = maxVersionOf (bandCandidates band name c) := by simpa using hpv
        rw [hpv']
        exact this

/-- Decomposing a filtered list around a distinguished element. -/
theorem filter_eq_append_cons {α : Type} {f : α → Bool} {l l1 l2 : List α} {x : α}
    (h : l.filter f = l1 ++ x :: l2) :
    ∃ g1 g2, l = g1 ++ x :: g2 ∧ g1.filter f = l1 := by
  induction l generalizing l1 with
  | nil => simp at h
  | cons a rest ih =>
    by_cases hf : f a = true
    · rw [List.filter_cons_of_pos hf] at h
      cases l1 with
      | nil =>
        simp only [List.nil_append, List.cons.injEq] at h
        exact ⟨[], rest, by simp [h.1], rfl⟩
      | cons b bs =>
        simp only [List.cons_append, List.cons.injEq] at h
        rcases ih h.2 with ⟨g1, g2, hg, hfg⟩
        exact ⟨a :: g1, g2, by simp [hg], by rw [List.filter_cons_of_pos hf, hfg, h.1]⟩
    · rw [List.filter_cons_of_neg (by simpa using hf)] at h
      rcases ih h with ⟨g1, g2, hg, hfg⟩
      exact ⟨a :: g1, g2, by simp [hg],
        by rw [List.filter_cons_of_neg (by simpa using hf), hfg]⟩

/-- C2.  When `find_most_recent_package` returns a package, that
package carries the requested name and satisfies the constraint; it
comes from a source `s` of the group such that (i) every satisfying
candidate anywhere in the group lives at a priority ≤ `s.priority` —
once `s`'s band yields a candidate no lower band is ever consulted,
even if it offers a newer version; (ii) within `s`'s priority band the
returned version is the maximum satisfying version; and (iii) no
source added earlier than `s` with the same priority offers the chosen
name at the chosen version — the earliest-added source wins ties. -/
theorem find_most_recent_spec (g : SourceGroup) (name : String) (c : VersionConstraint)
    (p : SourcePackage) (h : g.find_most_recent_package name c = some p) :
    p.name = name ∧ c.allows p.version = true ∧
    ∃ pre s post, g.sources = pre ++ s :: post ∧ p ∈ s.packages ∧
      (∀ s' ∈ g.sources, ∀ q ∈ s'.packages, q.name = name →
        c.allows q.version = true → s'.priority ≤ s.priority) ∧
      (∀ s' ∈ g.sources, s'.priority = s.priority → ∀ q ∈ s'.packages, q.name = name →
        c.allows q.version = true → Version.le q.version p.version = true) ∧
      (∀ s' ∈ pre, s'.priority = s.priority → ∀ q ∈ s'.packages,
        ¬(q.name = name ∧ q.version = p.version)) := by
  unfold SourceGroup.find_most_recent_package at h
  rcases go_some_spec h with ⟨bpre, band, bpost, hb, hpre, hmax, av1, av2, hsp, hne⟩
  have hbands : g.sources_by_priority.reverse =
      (g.prioritiesSorted.reverse).map (fun pr => g.sourcesAtPriority pr) := by
    simp [SourceGroup.sources_by_priority]
  rw [hbands] at hb
  rcases map_eq_append_cons hb with ⟨ppre, pr, ppost, hpl, hm1, hm2, _⟩
  have hpw : (g.prioritiesSorted.reverse).Pairwise (fun a b => b < a) :=
    List.pairwise_reverse.mpr (prioritiesSorted_pairwise_lt g)
  rw [hpl] at hpw
  rcases List.pairwise_append.mp hpw with ⟨_, hpw2, hgt1⟩
  rcases List.pairwise_cons.mp hpw2 with ⟨hgt2, _⟩
  -- locate the winning source inside the band
  unfold bandCandidates at hsp
  rcases flatMap_split hsp with ⟨spre, sx, spost, xa, xb, hbandsp, hfx, hav1⟩
  have hpfx : p ∈ (sx.find_package_versions name).filter (fun q => c.allows q.version) := by
    rw [hfx]; exact List.mem_append_right _ (List.mem_cons_self _ _)
  rcases List.mem_filter.mp hpfx with ⟨hpv, hallow⟩
  have hpv' : p ∈ sx.packages ∧ p.name = name := by
    simpa [Source.find_package_versions, List.mem_filter] using hpv
  obtain ⟨hppkg, hpname'⟩ := hpv' 
  have hsxband : sx ∈ band := by
    rw [hbandsp]; exact List.mem_append_right _ (List.mem_cons_self _ _)
  have hsx : sx ∈ g.sources ∧ sx.priority = pr := by
    rw [← hm2] at hsxband
    exact mem_sourcesAtPriority.mp hsxband
  -- decompose the group's source list around the winning source
  have hbandfil : g.sources.filter (fun s => s.priority == pr) = spre ++ sx :: spost := by
    rw [← hbandsp, ← hm2]; rfl
  rcases filter_eq_append_cons hbandfil with ⟨gpre, gpost, hgsp, hgfil⟩
  refine ⟨hpname', hallow, gpre, sx, gpost, hgsp, hppkg, ?_, ?_, ?_⟩
  · -- every satisfying candidate lives at priority ≤ the winner's
    intro s' hs' q hq hqn hqa
    rw [hsx.2]
    have hpr' : s'.priority ∈ g.prioritiesSorted.reverse :=
      List.mem_reverse.mpr (mem_prioritiesSorted.mpr ⟨s', hs', rfl⟩)
    rw [hpl] at hpr'
    rcases List.mem_append.mp hpr' with hmem | hmem
    · exfalso
      have hband' : g.sourcesAtPriority s'.priority ∈ bpre := by
        rw [← hm1]
        exact List.mem_map_of_mem _ hmem
      have : q ∈ bandCandidates (g.sourcesAtPriority s'.priority) name c :=
        mem_bandCandidates.mpr ⟨s', mem_sourcesAtPriority.mpr ⟨hs', rfl⟩, hq, hqn, hqa⟩
      rw [hpre _ hband'] at this
      cases this
    · rcases List.mem_cons.mp hmem with heq | hmem
      · exact le_of_eq heq
      · exact le_of_lt (hgt2 _ hmem)
  · -- inside the winner's band the returned version is maximal
    intro s' hs' hpr q hq hqn hqa
    have hq' : q ∈ bandCandidates band name c := by
      rw [← hm2]
      exact mem_bandCandidates.mpr
        ⟨s', mem_sourcesAtPriority.mpr ⟨hs', by rw [hpr, hsx.2]⟩, hq, hqn, hqa⟩
    rw [hmax]
    exact maxVersionOf_ge hq'
  · -- no earlier same-priority source offers the chosen version
    intro s' hs' hpr q hq hboth
    have hs'spre : s' ∈ spre := by
      rw [← hgfil]
      exact List.mem_filter.mpr ⟨hs', by simp [hpr, hsx.2]⟩
    have hqf : q ∈ (s'.find_package_versions name).filter (fun r => c.allows r.version) := by
      refine List.mem_filter.mpr ⟨?_, ?_⟩
      · exact List.mem_filter.mpr ⟨hq, by simp [hboth.1]⟩
      · rw [hboth.2]; exact hallow
    have hqav1 : q ∈ av1 := by
      rw [hav1]
      refine List.mem_append_left _ ?_
      exact List.mem_flatMap.mpr ⟨s', hs'spre, hqf⟩
    exact hne q hqav1 hboth.2

/-- C2 witness: on the spec's two scenarios the properties hold at the
returned packages: priority 1 beats priority 0 even at a lower
version, and the earliest-added source wins a same-version tie. -/
theorem find_most_recent_spec_witness :
    ScnP.g.find_most_recent_package "x" .star = some ScnP.xA ∧
    (ScnP.xA.name = "x" ∧ VersionConstraint.allows .star ScnP.xA.version = true ∧
      ∃ pre s post, ScnP.g.sources = pre ++ s :: post ∧ ScnP.xA ∈ s.packages ∧
        (∀ s' ∈ ScnP.g.sources, ∀ q ∈ s'.packages, q.name = "x" →
          VersionConstraint.allows .star q.version = true → s'.priority ≤ s.priority) ∧
        (∀ s' ∈ ScnP.g.sources, s'.priority = s.priority → ∀ q ∈ s'.packages, q.name = "x" →
          VersionConstraint.allows .star q.version = true →
          Version.le q.version ScnP.xA.version = true) ∧
        (∀ s' ∈ pre, s'.priority = s.priority → ∀ q ∈ s'.packages,
          ¬(q.name = "x" ∧ q.version = ScnP.xA.version))) ∧
    ScnP.gy.find_most_recent_package "y" .star = some ScnP.yFirst := by
  refine ⟨rfl, find_most_recent_spec ScnP.g "x" .star ScnP.xA rfl, rfl⟩

/-- C9.  `find_most_recent_package` reports not-found exactly when no
source in any priority band offers a version of the name satisfying
the constraint; the resolver converts this into a fatal
`CannotResolveError` for the dependency (both straight from
`_resolve_by_constraint` and through `_resolve_single_dep` on a cache
miss), never a partial result. -/
theorem find_most_recent_not_found (g : SourceGroup) (name : String) (c : VersionConstraint) :
    (g.find_most_recent_package name c = none ↔
      ∀ s ∈ g.sources, ∀ q ∈ s.packages, q.name = name → c.allows q.version = false) ∧
    (∀ cats, g.find_most_recent_package name c = none →
      resolveByConstraint g name cats c = .error (.unableToFind name)) ∧
    (∀ env fuel st parent cats, dictGet st.cache name = none →
      is_core_dependency name = false → g.find_most_recent_package name c = none →
      resolveSingleDep g env fuel st parent (.unresC name cats c) =
        .error (.unableToFind name)) := by
  refine ⟨?_, ?_, ?_⟩
  · unfold SourceGroup.find_most_recent_package
    rw [go_none_iff]
    constructor
    · intro h s hs q hq hqn
      by_contra hqa
      have hqa' : c.allows q.version = true := by
        cases hh : c.allows q.version with
        | true => rfl
        | false => exact absurd hh hqa
      have hband : g.sourcesAtPriority s.priority ∈ g.sources_by_priority.reverse := by
        rw [List.mem_reverse]
        exact List.mem_map_of_mem _ (mem_prioritiesSorted.mpr ⟨s, hs, rfl⟩)
      have hmem : q ∈ bandCandidates (g.sourcesAtPriority s.priority) name c :=
        mem_bandCandidates.mpr ⟨s, mem_sourcesAtPriority.mpr ⟨hs, rfl⟩, hq, hqn, hqa'⟩
      rw [h _ hband] at hmem
      cases hmem
    · intro h b hb
      rw [List.mem_reverse, SourceGroup.sources_by_priority, List.mem_map] at hb
      rcases hb with ⟨pr, _, rfl⟩
      rw [List.eq_nil_iff_forall_not_mem]
      intro q hq
      rcases mem_bandCandidates.mp hq with ⟨s, hsb, hq', hqn, hqa⟩
      rcases mem_sourcesAtPriority.mp hsb with ⟨hs, _⟩
      rw [h s hs q hq' hqn] at hqa
      cases hqa
  · intro cats hnone
    simp [resolveByConstraint, hnone]
  · intro env fuel st parent cats hcache hcore hnone
    simp [resolveSingleDep, Child.cname, Child.ccats, hcache, hcore,
      resolveByConstraint, hnone]

/-- C9 witness: no source offers `x` at version ≥ 4.0.0, and the
resolver converts the not-found into `CannotResolveError`. -/
theorem find_most_recent_not_found_witness :
    (ScnP.g.find_most_recent_package "x" (.cmp .cge ⟨4, 0, 0⟩) = none ↔
      ∀ s ∈ ScnP.g.sources, ∀ q ∈ s.packages, q.name = "x" →
        VersionConstraint.allows (.cmp .cge ⟨4, 0, 0⟩) q.version = false) ∧
    resolveByConstraint ScnP.g "x" ["main"] (.cmp .cge ⟨4, 0, 0⟩) =
      .error (.unableToFind "x") :=
  ⟨(find_most_recent_not_found ScnP.g "x" (.cmp .cge ⟨4, 0, 0⟩)).1,
   (find_most_recent_not_found ScnP.g "x" (.cmp .cge ⟨4, 0, 0⟩)).2.1 ["main"] rfl⟩

/-! ### Cache-hit compatibility -/

theorem addCatsDeps_error_shape {f : RState → Nat → Except RooErr RState}
    (hf : ∀ st' cid e', f st' cid = .error e' → e' = .fuelOut ∨ ∃ i, e' = .dangling i) :
    ∀ {deps : List Child} {st : RState} {id j : Nat} {cats : List String} {e : RooErr},
    addCatsDeps f st id deps j cats = .error e → e = .fuelOut ∨ ∃ i, e = .dangling i := by
  intro deps
  induction deps with
  | nil =>
    intro st id j cats e h
    simp [addCatsDeps] at h
  | cons c rest ih =>
    intro st id j cats e h
    cases c with
    | res cid =>
      simp only [addCatsDeps] at h
      cases hf' : f st cid with
      | error e' =>
        rw [hf'] at h
        have h' : (Except.error e' : Except RooErr RState) = .error e := h
        cases h'
        exact hf _ _ _ hf'
      | ok st' =>
        rw [hf'] at h
        exact ih h
    | unres a b => exact ih (by simpa [addCatsDeps] using h)
    | unresC a b k => exact ih (by simpa [addCatsDeps] using h)
    | unresV a b vt url ref => exact ih (by simpa [addCatsDeps] using h)

/-- `add_categories_recursive` never raises a resolution error: its only
failure modes are the modelling artefacts (fuel, dangling index). -/
theorem addCatsRec_error_shape : ∀ {fuel : Nat} {st : RState} {id : Nat}
    {cats : List String} {e : RooErr},
    addCatsRec fuel st id cats = .error e → e = .fuelOut ∨ ∃ i, e = .dangling i := by
  intro fuel
  induction fuel with
  | zero =>
    intro st id cats e h
    simp only [addCatsRec] at h
    cases h
    exact Or.inl rfl
  | succ fuel ih =>
    intro st id cats e h
    simp only [addCatsRec] at h
    cases hg : st.store[id]? with
    | none =>
      rw [hg] at h
      cases h
      exact Or.inr ⟨id, rfl⟩
    | some n =>
      rw [hg] at h
      exact addCatsDeps_error_shape (fun st' cid e' h' => ih h') h

/-- C3.  On a cache hit for a constrained requirement, resolution fails
— with a `CannotResolveError` carrying the package name and the
requesting parent (when not the root) — exactly when the cached node is
source-resolved and its package's concrete version does not satisfy the
requirement's range; a hit against a VCS- or core-resolved node, and a
VCS-typed requirement hitting any cached node, are accepted and
resolution continues with the cached index. -/
theorem cache_hit_check (g : SourceGroup) (env : VcsEnv) (fuel : Nat) (st : RState)
    (parent : Option String) (n : String) (cats : List String) (c : VersionConstraint)
    (id : Nat) (node : RNode)
    (hcache : dictGet st.cache n = some id) (hnode : st.store[id]? = some node) :
    (resolveSingleDep g env fuel st parent (.unresC n cats c) =
        .error (.cannotSatisfy n parent) ↔
      ∃ pkg rc, node.kind = .src pkg rc ∧ c.allows pkg.version = false) ∧
    (∀ st', addCatsRec fuel st id cats = .ok st' →
      (∀ pkg rc, node.kind = .src pkg rc → c.allows pkg.version = true) →
      resolveSingleDep g env fuel st parent (.unresC n cats c) = .ok (st', id)) ∧
    (∀ vt url ref st', addCatsRec fuel st id cats = .ok st' →
      resolveSingleDep g env fuel st parent (.unresV n cats vt url ref) = .ok (st', id)) := by
  refine ⟨?_, ?_, ?_⟩
  · cases hk : node.kind with
    | src pkg rc =>
      by_cases ha : c.allows pkg.version = true
      · simp only [resolveSingleDep, Child.cname, Child.ccats, hcache, hnode,
          checkConstraints, hk, ha, if_pos]
        constructor
        · intro h
          cases hadd : addCatsRec fuel st id cats with
          | ok st' => rw [hadd] at h; simp at h
          | error e =>
            rw [hadd] at h
            have h' : (Except.error e : Except RooErr (RState × Nat)) =
              .error (.cannotSatisfy n parent) := h
            cases h'
            rcases addCatsRec_error_shape hadd with he | ⟨i, he⟩ <;> cases he
        · rintro ⟨pkg', rc', hk', hall⟩
          cases hk'
          simp [ha] at hall
      · have ha' : c.allows pkg.version = false := by
          cases hh : c.allows pkg.version with
          | true => exact absurd hh ha
          | false => rfl
        simp only [resolveSingleDep, Child.cname, Child.ccats, hcache, hnode,
          checkConstraints, hk, ha', Bool.false_eq_true, if_neg]
        constructor
        · intro _
          exact ⟨pkg, rc, rfl, ha'⟩
        · intro _
          rfl
    | vcs vt url ref =>
      simp only [resolveSingleDep, Child.cname, Child.ccats, hcache, hnode,
        checkConstraints, hk]
      constructor
      · intro h
        cases hadd : addCatsRec fuel st id cats with
        | ok st' => rw [hadd] at h; simp at h
        | error e =>
          rw [hadd] at h
          have h' : (Except.error e : Except RooErr (RState × Nat)) =
            .error (.cannotSatisfy n parent) := h
          cases h'
          rcases addCatsRec_error_shape hadd with he | ⟨i, he⟩ <;> cases he
      · rintro ⟨pkg', rc', hk', _⟩
        cases hk'
    | core =>
      simp only [resolveSingleDep, Child.cname, Child.ccats, hcache, hnode,
        checkConstraints, hk]
      constructor
      · intro h
        cases hadd : addCatsRec fuel st id cats with
        | ok st' => rw [hadd] at h; simp at h
        | error e =>
          rw [hadd] at h
          have h' : (Except.error e : Except RooErr (RState × Nat)) =
            .error (.cannotSatisfy n parent) := h
          cases h'
          rcases addCatsRec_error_shape hadd with he | ⟨i, he⟩ <;> cases he
      · rintro ⟨pkg', rc', hk', _⟩
        cases hk'
  · intro st' hadd hcompat
    cases hk : node.kind with
    | src pkg rc =>
      have ha := hcompat pkg rc hk
      simp [resolveSingleDep, Child.cname, Child.ccats, hcache, hnode,
        checkConstraints, hk, ha, hadd]
    | vcs vt url ref =>
      simp [resolveSingleDep, Child.cname, Child.ccats, hcache, hnode,
        checkConstraints, hk, hadd]
    | core =>
      simp [resolveSingleDep, Child.cname, Child.ccats, hcache, hnode,
        checkConstraints, hk, hadd]
  · intro vt url ref st' hadd
    simp [resolveSingleDep, Child.cname, Child.ccats, hcache, hnode,
      checkConstraints, hadd]

/-- C3 witness: `pkgA@1.1` demanding `pkgB >= 2.0.0` against the cached
`pkgB@1.0` is exactly the failing case. -/
theorem cache_hit_check_witness :
    resolveSingleDep Scn.g Scn.env 10 ⟨Scn.oldStore, [("pkgB", 1)]⟩ (some "pkgA")
        (.unresC "pkgB" ["main"] (.cmp .cge ⟨2, 0, 0⟩)) =
      .error (.cannotSatisfy "pkgB" (some "pkgA")) ↔
      ∃ pkg rc, Scn.oldB.kind = .src pkg rc ∧
        VersionConstraint.allows (.cmp .cge ⟨2, 0, 0⟩) pkg.version = false :=
  (cache_hit_check Scn.g Scn.env 10 ⟨Scn.oldStore, [("pkgB", 1)]⟩ (some "pkgA") "pkgB" ["main"]
    (.cmp .cge ⟨2, 0, 0⟩) 1 Scn.oldB rfl rfl).1

/-! ### Cache pre-population (conservative mode) -/

theorem dictGet_eq_none_iff {m : List (String × Nat)} {k : String} :
    dictGet m k = none ↔ ∀ p ∈ m, (p.1 == k) = false := by
  unfold dictGet
  cases hf : m.find? (fun p => p.1 == k) with
  | some p =>
    simp only []
    constructor
    · intro h; cases h
    · intro h
      have := List.find?_some hf
      rw [h _ (List.mem_of_find?_eq_some hf)] at this
      cases this
  | none =>
    simp only []
    constructor
    · intro _ p hp
      simpa using List.find?_eq_none.mp hf p hp
    · intro _; trivial

theorem dictDel_ok_iff {m : List (String × Nat)} {k : String} {m' : List (String × Nat)} :
    dictDel m k = .ok m' ↔ (m.any (fun p => p.1 == k) = true ∧
      m' = m.filter (fun p => p.1 != k)) := by
  unfold dictDel
  split_ifs with h
  · constructor
    · intro he; cases he; exact ⟨h, rfl⟩
    · rintro ⟨_, rfl⟩; rfl
  · constructor
    · intro he; cases he
    · rintro ⟨h', _⟩; exact absurd h' h

theorem dictGet_dictDel_none {m m' : List (String × Nat)} {k k' : String}
    (h : dictGet m k = none) (hd : dictDel m k' = .ok m') : dictGet m' k = none := by
  rcases dictDel_ok_iff.mp hd with ⟨_, rfl⟩
  rw [dictGet_eq_none_iff] at h ⊢
  intro p hp
  exact h p (List.mem_of_mem_filter hp)

theorem dictGet_dictDel_self {m m' : List (String × Nat)} {k : String}
    (hd : dictDel m k = .ok m') : dictGet m' k = none := by
  rcases dictDel_ok_iff.mp hd with ⟨_, rfl⟩
  rw [dictGet_eq_none_iff]
  intro p hp
  have := (List.mem_filter.mp hp).2
  simpa using this

theorem delRootNames_none_preserve {l : List Child} :
    ∀ {m0 m : List (String × Nat)} {k : String},
    delRootNames l m0 = .ok m → dictGet m0 k = none → dictGet m k = none := by
  induction l with
  | nil =>
    intro m0 m k h hk
    cases h
    exact hk
  | cons c rest ih =>
    intro m0 m k h hk
    unfold delRootNames at h
    rw [List.foldlM_cons] at h
    cases hd : dictDel m0 c.cname with
    | error e => rw [hd] at h; cases h
    | ok m1 =>
      rw [hd] at h
      exact ih h (dictGet_dictDel_none hk hd)

theorem delRootNames_get_none {l : List Child} :
    ∀ {m0 m : List (String × Nat)},
    delRootNames l m0 = .ok m → ∀ c ∈ l, dictGet m c.cname = none := by
  induction l with
  | nil =>
    intro m0 m _ c hc
    cases hc
  | cons c0 rest ih =>
    intro m0 m h c hc
    unfold delRootNames at h
    rw [List.foldlM_cons] at h
    cases hd : dictDel m0 c0.cname with
    | error e => rw [hd] at h; cases h
    | ok m1 =>
      rw [hd] at h
      rcases List.mem_cons.mp hc with rfl | hc
      · exact delRootNames_none_preserve h (dictGet_dictDel_self hd)
      · exact ih h c hc

theorem delRootNames_append (l1 l2 : List Child) (m0 : List (String × Nat)) :
    delRootNames (l1 ++ l2) m0 =
      (delRootNames l1 m0).bind (fun m => delRootNames l2 m) := by
  induction l1 generalizing m0 with
  | nil => rfl
  | cons c rest ih =>
    unfold delRootNames
    rw [List.cons_append, List.foldlM_cons, List.foldlM_cons]
    cases hd : dictDel m0 c.cname with
    | error e => rfl
    | ok m1 => exact ih m1

/-- An error of `_pre_populate_cache` aborts `resolve_full_tree` before
any resolution work. -/
theorem resolve_full_tree_prepop_error {g : SourceGroup} {env : VcsEnv} {fuel : Nat}
    {store : List RNode} {rootDeps oldRoots : List Child} {e : RooErr}
    (h : prePopulateCache store oldRoots rootDeps fuel = .error e) :
    resolve_full_tree g env fuel store rootDeps (some oldRoots) = .error e := by
  unfold resolve_full_tree
  simp only [h]
  rfl

/-- C10.  In conservative mode, when a direct child of the new root has
a name that occurs nowhere as a resolved node of the old tree (a
requirement newly added to the project spec since the old lock),
`_pre_populate_cache` raises `KeyError` while deleting the absent cache
key — before any resolution is attempted — and `resolve_full_tree`
propagates it, instead of just re-resolving the new name fresh. -/
theorem conservative_new_dep_keyerror (g : SourceGroup) (env : VcsEnv)
    (store : List RNode) (oldRoots newpre : List Child) (c0 : Child) (newpost : List Child)
    (fuel : Nat) (items : List Item) (cache0 cachePre : List (String × Nat))
    (ht : traverseArenaUnique ⟨store, oldRoots⟩ fuel = .ok items)
    (hc : cacheFromItems store items = .ok cache0)
    (hmiss : dictGet cache0 c0.cname = none)
    (hpre : delRootNames newpre cache0 = .ok cachePre) :
    prePopulateCache store oldRoots (newpre ++ c0 :: newpost) fuel =
      .error (.keyError c0.cname) ∧
    resolve_full_tree g env fuel store (newpre ++ c0 :: newpost) (some oldRoots) =
      .error (.keyError c0.cname) := by
  have hmiss' : dictGet cachePre c0.cname = none :=
    delRootNames_none_preserve hpre hmiss
  have hdd : dictDel cachePre c0.cname = .error (.keyError c0.cname) := by
    unfold dictDel
    rw [if_neg]
    intro hany
    rcases List.any_eq_true.mp hany with ⟨p, hp, hpk⟩
    rw [dictGet_eq_none_iff] at hmiss'
    rw [hmiss' p hp] at hpk
    cases hpk
  have hdel : delRootNames (newpre ++ c0 :: newpost) cache0 =
      .error (.keyError c0.cname) := by
    rw [delRootNames_append, hpre]
    show delRootNames (c0 :: newpost) cachePre = _
    unfold delRootNames
    rw [List.foldlM_cons, hdd]
    rfl
  have hpp : prePopulateCache store oldRoots (newpre ++ c0 :: newpost) fuel =
      .error (.keyError c0.cname) := by
    unfold prePopulateCache
    rw [ht]
    show (do
      let cache0 ← cacheFromItems store items
      delRootNames (newpre ++ c0 :: newpost) cache0) = _
    rw [hc]
    show delRootNames (newpre ++ c0 :: newpost) cache0 = _
    exact hdel
  exact ⟨hpp, resolve_full_tree_prepop_error hpp⟩

/-- C10 witness: adding the fresh requirement `pkgNew` to the project
spec makes the conservative run crash with `KeyError` up front. -/
theorem conservative_new_dep_keyerror_witness :
    prePopulateCache Scn.oldStore Scn.oldRoots
        ([] ++ Child.unresC "pkgNew" ["main"] .star :: []) 100 =
      .error (.keyError (Child.unresC "pkgNew" ["main"] .star).cname) ∧
    resolve_full_tree Scn.g Scn.env 100 Scn.oldStore
        ([] ++ Child.unresC "pkgNew" ["main"] .star :: []) (some Scn.oldRoots) =
      .error (.keyError (Child.unresC "pkgNew" ["main"] .star).cname) :=
  conservative_new_dep_keyerror Scn.g Scn.env Scn.oldStore Scn.oldRoots []
    (Child.unresC "pkgNew" ["main"] .star) [] 100
    [Item.root, .child (.res 0), .child (.res 1)]
    [("pkgA", 0), ("pkgB", 1)] [("pkgA", 0), ("pkgB", 1)] rfl rfl rfl rfl

/-- C1.  Conservative re-resolution: after a successful cache
pre-population every direct child of the new root is absent from the
cache, so each top-level requirement is looked up fresh; on the spec's
scenario the conservative run re-resolves `pkgA` to 1.1 (a fresh node,
index 2) while its `pkgB` child stays pinned to the old tree's node
(index 1, version 1.0, byte-identical); and when `pkgA@1.1`'s manifest
demands `pkgB >= 2.0.0`, the whole resolution fails with the constraint
conflict instead of upgrading the pinned `pkgB`. -/
theorem conservative_resolution :
    (∀ (store : List RNode) (oldRoots newRoots : List Child) (fuel : Nat)
        (cache : List (String × Nat)),
      prePopulateCache store oldRoots newRoots fuel = .ok cache →
      ∀ c ∈ newRoots, dictGet cache c.cname = none) ∧
    prePopulateCache Scn.oldStore Scn.oldRoots Scn.newRoots 100 = .ok [("pkgB", 1)] ∧
    resolve_full_tree Scn.g Scn.env 100 Scn.oldStore Scn.newRoots (some Scn.oldRoots) =
      .ok ([Scn.oldA, Scn.oldB, Scn.freshA], [2]) ∧
    resolve_full_tree Scn.gBad Scn.env 100 Scn.oldStore Scn.newRoots (some Scn.oldRoots) =
      .error (.cannotSatisfy "pkgB" (some "pkgA")) := by
  refine ⟨?_, rfl, rfl, rfl⟩
  intro store oldRoots newRoots fuel cache h c hc
  unfold prePopulateCache at h
  cases ht : traverseArenaUnique ⟨store, oldRoots⟩ fuel with
  | error e =>
    rw [ht] at h
    have h' : (Except.error e : Except RooErr (List (String × Nat))) = .ok cache := h
    cases h'
  | ok items =>
    rw [ht] at h
    have h2 : (do
        let cache0 ← cacheFromItems store items
        delRootNames newRoots cache0) = Except.ok cache := h
    cases hcf : cacheFromItems store items with
    | error e =>
      rw [hcf] at h2
      have h' : (Except.error e : Except RooErr (List (String × Nat))) = .ok cache := h2
      cases h'
    | ok cache0 =>
      rw [hcf] at h2
      have h3 : delRootNames newRoots cache0 = .ok cache := h2
      exact delRootNames_get_none h3 c hc

/-- C1 witness: the pre-population conjunct applied to the scenario:
`pkgA`, the (re-declared) top-level requirement, has been dropped from
the pre-populated cache. -/
theorem conservative_resolution_witness :
    dictGet [("pkgB", 1)] (Child.unresC "pkgA" ["main"] (.cmp .cge Scn.v11)).cname = none :=
  conservative_resolution.1 Scn.oldStore Scn.oldRoots Scn.newRoots 100 [("pkgB", 1)] rfl
    (Child.unresC "pkgA" ["main"] (.cmp .cge Scn.v11)) (by simp [Scn.newRoots])

/-- C7 witness: the amended statement instantiated on a small tree. -/
theorem c7_witness :
    (∃ r, traverse_depth_first_unique (Dep.root [Dep.res "a" [] []]) = .ok r) ↔
      ∀ d ∈ traverse_depth_first (Dep.root [Dep.res "a" [] []]), d.isUnres = false :=
  (c7_amended (Dep.root [Dep.res "a" [] []])).2

/-! ### The no-unresolved-leftovers invariant -/

theorem depsResPres_refl {s : List RNode} : DepsResPres s s := by
  intro i n h
  exact ⟨n, h, rfl, rfl, rfl, fun _ _ => Iff.rfl⟩

theorem depsResPres_trans {s1 s2 s3 : List RNode}
    (h12 : DepsResPres s1 s2) (h23 : DepsResPres s2 s3) : DepsResPres s1 s3 := by
  intro i n h
  rcases h12 i n h with ⟨n2, h2, hn2, hk2, hl2, he2⟩
  rcases h23 i n2 h2 with ⟨n3, h3, hn3, hk3, hl3, he3⟩
  exact ⟨n3, h3, hn3.trans hn2, hk3.trans hk2, hl3.trans hl2,
    fun k j => (he2 k j).trans (he3 k j)⟩

theorem freezePres_refl {s : List RNode} : FreezePres s s := by
  intro i n h _
  exact ⟨n.categories, by rw [h]⟩

theorem freezePres_trans {s1 s2 s3 : List RNode}
    (h12 : FreezePres s1 s2) (h23 : FreezePres s2 s3) : FreezePres s1 s3 := by
  intro i n h hgood
  rcases h12 i n h hgood with ⟨cats2, h2⟩
  rcases h23 i _ h2 hgood with ⟨cats3, h3⟩
  exact ⟨cats3, h3⟩

theorem freeze_of_depsRes {s s' : List RNode} (h : DepsResPres s s') : FreezePres s s' := by
  intro i n hn hgood
  rcases h i n hn with ⟨n', h', hname, hkind, hlen, hedge⟩
  have hdeps : n'.deps = n.deps := by
    apply List.ext_getElem?
    intro k
    cases hk : n.deps[k]? with
    | some c =>
      rcases hgood c (List.getElem?_mem hk) with ⟨j, rfl⟩
      exact (hedge k j).mp hk
    | none =>
      have hkl : n.deps.length ≤ k := by
        by_contra hlt
        push_neg at hlt
        rw [List.getElem?_eq_getElem hlt] at hk
        cases hk
      exact List.getElem?_eq_none (by omega)
  refine ⟨n'.categories, ?_⟩
  rw [h']
  congr 1
  cases n' with
  | mk nm cs kd ds =>
    simp only at hname hkind hdeps
    simp [hname, hkind, hdeps]

theorem HG_of_freezePres {s s' : List RNode} {i : Nat}
    (hf : FreezePres s s') (hg : HG s i) : HG s' i := by
  have key : ∀ j, ReachableFrom s' [i] j → ReachableFrom s [i] j := by
    intro j hj
    induction hj with
    | base id hid => exact .base id hid
    | step a b n ha hn hb iha =>
      rcases hg a iha with ⟨m, hm, hmgood⟩
      rcases hf a m hm hmgood with ⟨cats', hm'⟩
      rw [hn] at hm'
      cases hm'
      exact .step a b m iha hm hb
  intro j hj
  rcases hg j (key j hj) with ⟨m, hm, hmgood⟩
  rcases hf j m hm hmgood with ⟨cats', hm'⟩
  exact ⟨_, hm', by simpa using hmgood⟩

theorem getElem?_set_of_some {l : List RNode} {i : Nat} {n a : RNode} (h : l[i]? = some n) :
    (l.set i a)[i]? = some a := by
  rw [List.getElem?_set_self', h]
  rfl

theorem depsResPres_setNode_cats {st : RState} {id : Nat} {n : RNode} {cats : List String}
    (hn : st.store[id]? = some n) :
    DepsResPres st.store (setNode st id { n with categories := cats }).store := by
  intro i m hm
  by_cases hi : id = i
  · subst hi
    rw [hn] at hm
    cases hm
    refine ⟨{ n with categories := cats }, ?_, rfl, rfl, rfl, fun _ _ => Iff.rfl⟩
    exact getElem?_set_of_some hn
  · exact ⟨m, by simpa [setNode, List.getElem?_set_ne hi] using hm,
      rfl, rfl, rfl, fun _ _ => Iff.rfl⟩

theorem depsResPres_set_child {st : RState} {id j : Nat} {n : RNode} {c c' : Child}
    (hn : st.store[id]? = some n) (hc : n.deps[j]? = some c)
    (hcres : ∀ k, c ≠ .res k) (hc'res : ∀ k, c' ≠ .res k) :
    DepsResPres st.store (setNode st id { n with deps := n.deps.set j c' }).store := by
  intro i m hm
  by_cases hi : id = i
  · subst hi
    rw [hn] at hm
    cases hm
    refine ⟨{ n with deps := n.deps.set j c' }, getElem?_set_of_some hn, rfl, rfl, by simp, ?_⟩
    intro k i'
    by_cases hkj : j = k
    · subst hkj
      constructor
      · intro h
        rw [hc] at h
        exact absurd (Option.some.inj h) (hcres i')
      · intro h
        rw [List.getElem?_set_self', hc] at h
        have h' : some c' = some (Child.res i') := h
        exact absurd (Option.some.inj h') (hc'res i')
    · rw [List.getElem?_set_ne hkj]
  · exact ⟨m, by simpa [setNode, List.getElem?_set_ne hi] using hm,
      rfl, rfl, rfl, fun _ _ => Iff.rfl⟩

theorem depsResPres_updateChildAt {st : RState} {id j : Nat} {cats : List String} :
    DepsResPres st.store (updateChildAt st id j cats).store := by
  cases hn : st.store[id]? with
  | none =>
    simp only [updateChildAt, hn]
    exact depsResPres_refl
  | some n =>
    cases hc : n.deps[j]? with
    | none =>
      simp only [updateChildAt, hn, hc]
      exact depsResPres_refl
    | some c =>
      cases c with
      | res k =>
        simp only [updateChildAt, hn, hc]
        exact depsResPres_refl
      | unres nm cs =>
        simp only [updateChildAt, hn, hc]
        exact depsResPres_set_child hn hc (by intro k h; cases h) (by intro k h; cases h)
      | unresC nm cs k =>
        simp only [updateChildAt, hn, hc]
        exact depsResPres_set_child hn hc (by intro k h; cases h) (by intro k h; cases h)
      | unresV nm cs vt url ref =>
        simp only [updateChildAt, hn, hc]
        exact depsResPres_set_child hn hc (by intro k h; cases h) (by intro k h; cases h)

theorem updateChildAt_cache (st : RState) (id j : Nat) (cats : List String) :
    (updateChildAt st id j cats).cache = st.cache := by
  unfold updateChildAt
  split <;> first
  | rfl
  | (split <;> rfl)

theorem depsResPres_append {s l : List RNode} : DepsResPres s (s ++ l) := by
  intro i n hn
  exact ⟨n, by rw [List.getElem?_append, if_pos (List.getElem?_eq_some.mp hn).1]; exact hn,
    rfl, rfl, rfl, fun _ _ => Iff.rfl⟩

theorem addCatsDeps_depsResPres {f : RState → Nat → Except RooErr RState}
    (hf : ∀ st cid st', f st cid = .ok st' → DepsResPres st.store st'.store ∧
      st'.cache = st.cache) :
    ∀ {deps : List Child} {st : RState} {id j : Nat} {cats : List String} {st' : RState},
    addCatsDeps f st id deps j cats = .ok st' →
    DepsResPres st.store st'.store ∧ st'.cache = st.cache := by
  intro deps
  induction deps with
  | nil =>
    intro st id j cats st' h
    cases h
    exact ⟨depsResPres_refl, rfl⟩
  | cons c rest ih =>
    intro st id j cats st' h
    cases c with
    | res cid =>
      simp only [addCatsDeps] at h
      cases hf' : f st cid with
      | error e => rw [hf'] at h; cases h
      | ok st1 =>
        rw [hf'] at h
        rcases hf st cid st1 hf' with ⟨hd1, hc1⟩
        rcases ih h with ⟨hd2, hc2⟩
        exact ⟨depsResPres_trans hd1 hd2, hc2.trans hc1⟩
    | unres nm cs =>
      have h' : addCatsDeps f (updateChildAt st id j cats) id rest (j + 1) cats = .ok st' := h
      rcases ih h' with ⟨hd2, hc2⟩
      exact ⟨depsResPres_trans depsResPres_updateChildAt hd2,
        hc2.trans (updateChildAt_cache st id j cats)⟩
    | unresC nm cs k =>
      have h' : addCatsDeps f (updateChildAt st id j cats) id rest (j + 1) cats = .ok st' := h
      rcases ih h' with ⟨hd2, hc2⟩
      exact ⟨depsResPres_trans depsResPres_updateChildAt hd2,
        hc2.trans (updateChildAt_cache st id j cats)⟩
    | unresV nm cs vt url ref =>
      have h' : addCatsDeps f (updateChildAt st id j cats) id rest (j + 1) cats = .ok st' := h
      rcases ih h' with ⟨hd2, hc2⟩
      exact ⟨depsResPres_trans depsResPres_updateChildAt hd2,
        hc2.trans (updateChildAt_cache st id j cats)⟩

theorem addCatsRec_depsResPres : ∀ {fuel : Nat} {st : RState} {id : Nat}
    {cats : List String} {st' : RState},
    addCatsRec fuel st id cats = .ok st' →
    DepsResPres st.store st'.store ∧ st'.cache = st.cache := by
  intro fuel
  induction fuel with
  | zero =>
    intro st id cats st' h
    cases h
  | succ fuel ih =>
    intro st id cats st' h
    simp only [addCatsRec] at h
    cases hg : st.store[id]? with
    | none => rw [hg] at h; cases h
    | some n =>
      rw [hg] at h
      rcases addCatsDeps_depsResPres (fun st1 cid st1' h1 => ih h1) h with ⟨hd, hc⟩
      refine ⟨depsResPres_trans (depsResPres_setNode_cats hg) hd, hc.trans ?_⟩
      simp [setNode]

/-- `_resolve_single_dep` preserves names, kinds and resolved edges of
every existing node. -/
theorem resolveSingleDep_depsResPres {g : SourceGroup} {env : VcsEnv} {fuel : Nat}
    {st : RState} {parent : Option String} {dep : Child} {st' : RState} {cid : Nat}
    (h : resolveSingleDep g env fuel st parent dep = .ok (st', cid)) :
    DepsResPres st.store st'.store := by
  cases dep with
  | res i =>
    cases h
    exact depsResPres_refl
  | unres nm cs =>
    cases hc : dictGet st.cache (Child.unres nm cs).cname with
    | some id =>
      cases hn : st.store[id]? with
      | none => simp [resolveSingleDep, hc, hn] at h
      | some node =>
        cases hcc : checkConstraints parent node (.unres nm cs) with
        | error e => simp [resolveSingleDep, hc, hn, hcc] at h
        | ok b =>
          cases b with
          | false => simp [resolveSingleDep, hc, hn, hcc] at h
          | true =>
            cases hadd : addCatsRec fuel st id (Child.unres nm cs).ccats with
            | error e => simp [resolveSingleDep, hc, hn, hcc, hadd] at h
            | ok st1 =>
              simp only [resolveSingleDep, hc, hn, hcc, hadd] at h
              cases h
              exact (addCatsRec_depsResPres hadd).1
    | none =>
      by_cases hcore : is_core_dependency (Child.unres nm cs).cname
      · simp only [resolveSingleDep, hc, hcore, if_true] at h
        cases h
        exact depsResPres_append
      · simp [resolveSingleDep, hc, hcore] at h
  | unresC nm cs k =>
    cases hc : dictGet st.cache (Child.unresC nm cs k).cname with
    | some id =>
      cases hn : st.store[id]? with
      | none => simp [resolveSingleDep, hc, hn] at h
      | some node =>
        cases hcc : checkConstraints parent node (.unresC nm cs k) with
        | error e => simp [resolveSingleDep, hc, hn, hcc] at h
        | ok b =>
          cases b with
          | false => simp [resolveSingleDep, hc, hn, hcc] at h
          | true =>
            cases hadd : addCatsRec fuel st id (Child.unresC nm cs k).ccats with
            | error e => simp [resolveSingleDep, hc, hn, hcc, hadd] at h
            | ok st1 =>
              simp only [resolveSingleDep, hc, hn, hcc, hadd] at h
              cases h
              exact (addCatsRec_depsResPres hadd).1
    | none =>
      by_cases hcore : is_core_dependency (Child.unresC nm cs k).cname
      · simp only [resolveSingleDep, hc, hcore, if_true] at h
        cases h
        exact depsResPres_append
      · cases hr : resolveByConstraint g (Child.unresC nm cs k).cname cs k with
        | error e => simp [resolveSingleDep, hc, hcore, hr] at h
        | ok node =>
          simp only [resolveSingleDep, hc, hcore, hr] at h
          cases h
          exact depsResPres_append
  | unresV nm cs vt url ref =>
    cases hc : dictGet st.cache (Child.unresV nm cs vt url ref).cname with
    | some id =>
      cases hn : st.store[id]? with
      | none => simp [resolveSingleDep, hc, hn] at h
      | some node =>
        cases hcc : checkConstraints parent node (.unresV nm cs vt url ref) with
        | error e => simp [resolveSingleDep, hc, hn, hcc] at h
        | ok b =>
          cases b with
          | false => simp [resolveSingleDep, hc, hn, hcc] at h
          | true =>
            cases hadd : addCatsRec fuel st id (Child.unresV nm cs vt url ref).ccats with
            | error e => simp [resolveSingleDep, hc, hn, hcc, hadd] at h
            | ok st1 =>
              simp only [resolveSingleDep, hc, hn, hcc, hadd] at h
              cases h
              exact (addCatsRec_depsResPres hadd).1
    | none =>
      by_cases hcore : is_core_dependency (Child.unresV nm cs vt url ref).cname
      · simp only [resolveSingleDep, hc, hcore, if_true] at h
        cases h
        exact depsResPres_append
      · cases hr : resolveByVcs env (Child.unresV nm cs vt url ref).cname cs url ref with
        | error e => simp [resolveSingleDep, hc, hcore, hr] at h
        | ok node =>
          simp only [resolveSingleDep, hc, hcore, hr] at h
          cases h
          exact depsResPres_append

theorem goodlist_map_res {l : List Child} (h : ∀ c ∈ l, ∃ j, c = Child.res j) :
    ∃ js : List Nat, l = js.map Child.res := by
  induction l with
  | nil => exact ⟨[], rfl⟩
  | cons c rest ih =>
    rcases h c (List.mem_cons_self _ _) with ⟨j, rfl⟩
    rcases ih (fun c hc => h c (List.mem_cons_of_mem _ hc)) with ⟨js, rfl⟩
    exact ⟨j :: js, rfl⟩

theorem HG_set {s : List RNode} {id : Nat} {n' : RNode} {ids : List Nat}
    (hids : ∀ i ∈ ids, HG s i) (hlen : id < s.length) :
    ∀ i, (i = id ∨ i ∈ ids) → HG (s.set id { n' with deps := ids.map Child.res }) i := by
  have hgetid : (s.set id { n' with deps := ids.map Child.res })[id]? =
      some { n' with deps := ids.map Child.res } := by
    rw [List.getElem?_set_self', List.getElem?_eq_getElem hlen]
    rfl
  have hQ : ∀ i, (i = id ∨ i ∈ ids) →
      ∀ j, ReachableFrom (s.set id { n' with deps := ids.map Child.res }) [i] j →
      (j = id ∨ ∃ i0 ∈ ids, ReachableFrom s [i0] j) := by
    intro i hi j hj
    induction hj with
    | base b hb =>
      have hb' : b = i := by simpa using hb
      subst hb'
      rcases hi with rfl | hi
      · exact Or.inl rfl
      · exact Or.inr ⟨b, hi, .base _ (by simp)⟩
    | step a b m ha hm hb iha =>
      have hmm : ∀ haid : a = id, b ∈ ids := by
        intro haid
        subst haid
        rw [hgetid] at hm
        cases hm
        rcases List.mem_map.mp hb with ⟨x, hx, hxe⟩
        cases hxe
        exact hx
      by_cases haid : a = id
      · exact Or.inr ⟨b, hmm haid, .base _ (by simp)⟩
      · rcases iha with rfl | ⟨i0, hi0, hreach⟩
        · exact absurd rfl haid
        · rw [List.getElem?_set_ne (fun hh => haid hh.symm)] at hm
          exact Or.inr ⟨i0, hi0, .step a b m hreach hm hb⟩
  intro i hi j hj
  rcases hQ i hi j hj with rfl | ⟨i0, hi0, hreach⟩
  · refine ⟨_, hgetid, ?_⟩
    intro c hc
    rcases List.mem_map.mp hc with ⟨x, _, rfl⟩
    exact ⟨x, rfl⟩
  · rcases hids i0 hi0 j hreach with ⟨m, hm, hgood⟩
    by_cases hji : j = id
    · subst hji
      refine ⟨_, hgetid, ?_⟩
      intro c hc
      rcases List.mem_map.mp hc with ⟨x, _, rfl⟩
      exact ⟨x, rfl⟩
    · exact ⟨m, by rw [List.getElem?_set_ne (fun hh => hji hh.symm)]; exact hm, hgood⟩

theorem dfrChildren_freeze_hg {rsd : RState → Child → Except RooErr (RState × Nat)}
    {dfr : RState → Nat → Except RooErr RState}
    (hrsd : ∀ st c st' cid, rsd st c = .ok (st', cid) → DepsResPres st.store st'.store)
    (hdfr : ∀ st i st', dfr st i = .ok st' → FreezePres st.store st'.store ∧ HG st'.store i) :
    ∀ {cs : List Child} {st st' : RState} {ids : List Nat},
    dfrChildren rsd dfr st cs = .ok (st', ids) →
    FreezePres st.store st'.store ∧ ∀ cid ∈ ids, HG st'.store cid := by
  intro cs
  induction cs with
  | nil =>
    intro st st' ids h
    cases h
    exact ⟨freezePres_refl, by simp⟩
  | cons c rest ih =>
    intro st st' ids h
    simp only [dfrChildren] at h
    cases h1 : rsd st c with
    | error e => rw [h1] at h; cases h
    | ok p =>
      obtain ⟨st1, cid⟩ := p
      rw [h1] at h
      have h' : (do
          let st2 ← dfr st1 cid
          let (st3, ids2) ← dfrChildren rsd dfr st2 rest
          pure (st3, cid :: ids2) : Except RooErr (RState × List Nat)) = .ok (st', ids) := h
      cases h2 : dfr st1 cid with
      | error e => rw [h2] at h'; cases h'
      | ok st2 =>
        rw [h2] at h'
        have h'' : (do
            let (st3, ids2) ← dfrChildren rsd dfr st2 rest
            pure (st3, cid :: ids2) : Except RooErr (RState × List Nat)) = .ok (st', ids) := h'
        cases h3 : dfrChildren rsd dfr st2 rest with
        | error e => rw [h3] at h''; cases h''
        | ok p2 =>
          obtain ⟨st3, ids2⟩ := p2
          rw [h3] at h''
          have h4 : (Except.ok (st3, cid :: ids2) : Except RooErr (RState × List Nat)) =
            .ok (st', ids) := h''
          cases h4
          have f1 : DepsResPres st.store st1.store := hrsd _ _ _ _ h1
          obtain ⟨f2, hg2⟩ := hdfr _ _ _ h2
          obtain ⟨f3, hgs⟩ := ih h3
          refine ⟨freezePres_trans (freeze_of_depsRes f1) (freezePres_trans f2 f3), ?_⟩
          intro cid' hcid'
          rcases List.mem_cons.mp hcid' with rfl | hmem
          · exact HG_of_freezePres f3 hg2
          · exact hgs _ hmem

theorem dfrChildren_resIds (g : SourceGroup) (env : VcsEnv) (fuel : Nat) (pname : String)
    {dfr : RState → Nat → Except RooErr RState} :
    ∀ {js : List Nat} {st st' : RState} {ids : List Nat},
    dfrChildren (fun s c => resolveSingleDep g env fuel s (some pname) c) dfr st
      (js.map Child.res) = .ok (st', ids) → ids = js := by
  intro js
  induction js with
  | nil =>
    intro st st' ids h
    cases h
    rfl
  | cons j rest ih =>
    intro st st' ids h
    have h' : (do
        let st2 ← dfr st j
        let (st3, ids2) ← dfrChildren (fun s c => resolveSingleDep g env fuel s (some pname) c)
          dfr st2 (rest.map Child.res)
        pure (st3, j :: ids2) : Except RooErr (RState × List Nat)) = .ok (st', ids) := h
    cases h2 : dfr st j with
    | error e => rw [h2] at h'; cases h'
    | ok st2 =>
      rw [h2] at h'
      have h'' : (do
          let (st3, ids2) ← dfrChildren (fun s c => resolveSingleDep g env fuel s (some pname) c)
            dfr st2 (rest.map Child.res)
          pure (st3, j :: ids2) : Except RooErr (RState × List Nat)) = .ok (st', ids) := h'
      cases h3 : dfrChildren (fun s c => resolveSingleDep g env fuel s (some pname) c)
          dfr st2 (rest.map Child.res) with
      | error e => rw [h3] at h''; cases h''
      | ok p2 =>
        obtain ⟨st3, ids2⟩ := p2
        rw [h3] at h''
        have h4 : (Except.ok (st3, j :: ids2) : Except RooErr (RState × List Nat)) =
          .ok (st', ids) := h''
        cases h4
        rw [ih h3]

/-- One depth-first pass: fully resolved nodes are frozen, and the
resolved node is hereditarily fully resolved afterwards. -/
theorem dfr_freeze_hg (g : SourceGroup) (env : VcsEnv) :
    ∀ (fuel : Nat) (st : RState) (id : Nat) (st' : RState),
    depthFirstResolve g env fuel st id = .ok st' →
    FreezePres st.store st'.store ∧ HG st'.store id := by
  intro fuel
  induction fuel with
  | zero =>
    intro st id st' h
    cases h
  | succ fuel ih =>
    intro st id st' h
    simp only [depthFirstResolve] at h
    cases hn : st.store[id]? with
    | none => rw [hn] at h; cases h
    | some n =>
      rw [hn] at h
      have h' : (do
          let (st1, ids) ← dfrChildren (fun s c => resolveSingleDep g env fuel s (some n.name) c)
            (fun s i => depthFirstResolve g env fuel s i) st n.deps
          match st1.store[id]? with
          | none => Except.error (RooErr.dangling id)
          | some n' => pure (setNode st1 id { n' with deps := ids.map Child.res }) :
          Except RooErr RState) = .ok st' := h
      cases hch : dfrChildren (fun s c => resolveSingleDep g env fuel s (some n.name) c)
          (fun s i => depthFirstResolve g env fuel s i) st n.deps with
      | error e => rw [hch] at h'; cases h'
      | ok p =>
        obtain ⟨st1, ids⟩ := p
        rw [hch] at h'
        have h'' : (match st1.store[id]? with
            | none => Except.error (RooErr.dangling id)
            | some n' => pure (setNode st1 id { n' with deps := ids.map Child.res }) :
            Except RooErr RState) = .ok st' := h'
        cases hn1 : st1.store[id]? with
        | none => rw [hn1] at h''; cases h''
        | some n' =>
          rw [hn1] at h''
          have h4 : (Except.ok (setNode st1 id { n' with deps := ids.map Child.res }) :
            Except RooErr RState) = .ok st' := h''
          cases h4
          obtain ⟨fch, hgch⟩ := dfrChildren_freeze_hg
            (fun s c s2 cid hh => resolveSingleDep_depsResPres hh)
            (fun s i s2 hh => ih s i s2 hh) hch
          have hlen : id < st1.store.length := (List.getElem?_eq_some.mp hn1).1
          constructor
          · intro i m hm hgood
            rcases fch i m hm hgood with ⟨cats', hm1⟩
            by_cases hii : id = i
            · subst hii
              rw [hn] at hm
              cases hm
              rw [hn1] at hm1
              have hn'eq : n' = ⟨n.name, cats', n.kind, n.deps⟩ := Option.some.inj hm1
              obtain ⟨js, hjs⟩ := goodlist_map_res hgood
              have hids : ids = js := by
                apply dfrChildren_resIds g env fuel n.name
                rw [← hjs]
                exact hch
              refine ⟨cats', ?_⟩
              have : ({ n' with deps := ids.map Child.res } : RNode) =
                  ⟨n.name, cats', n.kind, n.deps⟩ := by
                rw [hn'eq, hids, ← hjs]
              rw [setNode]
              simp only []
              rw [← this]
              exact getElem?_set_of_some hn1
            · refine ⟨cats', ?_⟩
              rw [setNode]
              simp only []
              rw [List.getElem?_set_ne hii]
              exact hm1
          · exact HG_set hgch hlen id (Or.inl rfl)

/-- `_resolve_tree_depth_first`: after the loop, every processed root
index is hereditarily fully resolved. -/
theorem resolveTreeDF_hg (g : SourceGroup) (env : VcsEnv) (fuel : Nat) :
    ∀ {ids0 : List Nat} {st st' : RState},
    resolveTreeDF g env fuel st ids0 = .ok st' →
    FreezePres st.store st'.store ∧ ∀ id ∈ ids0, HG st'.store id := by
  intro ids0
  induction ids0 with
  | nil =>
    intro st st' h
    cases h
    exact ⟨freezePres_refl, by simp⟩
  | cons i rest ih =>
    intro st st' h
    simp only [resolveTreeDF] at h
    cases h1 : depthFirstResolve g env fuel st i with
    | error e => rw [h1] at h; cases h
    | ok st1 =>
      rw [h1] at h
      have h2 : resolveTreeDF g env fuel st1 rest = .ok st' := h
      obtain ⟨f1, hg1⟩ := dfr_freeze_hg g env fuel st i st1 h1
      obtain ⟨f2, hgs⟩ := ih h2
      refine ⟨freezePres_trans f1 f2, ?_⟩
      intro id hid
      rcases List.mem_cons.mp hid with rfl | hmem
      · exact HG_of_freezePres f2 hg1
      · exact hgs _ hmem

theorem reachableFrom_roots {s : List RNode} {ids : List Nat} {j : Nat}
    (h : ReachableFrom s ids j) : ∃ i ∈ ids, ReachableFrom s [i] j := by
  induction h with
  | base b hb => exact ⟨b, hb, .base _ (by simp)⟩
  | step a b m ha hm hb iha =>
    rcases iha with ⟨i, hi, hreach⟩
    exact ⟨i, hi, .step a b m hreach hm hb⟩

/-- The first-level-resolve / depth-first tail of `resolve_full_tree`. -/
theorem resolve_tail_noUnresolved {g : SourceGroup} {env : VcsEnv} {fuel : Nat}
    {st0 : RState} {rootDeps : List Child} {store' : List RNode} {ids : List Nat}
    (h : (do
        let (st1, ids1) ← firstLevelResolve g env fuel st0 rootDeps
        let st2 ← resolveTreeDF g env fuel st1 ids1
        pure (st2.store, ids1) : Except RooErr (List RNode × List Nat)) = .ok (store', ids)) :
    ∀ j, ReachableFrom store' ids j → FullyResolvedAt store' j := by
  cases h1 : firstLevelResolve g env fuel st0 rootDeps with
  | error e => rw [h1] at h; cases h
  | ok p =>
    obtain ⟨st1, ids1⟩ := p
    rw [h1] at h
    have h' : (do
        let st2 ← resolveTreeDF g env fuel st1 ids1
        pure (st2.store, ids1) : Except RooErr (List RNode × List Nat)) = .ok (store', ids) := h
    cases h2 : resolveTreeDF g env fuel st1 ids1 with
    | error e => rw [h2] at h'; cases h'
    | ok st2 =>
      rw [h2] at h'
      have h4 : (Except.ok (st2.store, ids1) : Except RooErr (List RNode × List Nat)) =
        .ok (store', ids) := h'
      cases h4
      obtain ⟨_, hgs⟩ := resolveTreeDF_hg g env fuel h2
      intro j hj
      rcases reachableFrom_roots hj with ⟨i, hi, hreach⟩
      exact hgs i hi j hreach

/-- C4.  No unresolved leftovers: whenever `resolve_full_tree` returns
(in fresh or conservative mode), every node reachable from the root
through the `dependencies` lists is a fully resolved node — a full
traversal of the returned tree contains zero `Unresolved*` nodes. -/
theorem no_unresolved_leftovers (g : SourceGroup) (env : VcsEnv) (fuel : Nat)
    (store0 : List RNode) (rootDeps : List Child) (old : Option (List Child))
    (store' : List RNode) (ids : List Nat)
    (h : resolve_full_tree g env fuel store0 rootDeps old = .ok (store', ids)) :
    ∀ j, ReachableFrom store' ids j → FullyResolvedAt store' j := by
  unfold resolve_full_tree at h
  cases old with
  | none => exact resolve_tail_noUnresolved h
  | some o =>
    cases hpp : prePopulateCache store0 o rootDeps fuel with
    | error e =>
      have h' : (Except.error e : Except RooErr (List (String × Nat))).bind
          (fun cache => (do
            let (st1, ids1) ← firstLevelResolve g env fuel ⟨store0, cache⟩ rootDeps
            let st2 ← resolveTreeDF g env fuel st1 ids1
            pure (st2.store, ids1) : Except RooErr (List RNode × List Nat))) =
          .ok (store', ids) := by
        rw [← hpp]
        exact h
      cases h'
    | ok cache =>
      have h' : (do
          let (st1, ids1) ← firstLevelResolve g env fuel ⟨store0, cache⟩ rootDeps
          let st2 ← resolveTreeDF g env fuel st1 ids1
          pure (st2.store, ids1) : Except RooErr (List RNode × List Nat)) = .ok (store', ids) := by
        have hcoerce : (prePopulateCache store0 o rootDeps fuel).bind
            (fun cache => (do
              let (st1, ids1) ← firstLevelResolve g env fuel ⟨store0, cache⟩ rootDeps
              let st2 ← resolveTreeDF g env fuel st1 ids1
              pure (st2.store, ids1) : Except RooErr (List RNode × List Nat))) =
            .ok (store', ids) := h
        rw [hpp] at hcoerce
        exact hcoerce
      exact resolve_tail_noUnresolved h'

/-- C4 witness: the conservative scenario run, checked at the pinned
`pkgB` node. -/
theorem no_unresolved_leftovers_witness :
    FullyResolvedAt [Scn.oldA, Scn.oldB, Scn.freshA] 1 :=
  no_unresolved_leftovers Scn.g Scn.env 100 Scn.oldStore Scn.newRoots (some Scn.oldRoots)
    [Scn.oldA, Scn.oldB, Scn.freshA] [2] rfl 1
    (.step 2 1 Scn.freshA (.base 2 (by simp)) rfl (by simp [Scn.freshA]))

/-! ### Cache single-resolution: dictionary and shape lemmas -/

theorem find?_append_none {α : Type} {f : α → Bool} {l1 l2 : List α}
    (h : l1.find? f = none) : (l1 ++ l2).find? f = l2.find? f := by
  induction l1 with
  | nil => rfl
  | cons a rest ih =>
    rw [List.cons_append]
    cases hfa : f a with
    | true =>
      rw [List.find?_cons_of_pos _ hfa] at h
      cases h
    | false =>
      have hfa' : ¬ f a = true := by simp [hfa]
      rw [List.find?_cons_of_neg _ hfa'] at h
      rw [List.find?_cons_of_neg _ hfa']
      exact ih h

theorem find?_append_some {α : Type} {f : α → Bool} {l1 l2 : List α} {p : α}
    (h : l1.find? f = some p) : (l1 ++ l2).find? f = some p := by
  induction l1 with
  | nil => cases h
  | cons a rest ih =>
    rw [List.cons_append]
    cases hfa : f a with
    | true =>
      rw [List.find?_cons_of_pos _ hfa] at h
      rw [List.find?_cons_of_pos _ hfa]
      exact h
    | false =>
      have hfa' : ¬ f a = true := by simp [hfa]
      rw [List.find?_cons_of_neg _ hfa'] at h
      rw [List.find?_cons_of_neg _ hfa']
      exact ih h

theorem find?_map_setKey {k : String} {v : Nat} :
    ∀ {m : List (String × Nat)}, m.any (fun p => p.1 == k) = true →
    (m.map (fun p => if p.1 == k then (k, v) else p)).find? (fun p => p.1 == k) =
      some (k, v) := by
  intro m
  induction m with
  | nil => intro h; cases h
  | cons p rest ih =>
    intro h
    rw [List.map_cons]
    by_cases hp : (p.1 == k) = true
    · rw [if_pos hp, List.find?_cons]
      simp
    · have hp' : (p.1 == k) = false := by simpa using hp
      rw [if_neg hp, List.find?_cons]
      simp only [hp']
      apply ih
      rw [List.any_cons] at h
      simpa [hp'] using h

theorem find?_map_setKey_ne {k k' : String} {v : Nat} (hne : k' ≠ k) :
    ∀ (m : List (String × Nat)),
    (m.map (fun p => if p.1 == k then (k, v) else p)).find? (fun p => p.1 == k') =
      m.find? (fun p => p.1 == k') := by
  intro m
  induction m with
  | nil => rfl
  | cons p rest ih =>
    rw [List.map_cons]
    by_cases hp : (p.1 == k) = true
    · have hpk : p.1 = k := by simpa using hp
      have h1 : (k == k') = false := beq_eq_false_iff_ne.mpr (Ne.symm hne)
      have h2 : (p.1 == k') = false := by rw [hpk]; exact h1
      rw [if_pos hp, List.find?_cons, List.find?_cons]
      simp only [h1, h2]
      exact ih
    · rw [if_neg hp, List.find?_cons, List.find?_cons]
      by_cases hq : (p.1 == k') = true
      · simp only [hq]
      · have hq' : (p.1 == k') = false := by simpa using hq
        simp only [hq']
        exact ih

theorem dictGet_dictSet_self (m : List (String × Nat)) (k : String) (v : Nat) :
    dictGet (dictSet m k v) k = some v := by
  unfold dictSet dictGet
  by_cases h : m.any (fun p => p.1 == k) = true
  · rw [if_pos h, find?_map_setKey h]
  · rw [if_neg h]
    have hnone : m.find? (fun p => p.1 == k) = none := by
      have h' : m.any (fun p => p.1 == k) = false := Bool.eq_false_iff.mpr h
      cases hfind : m.find? (fun p => p.1 == k) with
      | none => rfl
      | some q =>
        exact absurd (List.find?_some hfind)
          (List.any_eq_false.mp h' q (List.mem_of_find?_eq_some hfind))
    rw [find?_append_none hnone, List.find?_cons]
    simp

theorem dictGet_dictSet_ne (m : List (String × Nat)) (k : String) (v : Nat)
    (k' : String) (hne : k' ≠ k) : dictGet (dictSet m k v) k' = dictGet m k' := by
  unfold dictSet dictGet
  by_cases h : m.any (fun p => p.1 == k) = true
  · rw [if_pos h, find?_map_setKey_ne hne]
  · rw [if_neg h]
    cases hf : m.find? (fun p => p.1 == k') with
    | some p => rw [find?_append_some hf]
    | none =>
      have h1 : (k == k') = false := beq_eq_false_iff_ne.mpr (Ne.symm hne)
      rw [find?_append_none hf, List.find?_cons]
      simp [h1]

theorem sameShape_refl {st : RState} : SameShape st st :=
  ⟨rfl, rfl, fun _ n h => ⟨n, h, rfl⟩⟩

theorem sameShape_trans {a b c : RState} (h1 : SameShape a b) (h2 : SameShape b c) :
    SameShape a c := by
  obtain ⟨c1, l1, f1⟩ := h1
  obtain ⟨c2, l2, f2⟩ := h2
  refine ⟨c2.trans c1, l2.trans l1, ?_⟩
  intro i n h
  rcases f1 i n h with ⟨n1, hb1, e1⟩
  rcases f2 i n1 hb1 with ⟨n2, hb2, e2⟩
  exact ⟨n2, hb2, e2.trans e1⟩

theorem stInv_of_sameShape {st st' : RState} (hinv : StInv st) (hs : SameShape st st') :
    StInv st' := by
  obtain ⟨hc, hl, hf⟩ := hs
  obtain ⟨hsound, hcomp⟩ := hinv
  constructor
  · intro name i h
    rw [hc] at h
    rcases hsound name i h with ⟨n, hn, hname⟩
    rcases hf i n hn with ⟨n', hn', hname'⟩
    exact ⟨n', hn', hname'.trans hname⟩
  · intro i n' hn'
    have hi : i < st.store.length := by
      have := (List.getElem?_eq_some.mp hn').1
      omega
    obtain ⟨n, hn⟩ : ∃ n, st.store[i]? = some n := by
      rw [List.getElem?_eq_getElem hi]
      exact ⟨_, rfl⟩
    rcases hf i n hn with ⟨n'', hn'', hname''⟩
    rw [hn'] at hn''
    cases hn''
    rw [hc, hname'']
    exact hcomp i n hn

theorem setNode_sameShape {st : RState} {id : Nat} {n m : RNode}
    (hn : st.store[id]? = some n) (hname : m.name = n.name) :
    SameShape st (setNode st id m) := by
  refine ⟨rfl, by simp [setNode], ?_⟩
  intro i n0 h0
  by_cases hii : id = i
  · subst hii
    rw [hn] at h0
    cases h0
    exact ⟨m, getElem?_set_of_some hn, hname⟩
  · refine ⟨n0, ?_, rfl⟩
    rw [setNode]
    simp only []
    rw [List.getElem?_set_ne hii]
    exact h0

theorem updateChildAt_sameShape (st : RState) (id j : Nat) (cats : List String) :
    SameShape st (updateChildAt st id j cats) := by
  cases hn : st.store[id]? with
  | none =>
    have he : updateChildAt st id j cats = st := by
      simp [updateChildAt, hn]
    rw [he]
    exact sameShape_refl
  | some n =>
    cases hd : n.deps[j]? with
    | none =>
      have he : updateChildAt st id j cats = st := by
        simp [updateChildAt, hn, hd]
      rw [he]
      exact sameShape_refl
    | some c =>
      cases c with
      | res cid =>
        have he : updateChildAt st id j cats = st := by
          simp [updateChildAt, hn, hd]
        rw [he]
        exact sameShape_refl
      | unres nm cs =>
        have he : updateChildAt st id j cats =
            setNode st id { n with deps := n.deps.set j (updateUCats (Child.unres nm cs) cats) } := by
          simp [updateChildAt, hn, hd]
        rw [he]
        exact setNode_sameShape hn rfl
      | unresC nm cs k =>
        have he : updateChildAt st id j cats =
            setNode st id { n with deps := n.deps.set j (updateUCats (Child.unresC nm cs k) cats) } := by
          simp [updateChildAt, hn, hd]
        rw [he]
        exact setNode_sameShape hn rfl
      | unresV nm cs vt url ref =>
        have he : updateChildAt st id j cats = setNode st id { n with deps := n.deps.set j (updateUCats (Child.unresV nm cs vt url ref) cats) } := by
          simp [updateChildAt, hn, hd]
        rw [he]
        exact setNode_sameShape hn rfl

theorem addCatsDeps_sameShape {f : RState → Nat → Except RooErr RState}
    (hf : ∀ st cid st', f st cid = .ok st' → SameShape st st') :
    ∀ {deps : List Child} {st : RState} {id j : Nat} {cats : List String} {st' : RState},
    addCatsDeps f st id deps j cats = .ok st' → SameShape st st' := by
  intro deps
  induction deps with
  | nil =>
    intro st id j cats st' h
    cases h
    exact sameShape_refl
  | cons c rest ih =>
    intro st id j cats st' h
    cases c with
    | res cid =>
      simp only [addCatsDeps] at h
      cases hf' : f st cid with
      | error e => rw [hf'] at h; cases h
      | ok st1 =>
        rw [hf'] at h
        exact sameShape_trans (hf st cid st1 hf') (ih h)
    | unres nm cs =>
      have h' : addCatsDeps f (updateChildAt st id j cats) id rest (j + 1) cats = .ok st' := h
      exact sameShape_trans (updateChildAt_sameShape st id j cats) (ih h')
    | unresC nm cs k =>
      have h' : addCatsDeps f (updateChildAt st id j cats) id rest (j + 1) cats = .ok st' := h
      exact sameShape_trans (updateChildAt_sameShape st id j cats) (ih h')
    | unresV nm cs vt url ref =>
      have h' : addCatsDeps f (updateChildAt st id j cats) id rest (j + 1) cats = .ok st' := h
      exact sameShape_trans (updateChildAt_sameShape st id j cats) (ih h')

theorem addCatsRec_sameShape : ∀ {fuel : Nat} {st : RState} {id : Nat}
    {cats : List String} {st' : RState},
    addCatsRec fuel st id cats = .ok st' → SameShape st st' := by
  intro fuel
  induction fuel with
  | zero =>
    intro st id cats st' h
    cases h
  | succ fuel ih =>
    intro st id cats st' h
    simp only [addCatsRec] at h
    cases hg : st.store[id]? with
    | none => rw [hg] at h; cases h
    | some n =>
      rw [hg] at h
      have h' : addCatsDeps (fun st1 cid => addCatsRec fuel st1 cid cats)
          (setNode st id { n with categories := unionCats n.categories cats })
          id n.deps 0 cats = .ok st' := h
      have hshape : SameShape st
          (setNode st id { n with categories := unionCats n.categories cats }) :=
        setNode_sameShape hg rfl
      exact sameShape_trans hshape (addCatsDeps_sameShape (fun s1 cid s1' h1 => ih h1) h')

/-- `find_most_recent_package` only ever returns a package carrying the
requested name (`find_package_versions` filters by it). -/
theorem find_most_recent_name {g : SourceGroup} {name : String} {c : VersionConstraint}
    {pkg : SourcePackage} (h : g.find_most_recent_package name c = some pkg) :
    pkg.name = name := by
  unfold SourceGroup.find_most_recent_package at h
  rcases go_some_spec h with ⟨bpre, band, bpost, hb, hpre, hmax, av1, av2, hsp, hne⟩
  have hmem : pkg ∈ bandCandidates band name c := by
    rw [hsp]
    exact List.mem_append_right _ (List.mem_cons_self _ _)
  rcases mem_bandCandidates.mp hmem with ⟨s, hs, hq, hname, hallow⟩
  exact hname

theorem resolveByConstraint_name {g : SourceGroup} {n : String} {cats : List String}
    {c : VersionConstraint} {node : RNode}
    (h : resolveByConstraint g n cats c = .ok node) : node.name = n := by
  cases hp : g.find_most_recent_package n c with
  | none => simp [resolveByConstraint, hp] at h
  | some pkg =>
    cases hs : extractSubdeps pkg.deps cats with
    | error e =>
      simp only [resolveByConstraint, hp, hs] at h
      cases h
    | ok subdeps =>
      cases hrc : constraint_list_to_object pkg.r_constraint with
      | none =>
        simp only [resolveByConstraint, hp, hs, hrc] at h
        cases h
      | some rc =>
        simp only [resolveByConstraint, hp, hs, hrc] at h
        cases h
        exact find_most_recent_name hp

theorem resolveByVcs_name {env : VcsEnv} {n : String} {cats : List String}
    {url : String} {ref : Option String} {node : RNode}
    (h : resolveByVcs env n cats url ref = .ok node) : node.name = n := by
  cases hm : env.manifest url ref with
  | none => simp [resolveByVcs, hm] at h
  | some pdeps =>
    cases hs : extractSubdeps pdeps cats with
    | error e =>
      simp only [resolveByVcs, hm, hs] at h
      cases h
    | ok subdeps =>
      simp only [resolveByVcs, hm, hs] at h
      cases h
      rfl

/-- Appending a freshly resolved node under a name the cache does not
yet hold keeps the cache/arena agreement. -/
theorem stInv_append {st : RState} {node : RNode} {nm : String}
    (hinv : StInv st) (hmiss : dictGet st.cache nm = none) (hname : node.name = nm) :
    StInv ⟨st.store ++ [node], dictSet st.cache nm st.store.length⟩ := by
  obtain ⟨hsound, hcomp⟩ := hinv
  have hnostore : ∀ (i : Nat) (n0 : RNode), st.store[i]? = some n0 → n0.name ≠ nm := by
    intro i n0 h0 he
    rw [← he, hcomp i n0 h0] at hmiss
    cases hmiss
  constructor
  · intro name i h
    by_cases hk : name = nm
    · subst hk
      rw [dictGet_dictSet_self] at h
      cases h
      refine ⟨node, ?_, hname⟩
      rw [List.getElem?_append, if_neg (by omega)]
      simp
    · rw [dictGet_dictSet_ne _ _ _ _ hk] at h
      rcases hsound name i h with ⟨n0, h0, hn0⟩
      refine ⟨n0, ?_, hn0⟩
      rw [List.getElem?_append, if_pos (List.getElem?_eq_some.mp h0).1]
      exact h0
  · intro i n0 h0
    have hi : i < st.store.length + 1 := by
      have := (List.getElem?_eq_some.mp h0).1
      simpa using this
    by_cases hil : i < st.store.length
    · rw [List.getElem?_append, if_pos hil] at h0
      rw [dictGet_dictSet_ne _ _ _ _ (hnostore i n0 h0)]
      exact hcomp i n0 h0
    · have hieq : i = st.store.length := by omega
      subst hieq
      rw [List.getElem?_append, if_neg (by omega)] at h0
      simp only [Nat.sub_self, List.getElem?_cons_zero, Option.some.injEq] at h0
      rw [← h0, hname]
      exact dictGet_dictSet_self _ _ _

/-- `_resolve_single_dep` keeps the cache/arena agreement. -/
theorem resolveSingleDep_stInv {g : SourceGroup} {env : VcsEnv} {fuel : Nat}
    {st : RState} {parent : Option String} {dep : Child} {st' : RState} {cid : Nat}
    (h : resolveSingleDep g env fuel st parent dep = .ok (st', cid))
    (hinv : StInv st) : StInv st' := by
  cases dep with
  | res i =>
    cases h
    exact hinv
  | unres nm cs =>
    cases hc : dictGet st.cache (Child.unres nm cs).cname with
    | some id =>
      cases hn : st.store[id]? with
      | none => simp [resolveSingleDep, hc, hn] at h
      | some node =>
        cases hcc : checkConstraints parent node (.unres nm cs) with
        | error e => simp [resolveSingleDep, hc, hn, hcc] at h
        | ok b =>
          cases b with
          | false => simp [resolveSingleDep, hc, hn, hcc] at h
          | true =>
            cases hadd : addCatsRec fuel st id (Child.unres nm cs).ccats with
            | error e => simp [resolveSingleDep, hc, hn, hcc, hadd] at h
            | ok st1 =>
              simp only [resolveSingleDep, hc, hn, hcc, hadd] at h
              cases h
              exact stInv_of_sameShape hinv (addCatsRec_sameShape hadd)
    | none =>
      by_cases hcore : is_core_dependency (Child.unres nm cs).cname
      · simp only [resolveSingleDep, hc, hcore, if_true] at h
        cases h
        exact stInv_append hinv hc rfl
      · simp [resolveSingleDep, hc, hcore] at h
  | unresC nm cs k =>
    cases hc : dictGet st.cache (Child.unresC nm cs k).cname with
    | some id =>
      cases hn : st.store[id]? with
      | none => simp [resolveSingleDep, hc, hn] at h
      | some node =>
        cases hcc : checkConstraints parent node (.unresC nm cs k) with
        | error e => simp [resolveSingleDep, hc, hn, hcc] at h
        | ok b =>
          cases b with
          | false => simp [resolveSingleDep, hc, hn, hcc] at h
          | true =>
            cases hadd : addCatsRec fuel st id (Child.unresC nm cs k).ccats with
            | error e => simp [resolveSingleDep, hc, hn, hcc, hadd] at h
            | ok st1 =>
              simp only [resolveSingleDep, hc, hn, hcc, hadd] at h
              cases h
              exact stInv_of_sameShape hinv (addCatsRec_sameShape hadd)
    | none =>
      by_cases hcore : is_core_dependency (Child.unresC nm cs k).cname
      · simp only [resolveSingleDep, hc, hcore, if_true] at h
        cases h
        exact stInv_append hinv hc rfl
      · cases hr : resolveByConstraint g (Child.unresC nm cs k).cname cs k with
        | error e => simp [resolveSingleDep, hc, hcore, hr] at h
        | ok node =>
          simp only [resolveSingleDep, hc, hcore, hr] at h
          cases h
          exact stInv_append hinv hc (resolveByConstraint_name hr)
  | unresV nm cs vt url ref =>
    cases hc : dictGet st.cache (Child.unresV nm cs vt url ref).cname with
    | some id =>
      cases hn : st.store[id]? with
      | none => simp [resolveSingleDep, hc, hn] at h
      | some node =>
        cases hcc : checkConstraints parent node (.unresV nm cs vt url ref) with
        | error e => simp [resolveSingleDep, hc, hn, hcc] at h
        | ok b =>
          cases b with
          | false => simp [resolveSingleDep, hc, hn, hcc] at h
          | true =>
            cases hadd : addCatsRec fuel st id (Child.unresV nm cs vt url ref).ccats with
            | error e => simp [resolveSingleDep, hc, hn, hcc, hadd] at h
            | ok st1 =>
              simp only [resolveSingleDep, hc, hn, hcc, hadd] at h
              cases h
              exact stInv_of_sameShape hinv (addCatsRec_sameShape hadd)
    | none =>
      by_cases hcore : is_core_dependency (Child.unresV nm cs vt url ref).cname
      · simp only [resolveSingleDep, hc, hcore, if_true] at h
        cases h
        exact stInv_append hinv hc rfl
      · cases hr : resolveByVcs env (Child.unresV nm cs vt url ref).cname cs url ref with
        | error e => simp [resolveSingleDep, hc, hcore, hr] at h
        | ok node =>
          simp only [resolveSingleDep, hc, hcore, hr] at h
          cases h
          exact stInv_append hinv hc (resolveByVcs_name hr)

theorem dfrChildren_stInv {rsd : RState → Child → Except RooErr (RState × Nat)}
    {dfr : RState → Nat → Except RooErr RState}
    (hrsd : ∀ st c st' cid, rsd st c = .ok (st', cid) → StInv st → StInv st')
    (hdfr : ∀ st i st', dfr st i = .ok st' → StInv st → StInv st') :
    ∀ {cs : List Child} {st st' : RState} {ids : List Nat},
    dfrChildren rsd dfr st cs = .ok (st', ids) → StInv st → StInv st' := by
  intro cs
  induction cs with
  | nil =>
    intro st st' ids h hinv
    cases h
    exact hinv
  | cons c rest ih =>
    intro st st' ids h hinv
    simp only [dfrChildren] at h
    cases h1 : rsd st c with
    | error e => rw [h1] at h; cases h
    | ok p =>
      obtain ⟨st1, cid⟩ := p
      rw [h1] at h
      have h' : (do
          let st2 ← dfr st1 cid
          let (st3, ids2) ← dfrChildren rsd dfr st2 rest
          pure (st3, cid :: ids2) : Except RooErr (RState × List Nat)) = .ok (st', ids) := h
      cases h2 : dfr st1 cid with
      | error e => rw [h2] at h'; cases h'
      | ok st2 =>
        rw [h2] at h'
        have h'' : (do
            let (st3, ids2) ← dfrChildren rsd dfr st2 rest
            pure (st3, cid :: ids2) : Except RooErr (RState × List Nat)) = .ok (st', ids) := h'
        cases h3 : dfrChildren rsd dfr st2 rest with
        | error e => rw [h3] at h''; cases h''
        | ok p2 =>
          obtain ⟨st3, ids2⟩ := p2
          rw [h3] at h''
          have h4 : (Except.ok (st3, cid :: ids2) : Except RooErr (RState × List Nat)) =
            .ok (st', ids) := h''
          cases h4
          exact ih h3 (hdfr st1 cid st2 h2 (hrsd st c st1 cid h1 hinv))

theorem depthFirstResolve_stInv (g : SourceGroup) (env : VcsEnv) :
    ∀ (fuel : Nat) (st : RState) (id : Nat) (st' : RState),
    depthFirstResolve g env fuel st id = .ok st' → StInv st → StInv st' := by
  intro fuel
  induction fuel with
  | zero =>
    intro st id st' h
    cases h
  | succ fuel ih =>
    intro st id st' h hinv
    simp only [depthFirstResolve] at h
    cases hn : st.store[id]? with
    | none => rw [hn] at h; cases h
    | some n =>
      rw [hn] at h
      have h' : (do
          let (st1, ids) ← dfrChildren (fun s c => resolveSingleDep g env fuel s (some n.name) c)
            (fun s i => depthFirstResolve g env fuel s i) st n.deps
          match st1.store[id]? with
          | none => Except.error (RooErr.dangling id)
          | some n' => pure (setNode st1 id { n' with deps := ids.map Child.res }) :
          Except RooErr RState) = .ok st' := h
      cases hch : dfrChildren (fun s c => resolveSingleDep g env fuel s (some n.name) c)
          (fun s i => depthFirstResolve g env fuel s i) st n.deps with
      | error e => rw [hch] at h'; cases h'
      | ok p =>
        obtain ⟨st1, ids⟩ := p
        rw [hch] at h'
        have h'' : (match st1.store[id]? with
            | none => Except.error (RooErr.dangling id)
            | some n' => pure (setNode st1 id { n' with deps := ids.map Child.res }) :
            Except RooErr RState) = .ok st' := h'
        cases hn1 : st1.store[id]? with
        | none => rw [hn1] at h''; cases h''
        | some n' =>
          rw [hn1] at h''
          have h4 : (Except.ok (setNode st1 id { n' with deps := ids.map Child.res }) :
            Except RooErr RState) = .ok st' := h''
          cases h4
          have hinv1 : StInv st1 := dfrChildren_stInv
            (fun s c s2 cid2 hh => resolveSingleDep_stInv hh)
            (fun s i s2 hh => ih s i s2 hh) hch hinv
          exact stInv_of_sameShape hinv1 (setNode_sameShape hn1 rfl)

theorem firstLevelResolve_stInv {g : SourceGroup} {env : VcsEnv} {fuel : Nat} :
    ∀ {cs : List Child} {st st' : RState} {ids : List Nat},
    firstLevelResolve g env fuel st cs = .ok (st', ids) → StInv st → StInv st' := by
  intro cs
  induction cs with
  | nil =>
    intro st st' ids h hinv
    cases h
    exact hinv
  | cons c rest ih =>
    intro st st' ids h hinv
    simp only [firstLevelResolve] at h
    cases h1 : resolveSingleDep g env fuel st none c with
    | error e => rw [h1] at h; cases h
    | ok p =>
      obtain ⟨st1, id⟩ := p
      rw [h1] at h
      have h' : (do
          let (st2, ids2) ← firstLevelResolve g env fuel st1 rest
          pure (st2, id :: ids2) : Except RooErr (RState × List Nat)) = .ok (st', ids) := h
      cases h2 : firstLevelResolve g env fuel st1 rest with
      | error e => rw [h2] at h'; cases h'
      | ok p2 =>
        obtain ⟨st2, ids2⟩ := p2
        rw [h2] at h'
        have h4 : (Except.ok (st2, id :: ids2) : Except RooErr (RState × List Nat)) =
          .ok (st', ids) := h'
        cases h4
        exact ih h2 (resolveSingleDep_stInv h1 hinv)

theorem resolveTreeDF_stInv {g : SourceGroup} {env : VcsEnv} {fuel : Nat} :
    ∀ {ids0 : List Nat} {st st' : RState},
    resolveTreeDF g env fuel st ids0 = .ok st' → StInv st → StInv st' := by
  intro ids0
  induction ids0 with
  | nil =>
    intro st st' h hinv
    cases h
    exact hinv
  | cons i rest ih =>
    intro st st' h hinv
    simp only [resolveTreeDF] at h
    cases h1 : depthFirstResolve g env fuel st i with
    | error e => rw [h1] at h; cases h
    | ok st1 =>
      rw [h1] at h
      exact ih h (depthFirstResolve_stInv g env fuel st i st1 h1 hinv)

theorem dedupAcc_mem {x : String} : ∀ (seen l : List String),
    x ∈ dedupAcc seen l ↔ x ∈ l ∧ x ∉ seen := by
  intro seen l
  induction l generalizing seen with
  | nil => simp [dedupAcc]
  | cons a rest ih =>
    simp only [dedupAcc]
    by_cases ha : seen.contains a
    · rw [if_pos ha, ih]
      simp only [List.mem_cons]
      constructor
      · rintro ⟨hx, hs⟩
        exact ⟨Or.inr hx, hs⟩
      · rintro ⟨hor, hs⟩
        rcases hor with rfl | hx
        · exact absurd (by simpa using ha) hs
        · exact ⟨hx, hs⟩
    · rw [if_neg ha]
      simp only [List.mem_cons, ih (a :: seen)]
      constructor
      · rintro (rfl | ⟨hx, hs⟩)
        · exact ⟨Or.inl rfl, by simpa using ha⟩
        · refine ⟨Or.inr hx, ?_⟩
          intro hxs
          exact hs (Or.inr hxs)
      · rintro ⟨hor, hs⟩
        by_cases hxa : x = a
        · exact Or.inl hxa
        · rcases hor with rfl | hx
          · exact absurd rfl hxa
          · refine Or.inr ⟨hx, ?_⟩
            intro hmem
            rcases hmem with h' | h'
            · exact hxa h'
            · exact hs h'

theorem dedupAcc_nodup : ∀ (seen l : List String), (dedupAcc seen l).Nodup := by
  intro seen l
  induction l generalizing seen with
  | nil => simp [dedupAcc]
  | cons a rest ih =>
    simp only [dedupAcc]
    by_cases ha : seen.contains a
    · rw [if_pos ha]
      exact ih seen
    · rw [if_neg ha]
      refine List.nodup_cons.mpr ⟨?_, ih (a :: seen)⟩
      intro hmem
      exact ((dedupAcc_mem _ _).mp hmem).2 (List.mem_cons_self _ _)

theorem reach_trans {s : List RNode} {R : List Nat} {i x : Nat}
    (h1 : ReachableFrom s [i] x) (h2 : ReachableFrom s R i) : ReachableFrom s R x := by
  induction h1 with
  | base b hb =>
    have hb' : b = i := by simpa using hb
    subst hb'
    exact h2
  | step a b m ha hm hb iha => exact .step a b m iha hm hb

theorem cspec_iff {P Q : Nat → Prop} {cats : List String} {s s' : List RNode}
    (hpq : ∀ j, P j ↔ Q j) (h : CSpec P cats s s') : CSpec Q cats s s' := by
  obtain ⟨hl, hn⟩ := h
  refine ⟨hl, ?_⟩
  intro j n hj
  obtain ⟨n', h1, h2, h3, h4, h5, h6, h7⟩ := hn j n hj
  exact ⟨n', h1, h2, h3, h4, h5, fun hq => h6 ((hpq j).mpr hq),
    fun hq => h7 (fun hp => hq ((hpq j).mp hp))⟩

theorem cspec_refl {cats : List String} {s : List RNode} :
    CSpec (fun _ => False) cats s s :=
  ⟨rfl, fun _ n hj => ⟨n, hj, rfl, rfl, rfl, fun _ _ => Iff.rfl,
    fun hf => hf.elim, fun _ => rfl⟩⟩

/-- A category pass keeps resolved edges, so reachability is unchanged. -/
theorem cspec_reach_iff {P : Nat → Prop} {cats : List String} {s s' : List RNode}
    (h : CSpec P cats s s') {R : List Nat} {j : Nat} :
    ReachableFrom s R j ↔ ReachableFrom s' R j := by
  obtain ⟨hl, hn⟩ := h
  constructor
  · intro hr
    induction hr with
    | base b hb => exact .base b hb
    | step a b m ha hm hb iha =>
      obtain ⟨m', hm', _, _, _, hedge, _, _⟩ := hn a m hm
      rcases List.mem_iff_getElem?.mp hb with ⟨k, hk⟩
      exact .step a b m' iha hm' (List.mem_iff_getElem?.mpr ⟨k, (hedge k b).mp hk⟩)
  · intro hr
    induction hr with
    | base b hb => exact .base b hb
    | step a b m' ha hm' hb iha =>
      have hlt : a < s.length := by
        have := (List.getElem?_eq_some.mp hm').1
        omega
      obtain ⟨m, hm⟩ : ∃ m, s[a]? = some m := by
        rw [List.getElem?_eq_getElem hlt]
        exact ⟨_, rfl⟩
      obtain ⟨m'', hm'', _, _, _, hedge, _, _⟩ := hn a m hm
      rw [hm'] at hm''
      cases hm''
      rcases List.mem_iff_getElem?.mp hb with ⟨k, hk⟩
      exact .step a b m iha hm (List.mem_iff_getElem?.mpr ⟨k, (hedge k b).mpr hk⟩)

theorem cspec_trans {P Q : Nat → Prop} {cats : List String} {s s1 s2 : List RNode}
    (h1 : CSpec P cats s s1) (h2 : CSpec Q cats s1 s2) :
    CSpec (fun j => P j ∨ Q j) cats s s2 := by
  obtain ⟨hl1, hn1⟩ := h1
  obtain ⟨hl2, hn2⟩ := h2
  refine ⟨hl2.trans hl1, ?_⟩
  intro j n hj
  obtain ⟨n1, ha1, hb1, hc1, hd1, he1, hf1, hg1⟩ := hn1 j n hj
  obtain ⟨n2, ha2, hb2, hc2, hd2, he2, hf2, hg2⟩ := hn2 j n1 ha1
  refine ⟨n2, ha2, hb2.trans hb1, hc2.trans hc1, hd2.trans hd1,
    fun k i => (he1 k i).trans (he2 k i), ?_, ?_⟩
  · intro hpq
    by_cases hp : P j <;> by_cases hq : Q j
    · obtain ⟨hm1, _⟩ := hf1 hp
      obtain ⟨hm2, hnd2⟩ := hf2 hq
      refine ⟨?_, hnd2⟩
      intro x
      rw [hm2 x, hm1 x]
      tauto
    · rw [hg2 hq]
      exact hf1 hp
    · obtain ⟨hm2, hnd2⟩ := hf2 hq
      refine ⟨?_, hnd2⟩
      intro x
      rw [hm2 x, hg1 hp]
    · rcases hpq with hp' | hq'
      · exact absurd hp' hp
      · exact absurd hq' hq
  · intro hpq
    rw [not_or] at hpq
    rw [hg2 hpq.2, hg1 hpq.1]

/-- The `categories = list(set(categories + cats))` assignment on the
visited node itself. -/
theorem cspec_setCats {st : RState} {id : Nat} {n : RNode} {cats : List String}
    (hn : st.store[id]? = some n) :
    CSpec (fun j => j = id) cats st.store
      (setNode st id { n with categories := unionCats n.categories cats }).store := by
  refine ⟨by simp [setNode], ?_⟩
  intro j m hj
  by_cases hji : id = j
  · subst hji
    rw [hn] at hj
    cases hj
    refine ⟨{ n with categories := unionCats n.categories cats }, getElem?_set_of_some hn,
      rfl, rfl, rfl, fun _ _ => Iff.rfl, ?_, ?_⟩
    · intro _
      constructor
      · intro x
        show x ∈ unionCats n.categories cats ↔ _
        rw [unionCats, dedupAcc_mem]
        simp
      · exact dedupAcc_nodup _ _
    · intro hne
      exact absurd rfl hne
  · refine ⟨m, ?_, rfl, rfl, rfl, fun _ _ => Iff.rfl, ?_, fun _ => rfl⟩
    · rw [setNode]
      simp only []
      rw [List.getElem?_set_ne hji]
      exact hj
    · intro hji'
      exact absurd hji'.symm hji

/-- The in-place category update of an unresolved placeholder touches no
node's categories and no resolved edge. -/
theorem cspec_set_child {st : RState} {id j : Nat} {n : RNode} {c c' : Child}
    {cats : List String}
    (hn : st.store[id]? = some n) (hc : n.deps[j]? = some c)
    (hcres : ∀ k, c ≠ .res k) (hc'res : ∀ k, c' ≠ .res k) :
    CSpec (fun _ => False) cats st.store
      (setNode st id { n with deps := n.deps.set j c' }).store := by
  refine ⟨by simp [setNode], ?_⟩
  intro i m hm
  by_cases hi : id = i
  · subst hi
    rw [hn] at hm
    cases hm
    refine ⟨{ n with deps := n.deps.set j c' }, getElem?_set_of_some hn,
      rfl, rfl, by simp, ?_, fun hf => hf.elim, fun _ => rfl⟩
    intro k i'
    by_cases hkj : j = k
    · subst hkj
      constructor
      · intro h
        rw [hc] at h
        exact absurd (Option.some.inj h) (hcres i')
      · intro h
        rw [List.getElem?_set_self', hc] at h
        have h' : some c' = some (Child.res i') := h
        exact absurd (Option.some.inj h') (hc'res i')
    · rw [List.getElem?_set_ne hkj]
  · refine ⟨m, by simpa [setNode, List.getElem?_set_ne hi] using hm,
      rfl, rfl, rfl, fun _ _ => Iff.rfl, fun hf => hf.elim, fun _ => rfl⟩

theorem cspec_updateChildAt {st : RState} {id j : Nat} {cs cats : List String} :
    CSpec (fun _ => False) cats st.store (updateChildAt st id j cs).store := by
  cases hn : st.store[id]? with
  | none =>
    simp only [updateChildAt, hn]
    exact cspec_refl
  | some n =>
    cases hc : n.deps[j]? with
    | none =>
      simp only [updateChildAt, hn, hc]
      exact cspec_refl
    | some c =>
      cases c with
      | res k =>
        simp only [updateChildAt, hn, hc]
        exact cspec_refl
      | unres nm cs0 =>
        simp only [updateChildAt, hn, hc]
        exact cspec_set_child hn hc (by intro k h; cases h) (by intro k h; cases h)
      | unresC nm cs0 k0 =>
        simp only [updateChildAt, hn, hc]
        exact cspec_set_child hn hc (by intro k h; cases h) (by intro k h; cases h)
      | unresV nm cs0 vt url ref =>
        simp only [updateChildAt, hn, hc]
        exact cspec_set_child hn hc (by intro k h; cases h) (by intro k h; cases h)

/-- The loop of `add_categories_recursive` over a `dependencies` list:
its effect is the union of the effects on the resolved children. -/
theorem addCatsDeps_cspec {cats : List String} {f : RState → Nat → Except RooErr RState}
    (hf : ∀ st cid st', f st cid = .ok st' →
      CSpec (ReachableFrom st.store [cid]) cats st.store st'.store) :
    ∀ {cs : List Child} {st : RState} {id j : Nat} {st' : RState},
    addCatsDeps f st id cs j cats = .ok st' →
    CSpec (fun x => ∃ cid, Child.res cid ∈ cs ∧ ReachableFrom st.store [cid] x)
      cats st.store st'.store := by
  intro cs
  induction cs with
  | nil =>
    intro st id j st' h
    cases h
    exact cspec_iff (fun x => by simp) cspec_refl
  | cons c rest ih =>
    intro st id j st' h
    cases c with
    | res cid =>
      simp only [addCatsDeps] at h
      cases h1 : f st cid with
      | error e => rw [h1] at h; cases h
      | ok st1 =>
        rw [h1] at h
        have h2 : addCatsDeps f st1 id rest (j + 1) cats = .ok st' := h
        have C1 := hf st cid st1 h1
        have CT := cspec_trans C1 (ih h2)
        apply cspec_iff ?_ CT
        intro x
        constructor
        · rintro (hx | ⟨cid', hc', hx⟩)
          · exact ⟨cid, List.mem_cons_self _ _, hx⟩
          · exact ⟨cid', List.mem_cons_of_mem _ hc', (cspec_reach_iff C1).mpr hx⟩
        · rintro ⟨cid', hc', hx⟩
          rcases List.mem_cons.mp hc' with hc'' | hc''
          · cases hc''
            exact Or.inl hx
          · exact Or.inr ⟨cid', hc'', (cspec_reach_iff C1).mp hx⟩
    | unres nm cs0 =>
      have h' : addCatsDeps f (updateChildAt st id j cats) id rest (j + 1) cats = .ok st' := h
      have C0 : CSpec (fun _ => False) cats st.store (updateChildAt st id j cats).store :=
        cspec_updateChildAt
      have CT := cspec_trans C0 (ih h')
      apply cspec_iff ?_ CT
      intro x
      constructor
      · rintro (hf' | ⟨cid', hc', hx⟩)
        · exact hf'.elim
        · exact ⟨cid', List.mem_cons_of_mem _ hc', (cspec_reach_iff C0).mpr hx⟩
      · rintro ⟨cid', hc', hx⟩
        rcases List.mem_cons.mp hc' with hc'' | hc''
        · cases hc''
        · exact Or.inr ⟨cid', hc'', (cspec_reach_iff C0).mp hx⟩
    | unresC nm cs0 k0 =>
      have h' : addCatsDeps f (updateChildAt st id j cats) id rest (j + 1) cats = .ok st' := h
      have C0 : CSpec (fun _ => False) cats st.store (updateChildAt st id j cats).store :=
        cspec_updateChildAt
      have CT := cspec_trans C0 (ih h')
      apply cspec_iff ?_ CT
      intro x
      constructor
      · rintro (hf' | ⟨cid', hc', hx⟩)
        · exact hf'.elim
        · exact ⟨cid', List.mem_cons_of_mem _ hc', (cspec_reach_iff C0).mpr hx⟩
      · rintro ⟨cid', hc', hx⟩
        rcases List.mem_cons.mp hc' with hc'' | hc''
        · cases hc''
        · exact Or.inr ⟨cid', hc'', (cspec_reach_iff C0).mp hx⟩
    | unresV nm cs0 vt url ref =>
      have h' : addCatsDeps f (updateChildAt st id j cats) id rest (j + 1) cats = .ok st' := h
      have C0 : CSpec (fun _ => False) cats st.store (updateChildAt st id j cats).store :=
        cspec_updateChildAt
      have CT := cspec_trans C0 (ih h')
      apply cspec_iff ?_ CT
      intro x
      constructor
      · rintro (hf' | ⟨cid', hc', hx⟩)
        · exact hf'.elim
        · exact ⟨cid', List.mem_cons_of_mem _ hc', (cspec_reach_iff C0).mpr hx⟩
      · rintro ⟨cid', hc', hx⟩
        rcases List.mem_cons.mp hc' with hc'' | hc''
        · cases hc''
        · exact Or.inr ⟨cid', hc'', (cspec_reach_iff C0).mp hx⟩

/-- `add_categories_recursive(cats)` on node `id`: every node of the
resolved subtree of `id` gets the duplicate-free category union with
`cats`; every node outside keeps its categories; names, kinds and
resolved edges are untouched everywhere. -/
theorem addCatsRec_cspec {cats : List String} :
    ∀ {fuel : Nat} {st : RState} {id : Nat} {st' : RState},
    addCatsRec fuel st id cats = .ok st' →
    CSpec (ReachableFrom st.store [id]) cats st.store st'.store := by
  intro fuel
  induction fuel with
  | zero =>
    intro st id st' h
    cases h
  | succ fuel ih =>
    intro st id st' h
    simp only [addCatsRec] at h
    cases hn : st.store[id]? with
    | none => rw [hn] at h; cases h
    | some n =>
      rw [hn] at h
      have h' : addCatsDeps (fun s cid => addCatsRec fuel s cid cats)
          (setNode st id { n with categories := unionCats n.categories cats })
          id n.deps 0 cats = .ok st' := h
      have C0 : CSpec (fun j => j = id) cats st.store
          (setNode st id { n with categories := unionCats n.categories cats }).store :=
        cspec_setCats hn
      have CT := cspec_trans C0 (addCatsDeps_cspec (fun s cid s2 hh => ih hh) h')
      apply cspec_iff ?_ CT
      intro x
      constructor
      · rintro (rfl | ⟨cid, hcid, hx⟩)
        · exact .base x (by simp)
        · have hx' : ReachableFrom st.store [cid] x := (cspec_reach_iff C0).mpr hx
          exact reach_trans hx' (.step id cid n (.base id (by simp)) hn hcid)
      · intro hx
        induction hx with
        | base b hb =>
          have hb' : b = id := by simpa using hb
          exact Or.inl hb'
        | step a b m ha hm hb iha =>
          rcases iha with rfl | ⟨cid, hcid, hax⟩
          · rw [hn] at hm
            cases hm
            exact Or.inr ⟨b, hb, .base b (by simp)⟩
          · have hax' : ReachableFrom st.store [cid] a := (cspec_reach_iff C0).mpr hax
            have hbx : ReachableFrom st.store [cid] b := .step a b m hax' hm hb
            exact Or.inr ⟨cid, hcid, (cspec_reach_iff C0).mp hbx⟩

/-- A cache hit on a non-`Resolved` requirement: the resolver unions
the requirement's categories into the whole resolved subtree of the
cached node and touches nothing else. -/
theorem resolveSingleDep_hit_cats {g : SourceGroup} {env : VcsEnv} {fuel : Nat}
    {st : RState} {parent : Option String} {dep : Child} {st2 : RState} {id : Nat}
    (h : resolveSingleDep g env fuel st parent dep = .ok (st2, id))
    (hres : ∀ i0, dep ≠ Child.res i0)
    (hhit : dictGet st.cache dep.cname = some id) :
    CSpec (ReachableFrom st.store [id]) dep.ccats st.store st2.store := by
  cases dep with
  | res i => exact absurd rfl (hres i)
  | unres nm cs =>
    cases hn : st.store[id]? with
    | none => simp [resolveSingleDep, hhit, hn] at h
    | some node =>
      cases hcc : checkConstraints parent node (.unres nm cs) with
      | error e => simp [resolveSingleDep, hhit, hn, hcc] at h
      | ok b =>
        cases b with
        | false => simp [resolveSingleDep, hhit, hn, hcc] at h
        | true =>
          cases hadd : addCatsRec fuel st id (Child.unres nm cs).ccats with
          | error e => simp [resolveSingleDep, hhit, hn, hcc, hadd] at h
          | ok st1 =>
            simp only [resolveSingleDep, hhit, hn, hcc, hadd] at h
            cases h
            exact addCatsRec_cspec hadd
  | unresC nm cs k =>
    cases hn : st.store[id]? with
    | none => simp [resolveSingleDep, hhit, hn] at h
    | some node =>
      cases hcc : checkConstraints parent node (.unresC nm cs k) with
      | error e => simp [resolveSingleDep, hhit, hn, hcc] at h
      | ok b =>
        cases b with
        | false => simp [resolveSingleDep, hhit, hn, hcc] at h
        | true =>
          cases hadd : addCatsRec fuel st id (Child.unresC nm cs k).ccats with
          | error e => simp [resolveSingleDep, hhit, hn, hcc, hadd] at h
          | ok st1 =>
            simp only [resolveSingleDep, hhit, hn, hcc, hadd] at h
            cases h
            exact addCatsRec_cspec hadd
  | unresV nm cs vt url ref =>
    cases hn : st.store[id]? with
    | none => simp [resolveSingleDep, hhit, hn] at h
    | some node =>
      cases hcc : checkConstraints parent node (.unresV nm cs vt url ref) with
      | error e => simp [resolveSingleDep, hhit, hn, hcc] at h
      | ok b =>
        cases b with
        | false => simp [resolveSingleDep, hhit, hn, hcc] at h
        | true =>
          cases hadd : addCatsRec fuel st id (Child.unresV nm cs vt url ref).ccats with
          | error e => simp [resolveSingleDep, hhit, hn, hcc, hadd] at h
          | ok st1 =>
            simp only [resolveSingleDep, hhit, hn, hcc, hadd] at h
            cases h
            exact addCatsRec_cspec hadd

/-- C8 counterexample: after a *successful* conservative
`resolve_full_tree` (`Scn2`: old lock `pkgY → pkgX → pkgA@1.0`, new
spec `pkgA >= 1.1` and `pkgY`), the name `pkgA` — required both at top
level and by the pinned transitive `pkgX` — occurs at two *different*
reachable nodes: the fresh `pkgA@1.1` at index 3 and the stale
`pkgA@1.0` at index 2 still wired under `pkgX`.  The shared-instance
invariant (and identical category/version at every occurrence) fails. -/
theorem c8_counterexample :
    resolve_full_tree Scn2.g Scn2.env 100 Scn2.oldStore Scn2.newRoots (some Scn2.oldRoots)
      = .ok (Scn2.newStore, [3, 4]) ∧
    ReachableFrom Scn2.newStore [3, 4] 2 ∧
    ReachableFrom Scn2.newStore [3, 4] 3 ∧
    Scn2.newStore[2]? = some ⟨"pkgA", ["main"], .src Scn2.pkgA10 .star, []⟩ ∧
    Scn2.newStore[3]? = some ⟨"pkgA", ["main"], .src Scn2.pkgA11 .star, []⟩ ∧
    Scn2.pkgA10 ≠ Scn2.pkgA11 := by
  refine ⟨rfl, ?_, .base 3 (by simp), rfl, rfl, by decide⟩
  exact .step 1 2 Scn2.oldX
    (.step 4 1 Scn2.freshY (.base 4 (by simp)) rfl (by simp [Scn2.freshY]))
    rfl (by simp [Scn2.oldX])

/-- C8 amended.  The shared-instance invariant holds in *fresh* mode
(no old tree, empty starting arena): in any state `resolve_full_tree`
returns, each name occupies at most one arena index — every requirement
for a name anywhere in the tree resolves to the same node — because
every lookup goes through `resolved_cache` and each miss registers the
new node under its name.  (In conservative mode the invariant can fail,
see the counterexample.)  And whenever a requirement for a name hits
the already-cached resolution, `add_categories_recursive` unions the
requirement's categories into the cached node and recursively into its
whole already-resolved subtree: afterwards every node reachable from
the hit node carries exactly its old categories plus the requirement's,
with no duplicate categories, and every other node's categories are
untouched. -/
theorem c8_amended (g : SourceGroup) (env : VcsEnv) (fuel : Nat)
    (rootDeps : List Child) (store' : List RNode) (ids : List Nat)
    (h : resolve_full_tree g env fuel [] rootDeps none = .ok (store', ids)) :
    (∀ (i j : Nat) (ni nj : RNode), store'[i]? = some ni → store'[j]? = some nj →
      ni.name = nj.name → i = j) ∧
    ∀ (fuel2 : Nat) (st : RState) (parent : Option String) (dep : Child)
      (st2 : RState) (id : Nat),
      (∀ i0, dep ≠ Child.res i0) →
      resolveSingleDep g env fuel2 st parent dep = .ok (st2, id) →
      dictGet st.cache dep.cname = some id →
      ∀ (j : Nat) (n n' : RNode), st.store[j]? = some n → st2.store[j]? = some n' →
        (ReachableFrom st.store [id] j → CatP dep.ccats n.categories n'.categories) ∧
        (¬ ReachableFrom st.store [id] j → n'.categories = n.categories) := by
  have hstep : ∃ stF : RState, stF.store = store' ∧ StInv stF := by
    have h' : (do
        let (st1, ids1) ← firstLevelResolve g env fuel ⟨[], []⟩ rootDeps
        let st2 ← resolveTreeDF g env fuel st1 ids1
        pure (st2.store, ids1) : Except RooErr (List RNode × List Nat)) = .ok (store', ids) := h
    cases h1 : firstLevelResolve g env fuel ⟨[], []⟩ rootDeps with
    | error e => rw [h1] at h'; cases h'
    | ok p =>
      obtain ⟨st1, ids1⟩ := p
      rw [h1] at h'
      have h'' : (do
          let st2 ← resolveTreeDF g env fuel st1 ids1
          pure (st2.store, ids1) : Except RooErr (List RNode × List Nat)) = .ok (store', ids) := h'
      cases h2 : resolveTreeDF g env fuel st1 ids1 with
      | error e => rw [h2] at h''; cases h''
      | ok st2 =>
        rw [h2] at h''
        have h4 : (Except.ok (st2.store, ids1) : Except RooErr (List RNode × List Nat)) =
          .ok (store', ids) := h''
        cases h4
        have hinv0 : StInv ⟨[], []⟩ := by
          constructor
          · intro name i hgi
            cases hgi
          · intro i n hi
            simp at hi
        exact ⟨st2, rfl, resolveTreeDF_stInv h2 (firstLevelResolve_stInv h1 hinv0)⟩
  obtain ⟨stF, hst, hinv⟩ := hstep
  subst hst
  refine ⟨?_, ?_⟩
  · intro i j ni nj hi hj hname
    have g1 := hinv.2 i ni hi
    have g2 := hinv.2 j nj hj
    rw [hname] at g1
    rw [g1] at g2
    exact Option.some.inj g2
  · intro fuel2 st parent dep st2 id hres hh hhit j n n' hn hn'
    have C := resolveSingleDep_hit_cats hh hres hhit
    obtain ⟨hlen, hnodes⟩ := C
    obtain ⟨n'', hn'', _, _, _, _, hcat, huntouched⟩ := hnodes j n hn
    rw [hn'] at hn''
    cases hn''
    exact ⟨hcat, huntouched⟩

/-- C8 amended witness: the fresh-mode run of the `Scn` sources with
the bumped root spec yields the arena `[pkgA@1.1, pkgB@1.0]`, for which
name-injectivity and the cache-hit category-propagation invariant are
instantiated. -/
theorem c8_amended_witness :
    (∀ (i j : Nat) (ni nj : RNode),
      [Scn.freshA, Scn.oldB][i]? = some ni → [Scn.freshA, Scn.oldB][j]? = some nj →
      ni.name = nj.name → i = j) ∧
    ∀ (fuel2 : Nat) (st : RState) (parent : Option String) (dep : Child)
      (st2 : RState) (id : Nat),
      (∀ i0, dep ≠ Child.res i0) →
      resolveSingleDep Scn.g Scn.env fuel2 st parent dep = .ok (st2, id) →
      dictGet st.cache dep.cname = some id →
      ∀ (j : Nat) (n n' : RNode), st.store[j]? = some n → st2.store[j]? = some n' →
        (ReachableFrom st.store [id] j → CatP dep.ccats n.categories n'.categories) ∧
        (¬ ReachableFrom st.store [id] j → n'.categories = n.categories) :=
  c8_amended Scn.g Scn.env 100 Scn.newRoots [Scn.freshA, Scn.oldB] [0] rfl

/-! ### Lock round-trip -/

theorem head?_mem_list {α : Type} {l : List α} {a : α} (h : l.head? = some a) : a ∈ l := by
  cases l with
  | nil => cases h
  | cons x xs =>
    have hx : x = a := by simpa using h
    subst hx
    exact List.mem_cons_self _ _

theorem find_package_name {s : Source} {name : String} {ver : Version} {pkg : SourcePackage}
    (h : s.find_package name ver = some pkg) : pkg.name = name ∧ pkg.version = ver := by
  unfold Source.find_package at h
  have hmem := head?_mem_list h
  have := (List.mem_filter.mp hmem).2
  simp only [Bool.and_eq_true, beq_iff_eq] at this
  exact this

theorem source_entry_spec {g : SourceGroup} {name : String} {ver : Version}
    {srcName : String} {cats : List String} {rc : String} {files : List PackageFile}
    {ds : List String}
    (hwf : entryWF g (.source name ver srcName cats rc files ds) = true) :
    ∃ s pkg rcv, g.source_by_name srcName = some s ∧ s.find_package name ver = some pkg ∧
      parse_constraint rc = some rcv ∧
      pkg.sourceName = srcName ∧ files = [⟨pkg.filename, pkg.hash⟩] ∧
      VersionConstraint.text rcv = rc ∧
      nodeOfEntry g (.source name ver srcName cats rc files ds) =
        some { name := name, categories := cats,
               kind := .src { pkg with expected_hash := some pkg.hash } rcv,
               deps := ds.map (fun d => Child.unres d cats) } := by
  cases h1 : g.source_by_name srcName with
  | none => simp [entryWF, h1] at hwf
  | some s =>
    cases h2 : s.find_package name ver with
    | none => simp [entryWF, h1, h2] at hwf
    | some pkg =>
      cases h4 : parse_constraint rc with
      | none => simp [entryWF, h1, h2, h4] at hwf
      | some rcv =>
        simp only [entryWF, h1, h2, h4, Bool.and_eq_true, beq_iff_eq] at hwf
        obtain ⟨⟨hsrc, hfiles⟩, htext⟩ := hwf
        refine ⟨s, pkg, rcv, rfl, h2, rfl, hsrc, hfiles, htext, ?_⟩
        have hhead : files.head? = some ⟨pkg.filename, pkg.hash⟩ := by
          rw [hfiles]
          rfl
        simp only [nodeOfEntry, h1, h2, hhead, h4]

theorem nodeOfEntry_name {g : SourceGroup} {e : LockEntry} {node : RNode}
    (h : nodeOfEntry g e = some node) : node.name = entryKeyName e := by
  cases e with
  | root cats ds => cases h
  | source name ver srcName cats rc files ds =>
    cases h1 : g.source_by_name srcName with
    | none => simp [nodeOfEntry, h1] at h
    | some s =>
      cases h2 : s.find_package name ver with
      | none => simp [nodeOfEntry, h1, h2] at h
      | some pkg =>
        cases h3 : files.head? with
        | none => simp [nodeOfEntry, h1, h2, h3] at h
        | some f =>
          cases h4 : parse_constraint rc with
          | none => simp [nodeOfEntry, h1, h2, h3, h4] at h
          | some rcv =>
            simp only [nodeOfEntry, h1, h2, h3, h4] at h
            cases h
            rfl
  | vcs name vt url ref cats ds =>
    cases h
    rfl
  | core name cats ds =>
    cases h
    rfl

theorem nodeOfEntry_deps {g : SourceGroup} {e : LockEntry} {node : RNode}
    (hwf : entryWF g e = true) (h : nodeOfEntry g e = some node) :
    node.deps = (entryDepNames e).map (fun d => Child.unres d node.categories) := by
  cases e with
  | root cats ds => cases h
  | source name ver srcName cats rc files ds =>
    obtain ⟨s, pkg, rcv, h1, h2, h4, hsrc, hfiles, htext, hnode⟩ := source_entry_spec hwf
    rw [h] at hnode
    cases Option.some.inj hnode
    rfl
  | vcs name vt url ref cats ds =>
    cases h
    rfl
  | core name cats ds =>
    cases h
    have hds : ds = [] := by
      simpa [entryWF, List.isEmpty_iff] using hwf
    rw [hds]
    rfl

theorem buildEntry_nonroot {g : SourceGroup} {e : LockEntry} (hwf : entryWF g e = true)
    (store : List RNode) (m : List (String × Nat)) (rd : List Child) :
    ∃ node, nodeOfEntry g e = some node ∧
      buildEntry g (store, m, rd) e =
        .ok (store ++ [node], dictSet m (entryKeyName e) store.length, rd) := by
  cases e with
  | root cats ds => simp [entryWF] at hwf
  | source name ver srcName cats rc files ds =>
    obtain ⟨s, pkg, rcv, h1, h2, h4, hsrc, hfiles, htext, hnode⟩ := source_entry_spec hwf
    have hhead : files.head? = some ⟨pkg.filename, pkg.hash⟩ := by
      rw [hfiles]
      rfl
    refine ⟨_, hnode, ?_⟩
    simp only [buildEntry, h1, h2, hhead, h4, entryKeyName]
  | vcs name vt url ref cats ds =>
    exact ⟨_, rfl, rfl⟩
  | core name cats ds =>
    exact ⟨_, rfl, rfl⟩

theorem buildFold (g : SourceGroup) :
    ∀ (rest : List LockEntry) (store0 : List RNode) (m0 : List (String × Nat))
    (rd : List Child),
    (∀ e ∈ rest, entryWF g e = true) →
    (rest.map entryKeyName).Nodup →
    ∃ nodes mF, rest.foldlM (buildEntry g) (store0, m0, rd) = .ok (store0 ++ nodes, mF, rd) ∧
      nodes.length = rest.length ∧
      (∀ (j : Nat) (e : LockEntry), rest[j]? = some e →
        ∃ node, nodes[j]? = some node ∧ nodeOfEntry g e = some node ∧
          dictGet mF (entryKeyName e) = some (store0.length + j)) ∧
      (∀ name, name ∉ rest.map entryKeyName → dictGet mF name = dictGet m0 name) := by
  intro rest
  induction rest with
  | nil =>
    intro store0 m0 rd _ _
    refine ⟨[], m0, ?_, rfl, ?_, ?_⟩
    · show (Except.ok (store0, m0, rd) : Except RooErr _) = .ok (store0 ++ [], m0, rd)
      rw [List.append_nil]
    · intro j e h
      cases h
    · intro name _
      rfl
  | cons e rest ih =>
    intro store0 m0 rd hwf hnd
    obtain ⟨node, hnode, hbe⟩ := buildEntry_nonroot (hwf e (List.mem_cons_self _ _)) store0 m0 rd
    rw [List.map_cons, List.nodup_cons] at hnd
    obtain ⟨hkey, hnd'⟩ := hnd
    obtain ⟨nodes, mF, hfold, hlen, hpt, hpre⟩ := ih (store0 ++ [node])
      (dictSet m0 (entryKeyName e) store0.length) rd
      (fun e' he' => hwf e' (List.mem_cons_of_mem _ he')) hnd'
    refine ⟨node :: nodes, mF, ?_, by simpa using hlen, ?_, ?_⟩
    · rw [List.foldlM_cons, hbe]
      rw [show (store0 ++ [node]) ++ nodes = store0 ++ node :: nodes by simp] at hfold
      exact hfold
    · intro j e' hj
      cases j with
      | zero =>
        have he' : e = e' := by simpa using hj
        subst he'
        refine ⟨node, by simp, hnode, ?_⟩
        rw [hpre (entryKeyName e) hkey, dictGet_dictSet_self]
        simp
      | succ j =>
        have hj' : rest[j]? = some e' := by simpa using hj
        obtain ⟨node', hn', hne', hd'⟩ := hpt j e' hj'
        refine ⟨node', by simpa using hn', hne', ?_⟩
        rw [hd']
        have : store0.length + 1 + j = store0.length + (j + 1) := by omega
        simp [this]
    · intro name hname
      rw [List.map_cons, List.mem_cons] at hname
      push_neg at hname
      rw [hpre name hname.2, dictGet_dictSet_ne _ _ _ _ hname.1]

theorem mapM_ok_of_forall {α β : Type} {f : α → Except RooErr β} :
    ∀ {l : List α} {res : List β}, res.length = l.length →
    (∀ (j : Nat) (a : α) (b : β), l[j]? = some a → res[j]? = some b → f a = .ok b) →
    l.mapM f = .ok res := by
  intro l
  induction l with
  | nil =>
    intro res hlen _
    cases res with
    | nil => rfl
    | cons b bs => simp at hlen
  | cons a rest ih =>
    intro res hlen hpt
    cases res with
    | nil => simp at hlen
    | cons b res' =>
      rw [List.mapM_cons, hpt 0 a b (by simp) (by simp)]
      rw [ih (by simpa using hlen)
        (fun j x y hx hy => hpt (j + 1) x y (by simpa using hx) (by simpa using hy))]
      rfl

theorem mapM_bindChild_names (m : List (String × Nat)) (cats : List String) :
    ∀ (ds : List String),
    (∀ d ∈ ds, ∃ j, dictGet m d = some j) →
    ∃ ds', (ds.map (fun d => Child.unres d cats)).mapM (bindChild m) = .ok ds' ∧
      ds'.length = ds.length ∧
      ∀ (k : Nat) (d : String), ds[k]? = some d →
        ∃ j, dictGet m d = some j ∧ ds'[k]? = some (Child.res j) := by
  intro ds
  induction ds with
  | nil =>
    intro _
    refine ⟨[], rfl, rfl, ?_⟩
    intro k d h
    cases h
  | cons d rest ih =>
    intro h
    obtain ⟨j, hj⟩ := h d (List.mem_cons_self _ _)
    obtain ⟨ds', hds', hlen, hpt⟩ := ih (fun d' hd' => h d' (List.mem_cons_of_mem _ hd'))
    refine ⟨Child.res j :: ds', ?_, by simpa using hlen, ?_⟩
    · rw [List.map_cons, List.mapM_cons]
      have hb : bindChild m (Child.unres d cats) = .ok (Child.res j) := by
        simp [bindChild, Child.cname, hj]
      rw [hb, hds']
      rfl
    · intro k d' hk
      cases k with
      | zero =>
        have hdd : d = d' := by simpa using hk
        subst hdd
        exact ⟨j, hj, by simp⟩
      | succ k =>
        obtain ⟨j', hj', hk'⟩ := hpt k d' (by simpa using hk)
        exact ⟨j', hj', by simpa using hk'⟩

theorem bindStore_spec {m : List (String × Nat)} :
    ∀ (l : List RNode) (i0 : Nat),
    (∀ (j : Nat) (n : RNode), l[j]? = some n → dictGet m n.name = some (i0 + j)) →
    (∀ (j : Nat) (n : RNode), l[j]? = some n →
      ∃ ds', n.deps.mapM (bindChild m) = .ok ds') →
    ∃ l', bindStore m i0 l = .ok l' ∧ l'.length = l.length ∧
      ∀ (j : Nat) (n : RNode), l[j]? = some n →
        ∃ ds', n.deps.mapM (bindChild m) = .ok ds' ∧
          l'[j]? = some { n with deps := ds' } := by
  intro l
  induction l with
  | nil =>
    intro i0 _ _
    refine ⟨[], rfl, rfl, ?_⟩
    intro j n h
    cases h
  | cons n rest ih =>
    intro i0 hhit hbind
    obtain ⟨ds', hds'⟩ := hbind 0 n (by simp)
    have hhit0 : dictGet m n.name = some i0 := by simpa using hhit 0 n (by simp)
    obtain ⟨l', hl', hlen, hpt⟩ := ih (i0 + 1)
      (fun j n' hj => by
        have := hhit (j + 1) n' (by simpa using hj)
        rw [this]
        have harith : i0 + (j + 1) = i0 + 1 + j := by omega
        rw [harith])
      (fun j n' hj => hbind (j + 1) n' (by simpa using hj))
    refine ⟨{ n with deps := ds' } :: l', ?_, by simpa using hlen, ?_⟩
    · show bindStore m i0 (n :: rest) = _
      simp only [bindStore, hhit0, beq_self_eq_true, if_true, hds', hl']
      rfl
    · intro j n0 hj
      cases j with
      | zero =>
        have hnn : n = n0 := by simpa using hj
        subst hnn
        exact ⟨ds', hds', by simp⟩
      | succ j =>
        obtain ⟨ds0, hds0, hl0⟩ := hpt j n0 (by simpa using hj)
        exact ⟨ds0, hds0, by simpa using hl0⟩

theorem entryOfItem_bound {g : SourceGroup} {t : Tree} {i : Nat} {e : LockEntry}
    {node : RNode} {ds' : List Child}
    (hwf : entryWF g e = true) (hn : nodeOfEntry g e = some node)
    (hstore : t.store[i]? = some { node with deps := ds' })
    (hnames : ds'.mapM (childNameT t) = .ok (entryDepNames e)) :
    entryOfItem t (Item.child (Child.res i)) = .ok e := by
  cases e with
  | root cats ds => simp [entryWF] at hwf
  | source name ver srcName cats rc files ds =>
    obtain ⟨s, pkg, rcv, h1, h2, h4, hsrc, hfiles, htext, hnode⟩ := source_entry_spec hwf
    rw [hn] at hnode
    cases Option.some.inj hnode
    obtain ⟨hpn, hpv⟩ := find_package_name h2
    simp only [entryOfItem, hstore, hnames, entryDepNames] at *
    simp [hpn, hpv, hsrc, htext, hfiles]
  | vcs name vt url ref cats ds =>
    cases hn
    simp only [entryOfItem, hstore, hnames, entryDepNames]
    rfl
  | core name cats ds =>
    cases hn
    have hds : ds = [] := by
      simpa [entryWF, List.isEmpty_iff] using hwf
    subst hds
    simp only [entryOfItem, hstore]

theorem exceptBind_ok {α β : Type} {x : Except RooErr α} {g : α → Except RooErr β} {b : β}
    (h : x.bind g = .ok b) : ∃ a, x = .ok a ∧ g a = .ok b := by
  cases x with
  | error e => cases h
  | ok a => exact ⟨a, rfl, h⟩

/-- `mapM` transports along a permutation of the input: success is
preserved and the output is permuted accordingly. -/
theorem mapM_perm {α β : Type} {f : α → Except RooErr β} :
    ∀ {u v : List α}, u.Perm v → ∀ {res : List β}, v.mapM f = .ok res →
    ∃ res', u.mapM f = .ok res' ∧ res'.Perm res := by
  intro u v hp
  induction hp with
  | nil =>
    intro res h
    exact ⟨res, h, List.Perm.refl _⟩
  | cons x p ih =>
    intro res h
    rw [List.mapM_cons] at h
    obtain ⟨b, hfx, h2⟩ := exceptBind_ok h
    obtain ⟨bs, hms, hpure⟩ := exceptBind_ok h2
    have hres : b :: bs = res := Except.ok.inj hpure
    subst hres
    obtain ⟨res', hres', hp'⟩ := ih hms
    refine ⟨b :: res', ?_, hp'.cons b⟩
    rw [List.mapM_cons, hfx, hres']
    rfl
  | swap x y l =>
    intro res h
    rw [List.mapM_cons] at h
    obtain ⟨bx, hfx, h2⟩ := exceptBind_ok h
    obtain ⟨bs1, hm1, hp1⟩ := exceptBind_ok h2
    have hres : bx :: bs1 = res := Except.ok.inj hp1
    subst hres
    rw [List.mapM_cons] at hm1
    obtain ⟨by', hfy, h3⟩ := exceptBind_ok hm1
    obtain ⟨bs, hm, hp2⟩ := exceptBind_ok h3
    have hbs1 : by' :: bs = bs1 := Except.ok.inj hp2
    subst hbs1
    refine ⟨by' :: bx :: bs, ?_, List.Perm.swap bx by' bs⟩
    rw [List.mapM_cons, hfy, List.mapM_cons, hfx, hm]
    rfl
  | trans p1 p2 ih1 ih2 =>
    intro res h
    obtain ⟨r2, h2, hp2⟩ := ih2 h
    obtain ⟨r1, h1, hp1⟩ := ih1 h2
    exact ⟨r1, h1, hp1.trans hp2⟩

theorem nodup_getElem?_inj {α : Type} {l : List α} (h : l.Nodup) :
    ∀ {i j : Nat} {a : α}, l[i]? = some a → l[j]? = some a → i = j := by
  induction l with
  | nil =>
    intro i j a hi _
    simp at hi
  | cons x xs ih =>
    intro i j a hi hj
    rw [List.nodup_cons] at h
    obtain ⟨hx, hxs⟩ := h
    cases i with
    | zero =>
      have hax : x = a := by simpa using hi
      subst hax
      cases j with
      | zero => rfl
      | succ j =>
        have : x ∈ xs := List.getElem?_mem (by simpa using hj)
        exact absurd this hx
    | succ i =>
      cases j with
      | zero =>
        have hax : x = a := by simpa using hj
        subst hax
        have : x ∈ xs := List.getElem?_mem (by simpa using hi)
        exact absurd this hx
      | succ j =>
        have := ih hxs (by simpa using hi) (by simpa using hj)
        omega

theorem mem_resIndices {i : Nat} : ∀ (cs : List Child),
    i ∈ resIndices cs ↔ Child.res i ∈ cs := by
  intro cs
  induction cs with
  | nil => simp [resIndices]
  | cons c rest ih =>
    cases c with
    | res k => simp [resIndices, ih]
    | unres nm cs0 => simp [resIndices, ih]
    | unresC nm cs0 k0 => simp [resIndices, ih]
    | unresV nm cs0 vt url ref => simp [resIndices, ih]

/-- The worklist traversal, when it returns, returns a list containing
its whole worklist and closed under taking children of visited
resolved nodes (and of the root). -/
theorem bfsGo_spec {t : Tree} : ∀ (fuel : Nat) (w l : List Item),
    bfsGo t fuel w = some l →
    (∀ it ∈ w, it ∈ l) ∧
    (Item.root ∈ l → ∀ c ∈ t.rootDeps, Item.child c ∈ l) ∧
    (∀ (i : Nat) (n : RNode), Item.child (Child.res i) ∈ l → t.store[i]? = some n →
      ∀ c ∈ n.deps, Item.child c ∈ l) := by
  intro fuel
  induction fuel with
  | zero =>
    intro w l h
    cases w with
    | nil => cases h
    | cons it rest => cases h
  | succ fuel ih =>
    intro w l h
    cases w with
    | nil =>
      cases h
      exact ⟨by simp, by simp, by simp⟩
    | cons it rest =>
      cases it with
      | root =>
        have h' : (bfsGo t fuel (rest ++ t.rootDeps.map Item.child)).map
            (fun l0 => Item.root :: l0) = some l := h
        cases hb : bfsGo t fuel (rest ++ t.rootDeps.map Item.child) with
        | none => rw [hb] at h'; cases h'
        | some l0 =>
          rw [hb] at h'
          have hl : Item.root :: l0 = l := by simpa using h'
          subst hl
          obtain ⟨ihw, ihroot, ihres⟩ := ih _ _ hb
          refine ⟨?_, ?_, ?_⟩
          · intro x hx
            rcases List.mem_cons.mp hx with rfl | hx
            · exact List.mem_cons_self _ _
            · exact List.mem_cons_of_mem _ (ihw x (List.mem_append_left _ hx))
          · intro _ c hc
            exact List.mem_cons_of_mem _
              (ihw _ (List.mem_append_right _ (List.mem_map_of_mem _ hc)))
          · intro i n hi hn c hc
            rcases List.mem_cons.mp hi with hcontr | hi
            · cases hcontr
            · exact List.mem_cons_of_mem _ (ihres i n hi hn c hc)
      | child c =>
        cases c with
        | res i =>
          cases hn : t.store[i]? with
          | none =>
            have h' : (none : Option (List Item)) = some l := by
              simpa [bfsGo, hn] using h
            cases h'
          | some n =>
            have h' : (bfsGo t fuel (rest ++ n.deps.map Item.child)).map
                (fun l0 => Item.child (Child.res i) :: l0) = some l := by
              simpa [bfsGo, hn] using h
            cases hb : bfsGo t fuel (rest ++ n.deps.map Item.child) with
            | none => rw [hb] at h'; cases h'
            | some l0 =>
              rw [hb] at h'
              have hl : Item.child (Child.res i) :: l0 = l := by simpa using h'
              subst hl
              obtain ⟨ihw, ihroot, ihres⟩ := ih _ _ hb
              refine ⟨?_, ?_, ?_⟩
              · intro x hx
                rcases List.mem_cons.mp hx with rfl | hx
                · exact List.mem_cons_self _ _
                · exact List.mem_cons_of_mem _ (ihw x (List.mem_append_left _ hx))
              · intro hr c hc
                rcases List.mem_cons.mp hr with hcontr | hr
                · cases hcontr
                · exact List.mem_cons_of_mem _ (ihroot hr c hc)
              · intro i' n' hi hn' c hc
                rcases List.mem_cons.mp hi with hcontr | hi
                · cases hcontr
                  rw [hn] at hn'
                  cases hn'
                  exact List.mem_cons_of_mem _
                    (ihw _ (List.mem_append_right _ (List.mem_map_of_mem _ hc)))
                · exact List.mem_cons_of_mem _ (ihres i' n' hi hn' c hc)
        | unres nm cs0 =>
          have h' : (bfsGo t fuel (rest ++ [])).map
              (fun l0 => Item.child (Child.unres nm cs0) :: l0) = some l := h
          cases hb : bfsGo t fuel (rest ++ []) with
          | none => rw [hb] at h'; cases h'
          | some l0 =>
            rw [hb] at h'
            have hl : Item.child (Child.unres nm cs0) :: l0 = l := by simpa using h'
            subst hl
            obtain ⟨ihw, ihroot, ihres⟩ := ih _ _ hb
            refine ⟨?_, ?_, ?_⟩
            · intro x hx
              rcases List.mem_cons.mp hx with rfl | hx
              · exact List.mem_cons_self _ _
              · exact List.mem_cons_of_mem _ (ihw x (List.mem_append_left _ hx))
            · intro hr c hc
              rcases List.mem_cons.mp hr with hcontr | hr
              · cases hcontr
              · exact List.mem_cons_of_mem _ (ihroot hr c hc)
            · intro i' n' hi hn' c hc
              rcases List.mem_cons.mp hi with hcontr | hi
              · cases hcontr
              · exact List.mem_cons_of_mem _ (ihres i' n' hi hn' c hc)
        | unresC nm cs0 k0 =>
          have h' : (bfsGo t fuel (rest ++ [])).map
              (fun l0 => Item.child (Child.unresC nm cs0 k0) :: l0) = some l := h
          cases hb : bfsGo t fuel (rest ++ []) with
          | none => rw [hb] at h'; cases h'
          | some l0 =>
            rw [hb] at h'
            have hl : Item.child (Child.unresC nm cs0 k0) :: l0 = l := by simpa using h'
            subst hl
            obtain ⟨ihw, ihroot, ihres⟩ := ih _ _ hb
            refine ⟨?_, ?_, ?_⟩
            · intro x hx
              rcases List.mem_cons.mp hx with rfl | hx
              · exact List.mem_cons_self _ _
              · exact List.mem_cons_of_mem _ (ihw x (List.mem_append_left _ hx))
            · intro hr c hc
              rcases List.mem_cons.mp hr with hcontr | hr
              · cases hcontr
              · exact List.mem_cons_of_mem _ (ihroot hr c hc)
            · intro i' n' hi hn' c hc
              rcases List.mem_cons.mp hi with hcontr | hi
              · cases hcontr
              · exact List.mem_cons_of_mem _ (ihres i' n' hi hn' c hc)
        | unresV nm cs0 vt url ref =>
          have h' : (bfsGo t fuel (rest ++ [])).map
              (fun l0 => Item.child (Child.unresV nm cs0 vt url ref) :: l0) = some l := h
          cases hb : bfsGo t fuel (rest ++ []) with
          | none => rw [hb] at h'; cases h'
          | some l0 =>
            rw [hb] at h'
            have hl : Item.child (Child.unresV nm cs0 vt url ref) :: l0 = l := by simpa using h'
            subst hl
            obtain ⟨ihw, ihroot, ihres⟩ := ih _ _ hb
            refine ⟨?_, ?_, ?_⟩
            · intro x hx
              rcases List.mem_cons.mp hx with rfl | hx
              · exact List.mem_cons_self _ _
              · exact List.mem_cons_of_mem _ (ihw x (List.mem_append_left _ hx))
            · intro hr c hc
              rcases List.mem_cons.mp hr with hcontr | hr
              · cases hcontr
              · exact List.mem_cons_of_mem _ (ihroot hr c hc)
            · intro i' n' hi hn' c hc
              rcases List.mem_cons.mp hi with hcontr | hi
              · cases hcontr
              · exact List.mem_cons_of_mem _ (ihres i' n' hi hn' c hc)

/-- Every item the worklist traversal returns satisfies any predicate
that holds on the initial worklist and is closed under taking
children. -/
theorem bfsGo_all {t : Tree} (P : Item → Prop)
    (hroot : ∀ c ∈ t.rootDeps, P (Item.child c))
    (hstep : ∀ (i : Nat) (n : RNode), P (Item.child (Child.res i)) → t.store[i]? = some n →
      ∀ c ∈ n.deps, P (Item.child c)) :
    ∀ (fuel : Nat) (w l : List Item), bfsGo t fuel w = some l →
    (∀ it ∈ w, P it) → ∀ it ∈ l, P it := by
  intro fuel
  induction fuel with
  | zero =>
    intro w l h
    cases w with
    | nil => cases h
    | cons it rest => cases h
  | succ fuel ih =>
    intro w l h hw
    cases w with
    | nil =>
      cases h
      intro it hit
      cases hit
    | cons it rest =>
      have hrest : ∀ x ∈ rest, P x := fun x hx => hw x (List.mem_cons_of_mem _ hx)
      cases it with
      | root =>
        have h' : (bfsGo t fuel (rest ++ t.rootDeps.map Item.child)).map
            (fun l0 => Item.root :: l0) = some l := h
        cases hb : bfsGo t fuel (rest ++ t.rootDeps.map Item.child) with
        | none => rw [hb] at h'; cases h'
        | some l0 =>
          rw [hb] at h'
          have hl : Item.root :: l0 = l := by simpa using h'
          subst hl
          intro x hx
          rcases List.mem_cons.mp hx with rfl | hx
          · exact hw _ (List.mem_cons_self _ _)
          · refine ih _ _ hb ?_ x hx
            intro y hy
            rcases List.mem_append.mp hy with hy | hy
            · exact hrest y hy
            · rcases List.mem_map.mp hy with ⟨c, hc, rfl⟩
              exact hroot c hc
      | child c =>
        cases c with
        | res i =>
          cases hn : t.store[i]? with
          | none =>
            have h' : (none : Option (List Item)) = some l := by
              simpa [bfsGo, hn] using h
            cases h'
          | some n =>
            have h' : (bfsGo t fuel (rest ++ n.deps.map Item.child)).map
                (fun l0 => Item.child (Child.res i) :: l0) = some l := by
              simpa [bfsGo, hn] using h
            cases hb : bfsGo t fuel (rest ++ n.deps.map Item.child) with
            | none => rw [hb] at h'; cases h'
            | some l0 =>
              rw [hb] at h'
              have hl : Item.child (Child.res i) :: l0 = l := by simpa using h'
              subst hl
              intro x hx
              rcases List.mem_cons.mp hx with rfl | hx
              · exact hw _ (List.mem_cons_self _ _)
              · refine ih _ _ hb ?_ x hx
                intro y hy
                rcases List.mem_append.mp hy with hy | hy
                · exact hrest y hy
                · rcases List.mem_map.mp hy with ⟨c, hc, rfl⟩
                  exact hstep i n (hw _ (List.mem_cons_self _ _)) hn c hc
        | unres nm cs0 =>
          have h' : (bfsGo t fuel (rest ++ [])).map
              (fun l0 => Item.child (Child.unres nm cs0) :: l0) = some l := h
          cases hb : bfsGo t fuel (rest ++ []) with
          | none => rw [hb] at h'; cases h'
          | some l0 =>
            rw [hb] at h'
            have hl : Item.child (Child.unres nm cs0) :: l0 = l := by simpa using h'
            subst hl
            intro x hx
            rcases List.mem_cons.mp hx with rfl | hx
            · exact hw _ (List.mem_cons_self _ _)
            · refine ih _ _ hb ?_ x hx
              intro y hy
              rcases List.mem_append.mp hy with hy | hy
              · exact hrest y hy
              · cases hy
        | unresC nm cs0 k0 =>
          have h' : (bfsGo t fuel (rest ++ [])).map
              (fun l0 => Item.child (Child.unresC nm cs0 k0) :: l0) = some l := h
          cases hb : bfsGo t fuel (rest ++ []) with
          | none => rw [hb] at h'; cases h'
          | some l0 =>
            rw [hb] at h'
            have hl : Item.child (Child.unresC nm cs0 k0) :: l0 = l := by simpa using h'
            subst hl
            intro x hx
            rcases List.mem_cons.mp hx with rfl | hx
            · exact hw _ (List.mem_cons_self _ _)
            · refine ih _ _ hb ?_ x hx
              intro y hy
              rcases List.mem_append.mp hy with hy | hy
              · exact hrest y hy
              · cases hy
        | unresV nm cs0 vt url ref =>
          have h' : (bfsGo t fuel (rest ++ [])).map
              (fun l0 => Item.child (Child.unresV nm cs0 vt url ref) :: l0) = some l := h
          cases hb : bfsGo t fuel (rest ++ []) with
          | none => rw [hb] at h'; cases h'
          | some l0 =>
            rw [hb] at h'
            have hl : Item.child (Child.unresV nm cs0 vt url ref) :: l0 = l := by simpa using h'
            subst hl
            intro x hx
            rcases List.mem_cons.mp hx with rfl | hx
            · exact hw _ (List.mem_cons_self _ _)
            · refine ih _ _ hb ?_ x hx
              intro y hy
              rcases List.mem_append.mp hy with hy | hy
              · exact hrest y hy
              · cases hy

/-- `_unique` over a visit list: the survivors form a sub-collection of
the visits with pairwise distinct keys not in `seen`, covering the key
of every visit. -/
theorem uniqueArenaGo_spec {t : Tree} : ∀ (l : List Item) (seen : List String) (u : List Item),
    uniqueArenaGo t seen l = .ok u →
    (∀ it ∈ u, it ∈ l) ∧
    (∀ it ∈ l, ∃ k, itemKey t it = .ok k ∧
      (k ∈ seen ∨ ∃ it' ∈ u, itemKey t it' = .ok k)) ∧
    (∀ it ∈ u, ∃ k, itemKey t it = .ok k ∧ k ∉ seen) ∧
    u.Pairwise (fun a b => ∀ ka kb, itemKey t a = .ok ka → itemKey t b = .ok kb → ka ≠ kb) := by
  intro l
  induction l with
  | nil =>
    intro seen u h
    cases h
    exact ⟨by simp, by simp, by simp, by simp⟩
  | cons it rest ih =>
    intro seen u h
    cases hk : itemKey t it with
    | error e =>
      simp only [uniqueArenaGo] at h
      rw [hk] at h
      cases h
    | ok k =>
      simp only [uniqueArenaGo] at h
      rw [hk] at h
      have hcoerce : (if seen.contains k then uniqueArenaGo t seen rest
          else do
            let l2 ← uniqueArenaGo t (k :: seen) rest
            pure (it :: l2)) = Except.ok u := h
      by_cases hseen : seen.contains k = true
      · rw [if_pos hseen] at hcoerce
        obtain ⟨h1, h2, h3, h4⟩ := ih seen u hcoerce
        refine ⟨fun x hx => List.mem_cons_of_mem _ (h1 x hx), ?_, h3, h4⟩
        intro x hx
        rcases List.mem_cons.mp hx with rfl | hx
        · exact ⟨k, hk, Or.inl (by simpa using hseen)⟩
        · exact h2 x hx
      · rw [if_neg hseen] at hcoerce
        cases hu : uniqueArenaGo t (k :: seen) rest with
        | error e => rw [hu] at hcoerce; cases hcoerce
        | ok u' =>
          rw [hu] at hcoerce
          have hueq : it :: u' = u := by simpa using hcoerce
          subst hueq
          obtain ⟨h1, h2, h3, h4⟩ := ih (k :: seen) u' hu
          refine ⟨?_, ?_, ?_, ?_⟩
          · intro x hx
            rcases List.mem_cons.mp hx with rfl | hx
            · exact List.mem_cons_self _ _
            · exact List.mem_cons_of_mem _ (h1 x hx)
          · intro x hx
            rcases List.mem_cons.mp hx with rfl | hx
            · exact ⟨k, hk, Or.inr ⟨x, List.mem_cons_self _ _, hk⟩⟩
            · obtain ⟨k', hk', hor⟩ := h2 x hx
              rcases hor with hmem | ⟨it', hit', hk''⟩
              · rcases List.mem_cons.mp hmem with rfl | hmem
                · exact ⟨k', hk', Or.inr ⟨it, List.mem_cons_self _ _, hk⟩⟩
                · exact ⟨k', hk', Or.inl hmem⟩
              · exact ⟨k', hk', Or.inr ⟨it', List.mem_cons_of_mem _ hit', hk''⟩⟩
          · intro x hx
            rcases List.mem_cons.mp hx with rfl | hx
            · refine ⟨k, hk, ?_⟩
              intro hmem
              exact hseen (by simpa using hmem)
            · obtain ⟨k', hk', hnotin⟩ := h3 x hx
              exact ⟨k', hk', fun hmem => hnotin (List.mem_cons_of_mem _ hmem)⟩
          · refine List.pairwise_cons.mpr ⟨?_, h4⟩
            intro b hb ka kb hka hkb
            rw [hk] at hka
            cases hka
            obtain ⟨kb', hkb', hnb⟩ := h3 b hb
            rw [hkb'] at hkb
            cases hkb
            intro heq
            exact hnb (heq ▸ List.mem_cons_self _ _)

theorem uniqueArenaGo_total {t : Tree} : ∀ (l : List Item) (seen : List String),
    (∀ it ∈ l, ∃ k, itemKey t it = .ok k) →
    ∃ u, uniqueArenaGo t seen l = .ok u := by
  intro l
  induction l with
  | nil =>
    intro seen _
    exact ⟨[], rfl⟩
  | cons it rest ih =>
    intro seen hall
    obtain ⟨k, hk⟩ := hall it (List.mem_cons_self _ _)
    have hrest : ∀ it' ∈ rest, ∃ k', itemKey t it' = .ok k' :=
      fun it' h => hall it' (List.mem_cons_of_mem _ h)
    by_cases hseen : seen.contains k = true
    · obtain ⟨u, hu⟩ := ih seen hrest
      refine ⟨u, ?_⟩
      show (do
          let k0 ← itemKey t it
          if seen.contains k0 then uniqueArenaGo t seen rest
          else do
            let l2 ← uniqueArenaGo t (k0 :: seen) rest
            pure (it :: l2)) = Except.ok u
      rw [hk]
      show (if seen.contains k then uniqueArenaGo t seen rest
          else do
            let l2 ← uniqueArenaGo t (k :: seen) rest
            pure (it :: l2)) = Except.ok u
      rw [if_pos hseen, hu]
    · obtain ⟨u, hu⟩ := ih (k :: seen) hrest
      refine ⟨it :: u, ?_⟩
      show (do
          let k0 ← itemKey t it
          if seen.contains k0 then uniqueArenaGo t seen rest
          else do
            let l2 ← uniqueArenaGo t (k0 :: seen) rest
            pure (it :: l2)) = Except.ok (it :: u)
      rw [hk]
      show (if seen.contains k then uniqueArenaGo t seen rest
          else do
            let l2 ← uniqueArenaGo t (k :: seen) rest
            pure (it :: l2)) = Except.ok (it :: u)
      rw [if_neg hseen, hu]
      rfl

/-- `foldlM` over a concatenation, for the `Except` monad. -/
theorem foldlM_append_E {α β : Type} (f : β → α → Except RooErr β) :
    ∀ (l1 l2 : List α) (b : β),
    (l1 ++ l2).foldlM f b = (l1.foldlM f b).bind (fun b2 => l2.foldlM f b2) := by
  intro l1
  induction l1 with
  | nil =>
    intro l2 b
    rfl
  | cons a rest ih =>
    intro l2 b
    rw [List.cons_append, List.foldlM_cons, List.foldlM_cons]
    cases hf : f b a with
    | error e => rfl
    | ok b2 => exact ih l2 b2

/-- C5.  Lock round-trip: take any entry list made of one root entry
(with the empty category list serialization writes) at an arbitrary
position among non-root entries with pairwise distinct non-empty
names, every declared dependency name occurring in the list, and each
entry well-formed for the source group (its package is found in the
named source, its file list is the package's `(filename, hash)` pair,
its stored R-constraint text is canonical).  If reconstruction
succeeds, the traversal of the reconstructed tree terminates within
the fuel, and every node is reachable from the root (the list
describes a connected resolved graph), then flattening the
reconstructed tree reproduces the entries up to re-ordering:
`deptree_to_lock_entries (lock_entries_to_deptree g entries)` is a
permutation of `entries`, with every entry's fields — categories and
dependency-name lists included — reproduced verbatim. -/
theorem lock_round_trip (g : SourceGroup) (fuel : Nat) (ds0 : List String)
    (pre post : List LockEntry) (t : Tree)
    (hwf : ∀ e ∈ pre ++ post, entryWF g e = true)
    (hnd : ((pre ++ post).map entryKeyName).Nodup)
    (hne : "" ∉ (pre ++ post).map entryKeyName)
    (hclosed0 : ∀ d ∈ ds0, d ∈ (pre ++ post).map entryKeyName)
    (hclosed : ∀ e ∈ pre ++ post, ∀ d ∈ entryDepNames e,
      d ∈ (pre ++ post).map entryKeyName)
    (h1 : lock_entries_to_deptree g (pre ++ LockEntry.root [] ds0 :: post) = .ok t)
    (hterm : (traverseArena t fuel).isSome = true)
    (hreach : ∀ j, j < (pre ++ post).length →
      ReachableFrom t.store (resIndices t.rootDeps) j) :
    ∃ out, deptree_to_lock_entries t fuel = .ok out ∧
      out.Perm (pre ++ LockEntry.root [] ds0 :: post) := by
  -- split the well-formedness along pre/post
  have hndApp := hnd
  rw [List.map_append, List.nodup_append] at hndApp
  obtain ⟨hndPre, hndPost, hdisj⟩ := hndApp
  obtain ⟨nodesPre, mPre, hfoldPre, hlenPre, hptPre, hpreC⟩ :=
    buildFold g pre [] [] [] (fun e he => hwf e (List.mem_append_left _ he)) hndPre
  rw [show ([] : List RNode) ++ nodesPre = nodesPre by simp] at hfoldPre
  obtain ⟨nodesPost, mF, hfoldPost, hlenPost, hptPost, hpostC⟩ :=
    buildFold g post nodesPre mPre (ds0.map (fun d => Child.unres d []))
      (fun e he => hwf e (List.mem_append_right _ he)) hndPost
  -- peel the reconstruction
  have hniz : (pre ++ LockEntry.root [] ds0 :: post).isEmpty = false := by
    cases pre <;> rfl
  have h1' : (if (pre ++ LockEntry.root [] ds0 :: post).isEmpty then
      Except.ok (⟨[], []⟩ : Tree)
    else do
      let (store, m, rootDeps0) ←
        (pre ++ LockEntry.root [] ds0 :: post).foldlM (buildEntry g) ([], [], [])
      let store' ← bindStore m 0 store
      let rootDeps ← rootDeps0.mapM (bindChild m)
      Except.ok ⟨store', rootDeps⟩ : Except RooErr Tree) = .ok t := h1
  rw [foldlM_append_E] at h1'
  rw [hfoldPre] at h1'
  split at h1'
  · rename_i hcond
    rw [hniz] at hcond
    cases hcond
  have hA : (do
      let (store, m, rootDeps0) ← (LockEntry.root [] ds0 :: post).foldlM (buildEntry g)
        (nodesPre, mPre, ([] : List Child))
      let store' ← bindStore m 0 store
      let rootDeps ← rootDeps0.mapM (bindChild m)
      Except.ok ⟨store', rootDeps⟩ : Except RooErr Tree) = .ok t := h1'
  rw [List.foldlM_cons] at hA
  have hrootstep : buildEntry g (nodesPre, mPre, ([] : List Child)) (LockEntry.root [] ds0) =
      .ok (nodesPre, mPre, ds0.map (fun d => Child.unres d [])) := rfl
  rw [hrootstep] at hA
  have hB : (do
      let (store, m, rootDeps0) ← post.foldlM (buildEntry g)
        (nodesPre, mPre, ds0.map (fun d => Child.unres d []))
      let store' ← bindStore m 0 store
      let rootDeps ← rootDeps0.mapM (bindChild m)
      Except.ok ⟨store', rootDeps⟩ : Except RooErr Tree) = .ok t := hA
  rw [hfoldPost] at hB
  have h2' : (do
      let store' ← bindStore mF 0 (nodesPre ++ nodesPost)
      let rootDeps ← (ds0.map (fun d => Child.unres d [])).mapM (bindChild mF)
      Except.ok ⟨store', rootDeps⟩ : Except RooErr Tree) = .ok t := hB
  -- the combined per-entry facts
  have hlen : (nodesPre ++ nodesPost).length = (pre ++ post).length := by
    simp [hlenPre, hlenPost]
  have hpt : ∀ (j : Nat) (e : LockEntry), (pre ++ post)[j]? = some e →
      ∃ node, (nodesPre ++ nodesPost)[j]? = some node ∧ nodeOfEntry g e = some node ∧
        dictGet mF (entryKeyName e) = some j := by
    intro j e hj
    rw [List.getElem?_append] at hj
    by_cases hjp : j < pre.length
    · rw [if_pos hjp] at hj
      obtain ⟨node, hnj, hne', hdj⟩ := hptPre j e hj
      have hkeymem : entryKeyName e ∈ pre.map entryKeyName :=
        List.mem_map_of_mem _ (List.getElem?_mem hj)
      refine ⟨node, ?_, hne', ?_⟩
      · rw [List.getElem?_append, if_pos (by omega)]
        exact hnj
      · rw [hpostC (entryKeyName e) (fun hmem => hdisj hkeymem hmem)]
        simpa using hdj
    · rw [if_neg hjp] at hj
      obtain ⟨node, hnj, hne', hdj⟩ := hptPost (j - pre.length) e hj
      refine ⟨node, ?_, hne', ?_⟩
      · rw [List.getElem?_append, if_neg (by omega)]
        rw [hlenPre]
        exact hnj
      · have heq : nodesPre.length + (j - pre.length) = j := by omega
        rw [hdj, heq]
  -- key facts about the final dictionary
  have hkeyfact : ∀ d, d ∈ (pre ++ post).map entryKeyName →
      ∃ j e node, (pre ++ post)[j]? = some e ∧ entryKeyName e = d ∧
        (nodesPre ++ nodesPost)[j]? = some node ∧
        nodeOfEntry g e = some node ∧ dictGet mF d = some j := by
    intro d hd
    rcases List.mem_map.mp hd with ⟨e, he, hkey⟩
    rcases List.mem_iff_getElem?.mp he with ⟨j, hj⟩
    obtain ⟨node, hnj, hne2, hdj⟩ := hpt j e hj
    refine ⟨j, e, node, hj, hkey, hnj, hne2, ?_⟩
    rw [← hkey]
    exact hdj
  have hbindable : ∀ d, d ∈ (pre ++ post).map entryKeyName →
      ∃ j, dictGet mF d = some j := by
    intro d hd
    obtain ⟨j, _, _, _, _, _, _, hdict⟩ := hkeyfact d hd
    exact ⟨j, hdict⟩
  -- bind the store
  have hnodewf : ∀ (j : Nat) (n : RNode), (nodesPre ++ nodesPost)[j]? = some n →
      ∃ e, (pre ++ post)[j]? = some e ∧ nodeOfEntry g e = some n := by
    intro j n hj
    have hjlen : j < (pre ++ post).length := by
      have := (List.getElem?_eq_some.mp hj).1
      omega
    obtain ⟨e, hje⟩ : ∃ e, (pre ++ post)[j]? = some e := by
      rw [List.getElem?_eq_getElem hjlen]
      exact ⟨_, rfl⟩
    obtain ⟨node, hnj, hne2, _⟩ := hpt j e hje
    rw [hj] at hnj
    cases hnj
    exact ⟨e, hje, hne2⟩
  have hbindall : ∀ (j : Nat) (n : RNode), (nodesPre ++ nodesPost)[j]? = some n →
      ∃ ds', n.deps.mapM (bindChild mF) = .ok ds' := by
    intro j n hj
    obtain ⟨e, hje, hne2⟩ := hnodewf j n hj
    have hdeps := nodeOfEntry_deps (hwf e (List.getElem?_mem hje)) hne2
    rw [hdeps]
    obtain ⟨ds', hds', _, _⟩ :=
      mapM_bindChild_names mF n.categories (entryDepNames e)
        (fun d hd => hbindable d (hclosed e (List.getElem?_mem hje) d hd))
    exact ⟨ds', hds'⟩
  have hhit : ∀ (j : Nat) (n : RNode), (nodesPre ++ nodesPost)[j]? = some n →
      dictGet mF n.name = some (0 + j) := by
    intro j n hj
    obtain ⟨e, hje, hne2⟩ := hnodewf j n hj
    obtain ⟨node, hnj, _, hdj⟩ := hpt j e hje
    rw [hj] at hnj
    cases hnj
    rw [nodeOfEntry_name hne2]
    simpa using hdj
  obtain ⟨store', hbindst, hstlen, hstpt⟩ := bindStore_spec (nodesPre ++ nodesPost) 0 hhit hbindall
  rw [hbindst] at h2'
  -- bind the root dependencies
  obtain ⟨rd', hrd', hrdlen, hrdpt⟩ :=
    mapM_bindChild_names mF ([] : List String) ds0
      (fun d hd => hbindable d (hclosed0 d hd))
  have h3' : (do
      let rootDeps ← (ds0.map (fun d => Child.unres d [])).mapM (bindChild mF)
      Except.ok ⟨store', rootDeps⟩ : Except RooErr Tree) = .ok t := h2'
  rw [hrd'] at h3'
  have ht : t = ⟨store', rd'⟩ := by
    have h5' : (Except.ok (⟨store', rd'⟩ : Tree) : Except RooErr Tree) = .ok t := h3'
    exact (Except.ok.inj h5').symm
  subst ht
  have hlenS : store'.length = (pre ++ post).length := hstlen.trans hlen
  -- the name stored at a dictionary hit
  have hdictname : ∀ (d : String) (j : Nat), d ∈ (pre ++ post).map entryKeyName →
      dictGet mF d = some j → ∃ nd, store'[j]? = some nd ∧ nd.name = d := by
    intro d j hd hdict
    obtain ⟨j', e, node, hje, hkey, hnj, hne2, hdict'⟩ := hkeyfact d hd
    rw [hdict] at hdict'
    cases hdict'
    obtain ⟨ds', _, hst⟩ := hstpt j node hnj
    refine ⟨_, hst, ?_⟩
    rw [show ({ node with deps := ds' } : RNode).name = node.name from rfl]
    rw [nodeOfEntry_name hne2, hkey]
  -- the names of the bound store
  have hstorename : ∀ (j : Nat) (n : RNode), store'[j]? = some n →
      ∃ e, (pre ++ post)[j]? = some e ∧ n.name = entryKeyName e := by
    intro j n hj
    have hjlen : j < (nodesPre ++ nodesPost).length := by
      have := (List.getElem?_eq_some.mp hj).1
      omega
    obtain ⟨node, hnodej⟩ : ∃ node, (nodesPre ++ nodesPost)[j]? = some node := by
      rw [List.getElem?_eq_getElem hjlen]
      exact ⟨_, rfl⟩
    obtain ⟨e, hje, hne2⟩ := hnodewf j node hnodej
    obtain ⟨ds', _, hst⟩ := hstpt j node hnodej
    rw [hj] at hst
    cases hst
    refine ⟨e, hje, ?_⟩
    show node.name = entryKeyName e
    exact nodeOfEntry_name hne2
  have hname_ne : ∀ (j : Nat) (n : RNode), store'[j]? = some n → n.name ≠ "" := by
    intro j n hj hcontr
    obtain ⟨e, hje, hnm⟩ := hstorename j n hj
    apply hne
    rw [← hcontr, hnm]
    exact List.mem_map_of_mem _ (List.getElem?_mem hje)
  have hname_inj : ∀ (j j' : Nat) (n n' : RNode), store'[j]? = some n →
      store'[j']? = some n' → n.name = n'.name → j = j' := by
    intro j j' n n' hj hj' hnm
    obtain ⟨e, hje, hnme⟩ := hstorename j n hj
    obtain ⟨e', hje', hnme'⟩ := hstorename j' n' hj'
    apply nodup_getElem?_inj hnd (a := entryKeyName e)
    · rw [List.getElem?_map, hje]
      rfl
    · rw [List.getElem?_map, hje']
      simp only [Option.map_some']
      rw [← hnme', ← hnm, hnme]
  -- resolved children of the bound store are valid references
  have hrootvalid : ∀ c ∈ rd', ∃ (j : Nat) (n : RNode), c = Child.res j ∧
      store'[j]? = some n := by
    intro c hc
    rcases List.mem_iff_getElem?.mp hc with ⟨k, hk⟩
    have hklen : k < ds0.length := by
      have := (List.getElem?_eq_some.mp hk).1
      omega
    obtain ⟨d, hd⟩ : ∃ d, ds0[k]? = some d := by
      rw [List.getElem?_eq_getElem hklen]
      exact ⟨_, rfl⟩
    obtain ⟨jd, hjd, hk'⟩ := hrdpt k d hd
    rw [hk] at hk'
    cases hk'
    obtain ⟨nd, hnd, _⟩ := hdictname d jd (hclosed0 d (List.getElem?_mem hd)) hjd
    exact ⟨jd, nd, rfl, hnd⟩
  have hchildvalid : ∀ (i : Nat) (n : RNode), store'[i]? = some n →
      ∀ c ∈ n.deps, ∃ (j2 : Nat) (n2 : RNode), c = Child.res j2 ∧
        store'[j2]? = some n2 := by
    intro i n hi c hc
    have hilen : i < (nodesPre ++ nodesPost).length := by
      have := (List.getElem?_eq_some.mp hi).1
      omega
    obtain ⟨node, hnodei⟩ : ∃ node, (nodesPre ++ nodesPost)[i]? = some node := by
      rw [List.getElem?_eq_getElem hilen]
      exact ⟨_, rfl⟩
    obtain ⟨e, hie, hne2⟩ := hnodewf i node hnodei
    have hewf := hwf e (List.getElem?_mem hie)
    have hdeps := nodeOfEntry_deps hewf hne2
    obtain ⟨ds', hds', hdslen, hdspt⟩ :=
      mapM_bindChild_names mF node.categories (entryDepNames e)
        (fun d hd => hbindable d (hclosed e (List.getElem?_mem hie) d hd))
    obtain ⟨ds'', hds'', hst⟩ := hstpt i node hnodei
    rw [hdeps, hds'] at hds''
    cases Except.ok.inj hds''
    rw [hi] at hst
    cases hst
    have hc' : c ∈ ds' := hc
    rcases List.mem_iff_getElem?.mp hc' with ⟨k, hk⟩
    have hklen : k < (entryDepNames e).length := by
      have := (List.getElem?_eq_some.mp hk).1
      omega
    obtain ⟨d, hd⟩ : ∃ d, (entryDepNames e)[k]? = some d := by
      rw [List.getElem?_eq_getElem hklen]
      exact ⟨_, rfl⟩
    obtain ⟨jd, hjd, hk'⟩ := hdspt k d hd
    rw [hk] at hk'
    cases hk'
    obtain ⟨nd, hnd, _⟩ := hdictname d jd
      (hclosed e (List.getElem?_mem hie) d (List.getElem?_mem hd)) hjd
    exact ⟨jd, nd, rfl, hnd⟩
  -- the traversal
  obtain ⟨l0, hl0⟩ := Option.isSome_iff_exists.mp hterm
  obtain ⟨hsub, hrootcl, hrescl⟩ := bfsGo_spec fuel [Item.root] l0 hl0
  have hrootl0 : Item.root ∈ l0 := hsub _ (by simp)
  have hallP : ∀ it ∈ l0, it = Item.root ∨
      ∃ (j : Nat) (n : RNode), it = Item.child (Child.res j) ∧ store'[j]? = some n := by
    refine bfsGo_all _ ?_ ?_ fuel [Item.root] l0 hl0 ?_
    · intro c hc
      obtain ⟨j, n, rfl, hj⟩ := hrootvalid c hc
      exact Or.inr ⟨j, n, rfl, hj⟩
    · intro i n hP hn c hc
      obtain ⟨j2, n2, rfl, hj2⟩ := hchildvalid i n hn c hc
      exact Or.inr ⟨j2, n2, rfl, hj2⟩
    · intro it hit
      have hit' : it = Item.root := by simpa using hit
      exact Or.inl hit'
  have hkeyok : ∀ it ∈ l0, ∃ k, itemKey ⟨store', rd'⟩ it = .ok k := by
    intro it hit
    rcases hallP it hit with rfl | ⟨j, n, rfl, hj⟩
    · exact ⟨"", rfl⟩
    · exact ⟨n.name, by simp [itemKey, hj]⟩
  obtain ⟨u, hu⟩ := uniqueArenaGo_total l0 [] hkeyok
  obtain ⟨husub, hucover, hufresh, hupair⟩ := uniqueArenaGo_spec l0 [] u hu
  -- the unique list holds the root
  have hrootu : Item.root ∈ u := by
    obtain ⟨k, hk, hor⟩ := hucover Item.root hrootl0
    have hkeq : ("" : String) = k := Except.ok.inj hk
    subst hkeq
    rcases hor with hmem | ⟨it', hit', hk'⟩
    · simp at hmem
    · rcases hallP it' (husub it' hit') with rfl | ⟨j, n, rfl, hj⟩
      · exact hit'
      · exfalso
        have hkey2 : itemKey ⟨store', rd'⟩ (Item.child (Child.res j)) = .ok n.name := by
          simp [itemKey, hj]
        rw [hkey2] at hk'
        exact hname_ne j n hj (Except.ok.inj hk')
  -- the unique list holds every store index
  have hreach_l0 : ∀ j, ReachableFrom store' (resIndices rd') j →
      Item.child (Child.res j) ∈ l0 := by
    intro j hr
    induction hr with
    | base b hb => exact hrootcl hrootl0 _ ((mem_resIndices rd').mp hb)
    | step a b m ha hm hb iha => exact hrescl a m iha hm _ hb
  have hidxu : ∀ j, j < store'.length → Item.child (Child.res j) ∈ u := by
    intro j hjN
    have hl0j : Item.child (Child.res j) ∈ l0 :=
      hreach_l0 j (hreach j (by omega))
    obtain ⟨n, hn⟩ : ∃ n, store'[j]? = some n := by
      rw [List.getElem?_eq_getElem hjN]
      exact ⟨_, rfl⟩
    obtain ⟨k, hk, hor⟩ := hucover _ hl0j
    have hkey1 : itemKey ⟨store', rd'⟩ (Item.child (Child.res j)) = .ok n.name := by
      simp [itemKey, hn]
    rw [hkey1] at hk
    cases hk
    rcases hor with hmem | ⟨it', hit', hk'⟩
    · simp at hmem
    · rcases hallP it' (husub it' hit') with rfl | ⟨j', n', rfl, hj'⟩
      · exfalso
        have hkroot : itemKey ⟨store', rd'⟩ Item.root = .ok "" := rfl
        rw [hkroot] at hk'
        exact hname_ne j n hn (Except.ok.inj hk').symm
      · have hkey2 : itemKey ⟨store', rd'⟩ (Item.child (Child.res j')) = .ok n'.name := by
          simp [itemKey, hj']
        rw [hkey2] at hk'
        have hj'j : j' = j := hname_inj j' j n' n hj' hn (Except.ok.inj hk')
        subst hj'j
        exact hit'
  -- `u` is a permutation of the root followed by all indices
  have huchar : ∀ it ∈ u, it = Item.root ∨
      ∃ j, it = Item.child (Child.res j) ∧ j < store'.length := by
    intro it hit
    rcases hallP it (husub it hit) with rfl | ⟨j, n, rfl, hj⟩
    · exact Or.inl rfl
    · exact Or.inr ⟨j, rfl, (List.getElem?_eq_some.mp hj).1⟩
  have hunodup : u.Nodup := by
    have h0 : u.Pairwise (fun a b => a ≠ b) := by
      refine List.Pairwise.imp_of_mem ?_ hupair
      intro a b ha hb hr heq
      obtain ⟨ka, hka, _⟩ := hufresh a ha
      exact hr ka ka hka (heq ▸ hka) rfl
    exact h0
  have htargetnodup : (Item.root :: (List.range store'.length).map
      (fun j => Item.child (Child.res j))).Nodup := by
    refine List.nodup_cons.mpr ⟨?_, ?_⟩
    · simp
    · refine List.Nodup.map ?_ (List.nodup_range store'.length)
      intro a b hab
      simpa using hab
  have hmemiff : ∀ it, it ∈ u ↔ it ∈ Item.root :: (List.range store'.length).map
      (fun j => Item.child (Child.res j)) := by
    intro it
    constructor
    · intro hit
      rcases huchar it hit with rfl | ⟨j, rfl, hjN⟩
      · exact List.mem_cons_self _ _
      · exact List.mem_cons_of_mem _ (List.mem_map_of_mem _ (List.mem_range.mpr hjN))
    · intro hit
      rcases List.mem_cons.mp hit with rfl | hit
      · exact hrootu
      · rcases List.mem_map.mp hit with ⟨j, hjr, rfl⟩
        exact hidxu j (List.mem_range.mp hjr)
  have hperm : u.Perm (Item.root :: (List.range store'.length).map
      (fun j => Item.child (Child.res j))) :=
    (List.subperm_of_subset hunodup (fun x hx => (hmemiff x).mp hx)).antisymm
      (List.subperm_of_subset htargetnodup (fun x hx => (hmemiff x).mpr hx))
  rw [hlenS] at hperm
  -- serialization of the canonical visit order
  have hmain : (Item.root :: (List.range (pre ++ post).length).map
      (fun i => Item.child (Child.res i))).mapM (entryOfItem ⟨store', rd'⟩) =
      .ok (LockEntry.root [] ds0 :: (pre ++ post)) := by
    apply mapM_ok_of_forall
    · simp
    · intro j a b hja hjb
      cases j with
      | zero =>
        have ha : Item.root = a := by simpa using hja
        have hb : LockEntry.root [] ds0 = b := by simpa using hjb
        subst ha
        subst hb
        show entryOfItem ⟨store', rd'⟩ Item.root = .ok (LockEntry.root [] ds0)
        have hrdnames : rd'.mapM (childNameT ⟨store', rd'⟩) = .ok ds0 := by
          apply mapM_ok_of_forall
          · omega
          · intro k c d hkc hkd
            obtain ⟨jd, hjd, hkc'⟩ := hrdpt k d hkd
            rw [hkc] at hkc'
            cases hkc'
            obtain ⟨nd, hnd, hndname⟩ := hdictname d jd (hclosed0 d (List.getElem?_mem hkd)) hjd
            simp only [childNameT, hnd, hndname]
        simp only [entryOfItem, hrdnames]
        rfl
      | succ j =>
        have hjlen : j < (pre ++ post).length := by
          have := (List.getElem?_eq_some.mp hja).1
          simpa using this
        have ha : a = Item.child (Child.res j) := by
          simp only [List.getElem?_cons_succ, List.getElem?_map] at hja
          rw [List.getElem?_range hjlen] at hja
          simpa using hja.symm
        obtain ⟨e, hje⟩ : ∃ e, (pre ++ post)[j]? = some e := by
          rw [List.getElem?_eq_getElem hjlen]
          exact ⟨_, rfl⟩
        have hb : e = b := by
          rw [List.getElem?_cons_succ, hje] at hjb
          simpa using hjb
        subst ha
        subst hb
        obtain ⟨node, hnj, hne2, _⟩ := hpt j e hje
        have hewf := hwf e (List.getElem?_mem hje)
        have hdeps := nodeOfEntry_deps hewf hne2
        obtain ⟨ds', hds', hdslen, hdspt⟩ :=
          mapM_bindChild_names mF node.categories (entryDepNames e)
            (fun d hd => hbindable d (hclosed e (List.getElem?_mem hje) d hd))
        obtain ⟨ds'', hds'', hst⟩ := hstpt j node hnj
        rw [hdeps, hds'] at hds''
        cases Except.ok.inj hds''
        apply entryOfItem_bound hewf hne2 hst
        apply mapM_ok_of_forall
        · omega
        · intro k c d hkc hkd
          obtain ⟨jd, hjd, hkc'⟩ := hdspt k d hkd
          rw [hkc] at hkc'
          cases hkc'
          obtain ⟨nd, hnd, hndname⟩ :=
            hdictname d jd (hclosed e (List.getElem?_mem hje) d (List.getElem?_mem hkd)) hjd
          simp only [childNameT, hnd, hndname]
  -- transport along the permutation and conclude
  obtain ⟨out, hout, houtperm⟩ := mapM_perm hperm hmain
  refine ⟨out, ?_, ?_⟩
  · have hun : traverseArenaUnique ⟨store', rd'⟩ fuel = .ok u := by
      unfold traverseArenaUnique
      rw [hl0]
      exact hu
    unfold deptree_to_lock_entries
    rw [hun]
    exact hout
  · exact houtperm.trans List.perm_middle.symm

/-- C5 witness: a concrete lock list over the `Scn` source group, with
the root entry in the middle, round-trips up to re-ordering. -/
theorem lock_round_trip_witness :
    ∃ out, deptree_to_lock_entries
      ⟨[⟨"pkgA", ["main"], .src { Scn.pkgA10 with expected_hash := some "hA0" } .star, [.res 1]⟩,
        ⟨"pkgB", ["main"], .src { Scn.pkgB10 with expected_hash := some "hB" } .star, []⟩],
       [.res 0]⟩ 100 = .ok out ∧
      out.Perm
        [.source "pkgA" ⟨1, 0, 0⟩ "CRAN" ["main"] "*" [⟨"pkgA_1.0.0.tar.gz", "hA0"⟩] ["pkgB"],
         .root [] ["pkgA"],
         .source "pkgB" ⟨1, 0, 0⟩ "CRAN" ["main"] "*" [⟨"pkgB_1.0.0.tar.gz", "hB"⟩] []] :=
  lock_round_trip Scn.g 100 ["pkgA"]
    [.source "pkgA" ⟨1, 0, 0⟩ "CRAN" ["main"] "*" [⟨"pkgA_1.0.0.tar.gz", "hA0"⟩] ["pkgB"]]
    [.source "pkgB" ⟨1, 0, 0⟩ "CRAN" ["main"] "*" [⟨"pkgB_1.0.0.tar.gz", "hB"⟩] []]
    ⟨[⟨"pkgA", ["main"], .src { Scn.pkgA10 with expected_hash := some "hA0" } .star, [.res 1]⟩,
      ⟨"pkgB", ["main"], .src { Scn.pkgB10 with expected_hash := some "hB" } .star, []⟩],
     [.res 0]⟩
    (by decide) (by decide) (by decide) (by decide) (by decide) rfl rfl
    (by
      intro j hj
      rcases j with _ | j
      · exact .base 0 (by simp [resIndices])
      · rcases j with _ | j
        · exact .step 0 1
            ⟨"pkgA", ["main"], .src { Scn.pkgA10 with expected_hash := some "hA0" } .star,
              [.res 1]⟩
            (.base 0 (by simp [resIndices])) rfl (by simp)
        · have hj2 : j + 2 < 2 := hj
          omega)

end Roo
